import Mathlib

/-!
# Huffman codec (`huffman.cpp`): shallow embedding and verified properties

The embedding follows `src/huffman.cpp` function by function.

* `char` symbols are `Char`; a `std::string` is a `List Char`; the bits of a
  code are the characters `'0'` and `'1'` exactly as in the program.
* `Node*` is `NodePtr`: either `null` or a node owning its two children.
* `std::map<char, V>` is a key-sorted association list (`mapModify` is
  `operator[]` followed by a write); iteration order is key order, keys being
  compared by character code.
* `std::priority_queue<Node*, vector<Node*>, compare>` is the underlying
  vector together with the binary-heap routines `std::push_heap` and
  `std::pop_heap` that the adaptor calls, written as in GNU libstdc++
  (`bits/stl_heap.h`: a hole is moved up, or down to the bottom and back up).
  The proofs about the built tree use the queue through two facts only: its
  routines permute the vector, and the front element has the least `freq`
  (the relation `Greedy`); the order among equal frequencies never matters.
* `int` is 32 bits wide.  A `freq` is an `Int`.  The addition
  `left->freq + right->freq` of `buildHuffmanTree` is followed by `wrapInt`,
  the reduction into the range of `int`: its operands come from the frequency
  table passed in, whose counts may add up beyond `2^31 - 1`.  (An overflowing
  signed addition has no defined value in C++; the two's-complement result is
  what the usual compilers produce for this statement.)  The counters of
  `calculateFrequency` are incremented once per character and stay within
  `int` for every text shorter than `2^31` characters; texts are taken to be
  shorter than that, and the increment is modelled without reduction.
* Dereferencing a null pointer is undefined behaviour in the program; it is
  made explicit as `Outcome.undefined`.  `trace` can recurse without end, so
  it takes a recursion budget and returns `none` when the budget runs out.
-/

namespace Huffman

/-! ## Data model -/

/-- A `Node*`: the null pointer or a node `{ch, freq, left, right}`. -/
inductive NodePtr where
  | null : NodePtr
  | node (ch : Char) (freq : Int) (left right : NodePtr) : NodePtr
  deriving DecidableEq

/-- The call `new Node(c, f)`: both children are null. -/
def newNode (c : Char) (f : Int) : NodePtr := NodePtr.node c f NodePtr.null NodePtr.null

/-- Field read `p->freq` (only ever applied to allocated nodes; `0` stands in at null). -/
def NodePtr.freqOf : NodePtr → Int
  | NodePtr.null => 0
  | NodePtr.node _ f _ _ => f

/-- The value an `int` takes when it is assigned the mathematical result `z`: `z` reduced
modulo `2^32` into the range from `-2^31` to `2^31 - 1`. -/
def wrapInt (z : Int) : Int := (z + 2147483648) % 4294967296 - 2147483648

/-- The functor `compare`: `l->freq > r->freq`. -/
def compare (l r : NodePtr) : Bool := decide (l.freqOf > r.freqOf)

/-- What a decoder call does: return a string, throw `runtime_error("Failed To Decode!")`,
or dereference a null pointer. -/
inductive Outcome where
  | returned (output : List Char) : Outcome
  | thrown : Outcome
  | undefined : Outcome
  deriving DecidableEq

/-! ## `std::map<char, V>` -/

/-- The statement `m[k] = f(m[k])` on a key-sorted association list, where `operator[]`
value-initialises a missing entry to `dflt`. -/
def mapModify {V : Type} (k : Char) (f : V → V) (dflt : V) : List (Char × V) → List (Char × V)
  | [] => [(k, f dflt)]
  | (k', v) :: rest =>
    if k.toNat < k'.toNat then (k, f dflt) :: (k', v) :: rest
    else if k = k' then (k', f v) :: rest
    else (k', v) :: mapModify k f dflt rest

/-- Lookup `m.find(k)`. -/
def mapFind {V : Type} (k : Char) : List (Char × V) → Option V
  | [] => none
  | (k', v) :: rest => if k = k' then some v else mapFind k rest

/-! ## `std::priority_queue` over a vector -/

/-- The loop of `std::__push_heap(first, holeIndex, topIndex, value, comp)`.  The first
argument bounds the number of iterations; `holeIndex` iterations always suffice because
the hole moves to its parent each time. -/
def pushHeapLoop : Nat → List NodePtr → Nat → Nat → NodePtr → List NodePtr
  | 0, first, holeIndex, _, value => first.set holeIndex value
  | fuel + 1, first, holeIndex, topIndex, value =>
    let parent := (holeIndex - 1) / 2
    if holeIndex > topIndex && compare (first.getD parent NodePtr.null) value then
      pushHeapLoop fuel (first.set holeIndex (first.getD parent NodePtr.null)) parent topIndex value
    else first.set holeIndex value

/-- The routine `std::__push_heap`. -/
def pushHeapAux (first : List NodePtr) (holeIndex topIndex : Nat) (value : NodePtr) : List NodePtr :=
  pushHeapLoop holeIndex first holeIndex topIndex value

/-- The call `minHeap.push(x)`: `c.push_back(x); std::push_heap(c.begin(), c.end(), comp)`. -/
def pqPush (c : List NodePtr) (x : NodePtr) : List NodePtr :=
  let c1 := c ++ [x]
  pushHeapAux c1 (c1.length - 1) 0 (c1.getD (c1.length - 1) NodePtr.null)

/-- The first loop of `std::__adjust_heap`: the hole walks down to the better child.
Returns the vector and the final `holeIndex` (which equals `secondChild`). -/
def adjustHeapLoop : Nat → List NodePtr → Nat → Nat → List NodePtr × Nat
  | 0, first, secondChild, _ => (first, secondChild)
  | fuel + 1, first, secondChild, len =>
    if secondChild < (len - 1) / 2 then
      let holeIndex := secondChild
      let sc := 2 * (secondChild + 1)
      let sc1 := if compare (first.getD sc NodePtr.null) (first.getD (sc - 1) NodePtr.null)
        then sc - 1 else sc
      adjustHeapLoop fuel (first.set holeIndex (first.getD sc1 NodePtr.null)) sc1 len
    else (first, secondChild)

/-- The routine `std::__adjust_heap(first, holeIndex, len, value, comp)` (called with
`len ≥ 1` only). -/
def adjustHeap (first : List NodePtr) (holeIndex len : Nat) (value : NodePtr) : List NodePtr :=
  let topIndex := holeIndex
  let (first1, secondChild) := adjustHeapLoop len first holeIndex len
  if len % 2 = 0 ∧ secondChild = (len - 2) / 2 then
    let sc := 2 * (secondChild + 1)
    pushHeapAux (first1.set secondChild (first1.getD (sc - 1) NodePtr.null)) (sc - 1) topIndex value
  else
    pushHeapAux first1 secondChild topIndex value

/-- The call `std::pop_heap(c.begin(), c.end(), comp)`. -/
def popHeap (c : List NodePtr) : List NodePtr :=
  if c.length > 1 then
    let last := c.length - 1
    let value := c.getD last NodePtr.null
    adjustHeap (c.set last (c.getD 0 NodePtr.null)) 0 last value
  else c

/-- The call `minHeap.pop()`: `std::pop_heap(...); c.pop_back()`. -/
def pqPop (c : List NodePtr) : List NodePtr := (popHeap c).dropLast

/-- The call `minHeap.top()`: `c.front()`, undefined (`none`) on an empty queue. -/
def pqTop (c : List NodePtr) : Option NodePtr := c.head?

/-! ## The codec -/

/-- Function `calculateFrequency`: `frequency[ch]++` for every character. -/
def calculateFrequency (text : List Char) : List (Char × Int) :=
  text.foldl (fun frequency ch => mapModify ch (fun n => n + 1) 0 frequency) []

/-- The `while (minHeap.size() != 1)` loop of `buildHuffmanTree`.  Each iteration shrinks
the queue by one, so a budget equal to the queue size suffices. -/
def buildLoop : Nat → List NodePtr → Option NodePtr
  | 0, _ => none
  | fuel + 1, minHeap =>
    if minHeap.length ≠ 1 then
      match pqTop minHeap with
      | none => none
      | some left =>
        let h1 := pqPop minHeap
        match pqTop h1 with
        | none => none
        | some right =>
          let h2 := pqPop h1
          let top := NodePtr.node '$' (wrapInt (left.freqOf + right.freqOf)) left right
          buildLoop fuel (pqPush h2 top)
    else pqTop minHeap

/-- The first loop of `buildHuffmanTree`: one leaf per map entry, pushed in key order. -/
def initHeap (frequency : List (Char × Int)) : List NodePtr :=
  frequency.foldl (fun minHeap pair => pqPush minHeap (newNode pair.1 pair.2)) []

/-- Function `buildHuffmanTree`; `none` when the program calls `top()` on an empty queue. -/
def buildHuffmanTree (frequency : List (Char × Int)) : Option NodePtr :=
  buildLoop (initHeap frequency).length (initHeap frequency)

/-- Function `storeCodes`. -/
def storeCodes : NodePtr → List Char → List (Char × List Char) → List (Char × List Char)
  | NodePtr.null, _, huffmanCode => huffmanCode
  | NodePtr.node ch _ left right, str, huffmanCode =>
    let m1 := if ch ≠ '$' then mapModify ch (fun _ => str) [] huffmanCode else huffmanCode
    let m2 := storeCodes left (str ++ ['0']) m1
    storeCodes right (str ++ ['1']) m2

/-- The read `huffmanCode[ch]`: the mapped string, `""` for a missing key. -/
def mapIndex (huffmanCode : List (Char × List Char)) (ch : Char) : List Char :=
  (mapFind ch huffmanCode).getD []

/-- The loop of `encodeText` as a state transformer on (stream, map): `operator[]`
inserts an empty string for a missing key before the stream receives it. -/
def encodeStep (st : List Char × List (Char × List Char)) (ch : Char) :
    List Char × List (Char × List Char) :=
  let m := mapModify ch (fun s => s) [] st.2
  (st.1 ++ mapIndex m ch, m)

/-- Function `encodeText`, returning the string together with the map it leaves behind. -/
def encodeTextState (text : List Char) (huffmanCode : List (Char × List Char)) :
    List Char × List (Char × List Char) :=
  text.foldl encodeStep ([], huffmanCode)

/-- Function `encodeText`: the returned string. -/
def encodeText (text : List Char) (huffmanCode : List (Char × List Char)) : List Char :=
  (encodeTextState text huffmanCode).1

/-- The loop of `decodeText` from the state `(current, decodedText)`. -/
def decodeLoop (root : NodePtr) : NodePtr → List Char → List Char → Outcome
  | _, decodedText, [] => Outcome.returned decodedText
  | current, decodedText, bit :: rest =>
    match current with
    | NodePtr.null => Outcome.undefined
    | NodePtr.node _ _ left right =>
      match (if bit = '0' then left else right) with
      | NodePtr.null => Outcome.undefined
      | NodePtr.node ch f l r =>
        if l = NodePtr.null ∧ r = NodePtr.null then decodeLoop root root (decodedText ++ [ch]) rest
        else decodeLoop root (NodePtr.node ch f l r) decodedText rest

/-- Function `decodeText`. -/
def decodeText (root : NodePtr) (encodedText : List Char) : Outcome :=
  decodeLoop root root [] encodedText

/-- Function `writeHuffmanTable`: the bytes written to the table file. -/
def writeHuffmanTable (huffmanCode : List (Char × List Char)) : List Char :=
  huffmanCode.foldl (fun file pair => file ++ [pair.1] ++ [':', ' '] ++ pair.2 ++ ['\n']) []

/-- The lines that `while (getline(reader, temp))` yields: `temp` accumulates the current
line; at end of file a line is delivered only if some character was extracted. -/
def getlines : List Char → List Char → List (List Char)
  | temp, [] => if temp = [] then [] else [temp]
  | temp, c :: rest => if c = '\n' then temp :: getlines [] rest else getlines (temp ++ [c]) rest

/-- The call `temp.find(':')`. -/
def findColon (temp : List Char) : Option Nat :=
  if temp.indexOf ':' < temp.length then some (temp.indexOf ':') else none

/-- The table-reading loop of `decodeFromFile`.  The call `temp.substr(pos + 2)` throws
`std::out_of_range` when `pos + 2 > temp.length()`; the handler returns from
`decodeFromFile`, which is the result `none`. -/
def parseTable : List (List Char) → List (Char × List Char) → Option (List (Char × List Char))
  | [], charTable => some charTable
  | temp :: lines, charTable =>
    match findColon temp with
    | none => parseTable lines charTable
    | some pos =>
      if pos + 2 > temp.length then none
      else parseTable lines
        (mapModify (temp.headD ' ') (fun _ => temp.drop (pos + 2)) [] charTable)

/-- The statement `if (p == nullptr) p = new Node('$', 0);` of the reconstruction. -/
def allocIfNull (p : NodePtr) : NodePtr :=
  if p = NodePtr.null then newNode '$' 0 else p

/-- The inner `for` loop of the reconstruction followed by `current->ch = pair.first`,
as a rebuild of the subtree at `current` (which is never null in the program). -/
def insertCode (ch : Char) : List Char → NodePtr → NodePtr
  | _, NodePtr.null => NodePtr.null
  | [], NodePtr.node _ f l r => NodePtr.node ch f l r
  | b :: bs, NodePtr.node c f l r =>
    if b = '0' then NodePtr.node c f (insertCode ch bs (allocIfNull l)) r
    else NodePtr.node c f l (insertCode ch bs (allocIfNull r))

/-- One iteration of the outer reconstruction loop for the map entry `pair`. -/
def insertEntry (root : NodePtr) (pair : Char × List Char) : NodePtr :=
  insertCode pair.1 pair.2 root

/-- The reconstruction loop of `decodeFromFile`. -/
def rebuildTree (charTable : List (Char × List Char)) : NodePtr :=
  charTable.foldl insertEntry (newNode '$' 0)

/-- Function `trace`; the first argument bounds the recursion depth. -/
def trace : Nat → Nat → List Char → NodePtr → NodePtr → List Char → Option Outcome
  | 0, _, _, _, _, _ => none
  | fuel + 1, i, txt, root, current, output =>
    match current with
    | NodePtr.null => some Outcome.undefined
    | NodePtr.node ch f l r =>
      if ch ≠ '$' then trace fuel i txt root root (output ++ [ch])
      else if i = txt.length then some (Outcome.returned output)
      else if NodePtr.node ch f l r = NodePtr.null then some Outcome.thrown
      else if txt.getD i ' ' = '0' then trace fuel (i + 1) txt root l output
      else trace fuel (i + 1) txt root r output

/-- The table file and the tree that `decodeFromFile` rebuilds from it. -/
def loadTree (file : List Char) : Option NodePtr :=
  (parseTable (getlines [] file) []).map rebuildTree

/-! ## Auxiliary notions used in the statements -/

/-- The iteration order of a `std::map`: keys strictly increasing. -/
def KeysSorted {V : Type} (m : List (Char × V)) : Prop :=
  m.Pairwise (fun a b => a.1.toNat < b.1.toNat)

/-- The key `c[i]->freq` of the vector slot `i`. -/
def keyAt (a : List NodePtr) (i : Nat) : Int := (a.getD i NodePtr.null).freqOf

/-- The heap property of `std::is_heap` on the first `n` slots for the comparator
`compare`: no parent has a larger `freq` than its child. -/
def HeapOn (a : List NodePtr) (n : Nat) : Prop :=
  ∀ i, 0 < i → i < n → keyAt a ((i - 1) / 2) ≤ keyAt a i

/-- The heap property with the slot `hole` left out: every parent-child pair that avoids
the hole is ordered, and each child of the hole is ordered against the parent of the hole. -/
def HoleInv (a : List NodePtr) (n hole : Nat) : Prop :=
  ∀ i, 0 < i → i < n → i ≠ hole →
    (((i - 1) / 2 = hole → 0 < hole → keyAt a ((hole - 1) / 2) ≤ keyAt a i)
      ∧ ((i - 1) / 2 ≠ hole → keyAt a ((i - 1) / 2) ≤ keyAt a i))

/-- The childless nodes of a tree from left to right, each as `(ch, freq)`. -/
def leaves : NodePtr → List (Char × Int)
  | NodePtr.null => []
  | NodePtr.node c f l r =>
    if l = NodePtr.null ∧ r = NodePtr.null then [(c, f)] else leaves l ++ leaves r

/-- Shape of the trees the builder handles: an allocated node that is childless, or
carries `'$'`, the `int` sum of its children's `freq`, and two children of the same
shape. -/
def WellFormed : NodePtr → Prop
  | NodePtr.null => False
  | NodePtr.node c f l r =>
    (l = NodePtr.null ∧ r = NodePtr.null)
      ∨ (c = '$' ∧ f = wrapInt (l.freqOf + r.freqOf) ∧ WellFormed l ∧ WellFormed r)

/-- A tree in which no `freq` has left the range of `int`: a childless node holds a
non-negative `freq`, a node with children holds exactly the sum of its children's. -/
def ExactSums : NodePtr → Prop
  | NodePtr.null => False
  | NodePtr.node _ f l r =>
    (l = NodePtr.null ∧ r = NodePtr.null ∧ 0 ≤ f)
      ∨ (f = l.freqOf + r.freqOf ∧ ExactSums l ∧ ExactSums r)

/-- The node `top` that one iteration of the loop of `buildHuffmanTree` allocates. -/
def merge (left right : NodePtr) : NodePtr :=
  NodePtr.node '$' (wrapInt (left.freqOf + right.freqOf)) left right

/-- The merge discipline the priority queue imposes, stated without the queue: a forest
`H` is reduced to the tree `t` by repeatedly replacing a node `x` of least `freq` and a
node `y` of least `freq` among the others by `merge x y`. -/
inductive Greedy : List NodePtr → NodePtr → Prop where
  | single (t : NodePtr) : Greedy [t] t
  | step (H H2 : List NodePtr) (x y : NodePtr) (rest : List NodePtr) (t : NodePtr) :
      H.Perm (x :: y :: rest) →
      (∀ z ∈ y :: rest, x.freqOf ≤ z.freqOf) →
      (∀ z ∈ rest, y.freqOf ≤ z.freqOf) →
      H2.Perm (merge x y :: rest) →
      Greedy H2 t → Greedy H t

/-- The number of calls `trace` makes to decode the codes of a text. -/
def traceCost (code : Char → List Char) (text : List Char) : Nat :=
  (text.map (fun c => (code c).length + 1)).sum

/-- The childless nodes of a tree from left to right, each as `(freq, depth)`, where the
root of the tree passed in sits at depth `d`. -/
def leafDepths : NodePtr → Nat → List (Int × Nat)
  | NodePtr.null, _ => []
  | NodePtr.node _ f l r, d =>
    if l = NodePtr.null ∧ r = NodePtr.null then [(f, d)]
    else leafDepths l (d + 1) ++ leafDepths r (d + 1)

/-- The sum of `weight * depth` over a list of `(weight, depth)` pairs. -/
def cost (A : List (Nat × Nat)) : Nat := (A.map (fun p => p.1 * p.2)).sum

/-- The weighted path length of a tree: the sum over its leaves of `freq` times depth. -/
def weightedPathLength (t : NodePtr) : Int :=
  ((leafDepths t 0).map (fun p => p.1 * (p.2 : Int))).sum

/-- The leaves of a tree as `(freq, depth)` pairs with the `freq` read as a natural
number (used for trees whose `freq` are non-negative). -/
def natDepths (t : NodePtr) (d : Nat) : List (Nat × Nat) :=
  (leafDepths t d).map (fun p => (p.1.toNat, p.2))

/-- The Kraft sum of a list of depths, scaled by `2 ^ D`. -/
def kraftSum (D : Nat) (ds : List Nat) : Nat := (ds.map (fun d => 2 ^ (D - d))).sum

/-- The Kraft inequality for a list of depths: the depths of the leaves of every binary
tree satisfy it. -/
def KraftOK (ds : List Nat) : Prop := ∃ D, (∀ d ∈ ds, d ≤ D) ∧ kraftSum D ds ≤ 2 ^ D

/-- The childless nodes of a tree from left to right, each as `(ch, freq, path)`. -/
def leafInfo : NodePtr → List (Char × Int × List Char)
  | NodePtr.null => []
  | NodePtr.node c f l r =>
    if l = NodePtr.null ∧ r = NodePtr.null then [(c, f, [])]
    else (leafInfo l).map (fun p => (p.1, p.2.1, '0' :: p.2.2))
      ++ (leafInfo r).map (fun p => (p.1, p.2.1, '1' :: p.2.2))

/-- A string made of the characters `'0'` and `'1'` only. -/
def IsBits (p : List Char) : Prop := ∀ c ∈ p, c = '0' ∨ c = '1'

/-- The tree with every `freq` cleared: the reconstruction allocates all nodes with
`freq` 0. -/
def skeleton : NodePtr → NodePtr
  | NodePtr.null => NodePtr.null
  | NodePtr.node c _ l r => NodePtr.node c 0 (skeleton l) (skeleton r)

/-- The root-to-leaf paths of a tree from left to right, each as `(ch, path)` with `'0'`
for a step to the left child and `'1'` for a step to the right child. -/
def codes : NodePtr → List (Char × List Char)
  | NodePtr.null => []
  | NodePtr.node c _ l r =>
    if l = NodePtr.null ∧ r = NodePtr.null then [(c, [])]
    else (codes l).map (fun p => (p.1, '0' :: p.2)) ++ (codes r).map (fun p => (p.1, '1' :: p.2))

/-- The write `huffmanCode[p.first] = str + p.second`, skipped for the sentinel, as
`storeCodes` performs it at a leaf. -/
def storeEntry (str : List Char) (huffmanCode : List (Char × List Char))
    (p : Char × List Char) : List (Char × List Char) :=
  if p.1 ≠ '$' then mapModify p.1 (fun _ => str ++ p.2) [] huffmanCode else huffmanCode

/-- The shape named by the comparison of the two decoders: an allocated node that either
carries a symbol other than `'$'` and has no children, or carries `'$'` and has two
children of the same shape. -/
def SentinelTree : NodePtr → Prop
  | NodePtr.null => False
  | NodePtr.node c _ l r =>
    (c ≠ '$' ∧ l = NodePtr.null ∧ r = NodePtr.null)
      ∨ (c = '$' ∧ SentinelTree l ∧ SentinelTree r)

/-- The code of a table line in the words of the specification: the substring that
follows the first occurrence of the delimiter `": "` (a colon, then one space); `none`
when the line holds no such delimiter. -/
def specCodeOf : List Char → Option (List Char)
  | [] => none
  | [_] => none
  | c :: d :: rest => if c = ':' ∧ d = ' ' then some rest else specCodeOf (d :: rest)

/-- The allocated nodes of a tree, each as the pointer to it. -/
def nodes : NodePtr → List NodePtr
  | NodePtr.null => []
  | NodePtr.node c f l r => NodePtr.node c f l r :: (nodes l ++ nodes r)

/-! ## Facts about the `std::map` model -/

theorem char_eq_of_toNat_eq {a b : Char} (h : a.toNat = b.toNat) : a = b := by
  apply Char.ext
  apply UInt32.ext
  exact h

theorem mem_mapModify {V : Type} (k : Char) (f : V → V) (d : V) (m : List (Char × V))
    (x : Char × V) (hx : x ∈ mapModify k f d m) : x.1 = k ∨ x ∈ m := by
  induction m with
  | nil =>
    simp only [mapModify, List.mem_singleton] at hx
    left; rw [hx]
  | cons p rest ih =>
    obtain ⟨k', v⟩ := p
    simp only [mapModify] at hx
    split_ifs at hx with h1 h2
    · rcases List.mem_cons.mp hx with h | h
      · left; rw [h]
      · right; exact h
    · rcases List.mem_cons.mp hx with h | h
      · left; rw [h, h2]
      · right; exact List.mem_cons_of_mem _ h
    · rcases List.mem_cons.mp hx with h | h
      · right; rw [h]; exact List.mem_cons_self _ _
      · rcases ih h with h | h
        · left; exact h
        · right; exact List.mem_cons_of_mem _ h

theorem keysSorted_mapModify {V : Type} (k : Char) (f : V → V) (d : V) (m : List (Char × V))
    (hm : KeysSorted m) : KeysSorted (mapModify k f d m) := by
  induction m with
  | nil => simp [mapModify, KeysSorted]
  | cons p rest ih =>
    obtain ⟨k', v⟩ := p
    unfold KeysSorted at hm ⊢
    rw [List.pairwise_cons] at hm
    simp only [mapModify]
    split_ifs with h1 h2
    · rw [List.pairwise_cons]
      refine ⟨?_, List.pairwise_cons.mpr hm⟩
      intro x hx
      rcases List.mem_cons.mp hx with h | h
      · rw [h]; exact h1
      · exact lt_trans h1 (hm.1 x h)
    · rw [List.pairwise_cons]
      exact ⟨hm.1, hm.2⟩
    · rw [List.pairwise_cons]
      refine ⟨?_, ih hm.2⟩
      intro x hx
      rcases mem_mapModify k f d rest x hx with h | h
      · rw [h]
        have hne : k.toNat ≠ k'.toNat := fun e => h2 (char_eq_of_toNat_eq e)
        show k'.toNat < k.toNat
        omega
      · exact hm.1 x h

theorem mapFind_mapModify_ne {V : Type} (k k' : Char) (f : V → V) (d : V) (m : List (Char × V))
    (hne : k' ≠ k) : mapFind k' (mapModify k f d m) = mapFind k' m := by
  induction m with
  | nil => simp [mapModify, mapFind, hne]
  | cons p rest ih =>
    obtain ⟨k2, v⟩ := p
    simp only [mapModify]
    split_ifs with h1 h2
    · simp [mapFind, hne]
    · subst h2; simp [mapFind, hne]
    · simp [mapFind, ih]

theorem mapFind_none_of_lt {V : Type} (k : Char) (m : List (Char × V))
    (h : ∀ x ∈ m, k.toNat < x.1.toNat) : mapFind k m = none := by
  induction m with
  | nil => rfl
  | cons p rest ih =>
    obtain ⟨k2, v⟩ := p
    have h2 : k ≠ k2 := by
      intro e
      have := h (k2, v) (List.mem_cons_self _ _)
      rw [e] at this
      exact lt_irrefl _ this
    simp only [mapFind, h2, if_false]
    exact ih (fun x hx => h x (List.mem_cons_of_mem _ hx))

theorem mapFind_mapModify_self {V : Type} (k : Char) (f : V → V) (d : V) (m : List (Char × V))
    (hm : KeysSorted m) : mapFind k (mapModify k f d m) = some (f ((mapFind k m).getD d)) := by
  induction m with
  | nil => simp [mapModify, mapFind]
  | cons p rest ih =>
    obtain ⟨k2, v⟩ := p
    unfold KeysSorted at hm
    rw [List.pairwise_cons] at hm
    simp only [mapModify]
    split_ifs with h1 h2
    · have hne : k ≠ k2 := by
        intro e; rw [e] at h1; exact lt_irrefl _ h1
      have hnone : mapFind k rest = none :=
        mapFind_none_of_lt k rest (fun x hx => lt_trans h1 (hm.1 x hx))
      simp [mapFind, hne, hnone]
    · subst h2; simp [mapFind]
    · simp only [mapFind, h2, if_false]
      exact ih hm.2

theorem mapFind_eq_some_of_mem {V : Type} (m : List (Char × V)) (hm : KeysSorted m)
    (k : Char) (v : V) (h : (k, v) ∈ m) : mapFind k m = some v := by
  induction m with
  | nil => cases h
  | cons p rest ih =>
    obtain ⟨k2, v2⟩ := p
    unfold KeysSorted at hm
    rw [List.pairwise_cons] at hm
    rcases List.mem_cons.mp h with h | h
    · injection h with h1 h2
      subst h1; subst h2
      simp [mapFind]
    · have hlt := hm.1 (k, v) h
      have hne : k ≠ k2 := by
        intro e; rw [e] at hlt; exact lt_irrefl _ hlt
      simp only [mapFind, hne, if_false]
      exact ih hm.2 h

theorem mem_of_mapFind_eq_some {V : Type} (m : List (Char × V))
    (k : Char) (v : V) (h : mapFind k m = some v) : (k, v) ∈ m := by
  induction m with
  | nil => cases h
  | cons p rest ih =>
    obtain ⟨k2, v2⟩ := p
    simp only [mapFind] at h
    split_ifs at h with h1
    · injection h with h
      subst h1; subst h
      exact List.mem_cons_self _ _
    · exact List.mem_cons_of_mem _ (ih h)

theorem mapFind_eq_none_iff {V : Type} (m : List (Char × V)) (k : Char) :
    mapFind k m = none ↔ ∀ x ∈ m, x.1 ≠ k := by
  induction m with
  | nil => simp [mapFind]
  | cons p rest ih =>
    obtain ⟨k2, v2⟩ := p
    simp only [mapFind]
    split_ifs with h1
    · subst h1
      simp
    · rw [ih]
      constructor
      · intro h x hx
        rcases List.mem_cons.mp hx with e | e
        · rw [e]; exact fun e2 => h1 e2.symm
        · exact h x e
      · intro h x hx
        exact h x (List.mem_cons_of_mem _ hx)

/-! ## `calculateFrequency` counts exactly -/

theorem keysSorted_calculateFrequency_aux (text : List Char) (m : List (Char × Int))
    (hm : KeysSorted m) :
    KeysSorted (text.foldl (fun frequency ch => mapModify ch (fun n => n + 1) 0 frequency) m) := by
  induction text generalizing m with
  | nil => exact hm
  | cons c rest ih => exact ih _ (keysSorted_mapModify _ _ _ _ hm)

theorem keysSorted_calculateFrequency (text : List Char) :
    KeysSorted (calculateFrequency text) :=
  keysSorted_calculateFrequency_aux text [] List.Pairwise.nil

theorem mapFind_calculateFrequency_aux (text : List Char) (m : List (Char × Int))
    (hm : KeysSorted m) (c : Char) :
    ((mapFind c (text.foldl (fun frequency ch => mapModify ch (fun n => n + 1) 0 frequency) m)).getD 0)
      = (mapFind c m).getD 0 + text.count c
    ∧ ((mapFind c (text.foldl (fun frequency ch => mapModify ch (fun n => n + 1) 0 frequency) m)) = none
        ↔ (mapFind c m = none ∧ c ∉ text)) := by
  induction text generalizing m with
  | nil => simp
  | cons a rest ih =>
    have hs := keysSorted_mapModify a (fun n => n + 1) 0 m hm
    obtain ⟨ih1, ih2⟩ := ih (mapModify a (fun n => n + 1) 0 m) hs
    simp only [List.foldl_cons]
    by_cases hac : c = a
    · subst hac
      rw [ih1, ih2, mapFind_mapModify_self _ _ _ _ hm]
      simp [List.count_cons_self]
      omega
    · rw [ih1, ih2, mapFind_mapModify_ne _ _ _ _ _ hac]
      have : (a == c) = false := by
        simp; exact fun e => hac e.symm
      simp [List.count_cons, this, hac]

theorem mapFind_calculateFrequency (text : List Char) (c : Char) :
    mapFind c (calculateFrequency text) = if c ∈ text then some (text.count c : Int) else none := by
  obtain ⟨h1, h2⟩ := mapFind_calculateFrequency_aux text [] List.Pairwise.nil c
  by_cases hc : c ∈ text
  · rw [if_pos hc]
    cases hf : mapFind c (calculateFrequency text) with
    | none =>
      have := h2.mp hf
      exact absurd hc this.2
    | some n =>
      unfold calculateFrequency at hf
      rw [hf] at h1
      simp [mapFind] at h1
      rw [h1]
  · rw [if_neg hc]
    exact h2.mpr ⟨rfl, hc⟩

theorem mem_calculateFrequency_iff (text : List Char) (c : Char) (n : Int) :
    (c, n) ∈ calculateFrequency text ↔ c ∈ text ∧ n = text.count c := by
  constructor
  · intro h
    have := mapFind_eq_some_of_mem _ (keysSorted_calculateFrequency text) c n h
    rw [mapFind_calculateFrequency] at this
    split_ifs at this with hc
    · injection this with e
      exact ⟨hc, e.symm⟩
  · rintro ⟨hc, hn⟩
    apply mem_of_mapFind_eq_some
    rw [mapFind_calculateFrequency, if_pos hc, hn]

theorem keysSorted_nodup_keys {V : Type} (m : List (Char × V)) (hm : KeysSorted m) :
    (m.map Prod.fst).Nodup := by
  unfold KeysSorted at hm
  rw [List.Nodup, List.pairwise_map]
  apply hm.imp
  intro a b hab e
  rw [e] at hab
  exact lt_irrefl _ hab

/-! ## The heap routines permute the vector -/

theorem getD_set_self {α : Type} (l : List α) (i : Nat) (x d : α) (h : i < l.length) :
    (l.set i x).getD i d = x := by
  simp [h]

theorem getD_set_ne {α : Type} (l : List α) (i j : Nat) (x d : α) (h : i ≠ j) :
    (l.set i x).getD j d = l.getD j d := by
  simp [List.getElem?_set_ne h]

theorem getD_mem {α : Type} (l : List α) (i : Nat) (d : α) (h : i < l.length) :
    l.getD i d ∈ l := by
  rw [List.getD_eq_getElem _ _ h]
  exact List.getElem_mem h

theorem set_getD_self {α : Type} (l : List α) (i : Nat) (d : α) :
    l.set i (l.getD i d) = l := by
  induction l generalizing i with
  | nil => rfl
  | cons x xs ih =>
    cases i with
    | zero => rfl
    | succ n =>
      simp only [List.set_cons_succ, List.getD_cons_succ]
      rw [ih]

theorem set_set_swap_perm {α : Type} [DecidableEq α] (l : List α) (i j : Nat) (d : α)
    (hi : i < l.length) (hj : j < l.length) :
    ((l.set i (l.getD j d)).set j (l.getD i d)).Perm l := by
  by_cases hij : i = j
  · subst hij
    rw [List.set_set, set_getD_self]
  rw [List.perm_iff_count]
  intro x
  have hj2 : j < (l.set i (l.getD j d)).length := by simpa using hj
  rw [List.count_set _ _ _ _ hj2, List.count_set _ _ _ _ hi]
  have e1 : (l.set i (l.getD j d))[j] = l[j] := by
    rw [List.getElem_set_ne hij]
  rw [e1, List.getD_eq_getElem _ _ hj, List.getD_eq_getElem _ _ hi]
  have c1 : (if l[i] == x then 1 else 0) ≤ l.count x := by
    split_ifs with h
    · have : l[i] = x := by simpa using h
      rw [← this]
      exact List.count_pos_iff.mpr (List.getElem_mem hi)
    · exact Nat.zero_le _
  omega

theorem set_set_hole_perm {α : Type} [DecidableEq α] (a : List α) (h p : Nat) (v d : α)
    (hh : h < a.length) (hp : p < a.length) (hne : p ≠ h) :
    ((a.set h (a.getD p d)).set p v).Perm (a.set h v) := by
  have hb := set_set_swap_perm (a.set h v) h p d (by simpa using hh) (by simpa using hp)
  rw [getD_set_self _ _ _ _ hh, getD_set_ne _ _ _ _ _ (Ne.symm hne), List.set_set] at hb
  exact hb

theorem length_pushHeapLoop (fuel : Nat) (a : List NodePtr) (hole top : Nat) (v : NodePtr) :
    (pushHeapLoop fuel a hole top v).length = a.length := by
  induction fuel generalizing a hole with
  | zero => simp [pushHeapLoop]
  | succ n ih =>
    simp only [pushHeapLoop]
    split_ifs
    · rw [ih]; simp
    · simp

theorem perm_pushHeapLoop (fuel : Nat) (a : List NodePtr) (hole top : Nat) (v : NodePtr)
    (hh : hole < a.length) : (pushHeapLoop fuel a hole top v).Perm (a.set hole v) := by
  induction fuel generalizing a hole with
  | zero => simp [pushHeapLoop]
  | succ n ih =>
    simp only [pushHeapLoop]
    split_ifs with hc
    · have hgt : hole > top := by
        simp only [Bool.and_eq_true, decide_eq_true_eq] at hc
        exact hc.1
      have hp : (hole - 1) / 2 < a.length := by omega
      have hne : (hole - 1) / 2 ≠ hole := by omega
      refine (ih _ _ (by simpa using hp)).trans ?_
      exact set_set_hole_perm a hole _ v NodePtr.null hh hp hne
    · exact List.Perm.refl _

theorem getD_pushHeapLoop_of_gt (fuel : Nat) (a : List NodePtr) (hole top : Nat) (v : NodePtr)
    (k : Nat) (hk : hole < k) :
    (pushHeapLoop fuel a hole top v).getD k NodePtr.null = a.getD k NodePtr.null := by
  induction fuel generalizing a hole with
  | zero =>
    simp only [pushHeapLoop]
    exact getD_set_ne _ _ _ _ _ (by omega)
  | succ n ih =>
    simp only [pushHeapLoop]
    split_ifs with hc
    · rw [ih _ _ (by omega)]
      exact getD_set_ne _ _ _ _ _ (by omega)
    · exact getD_set_ne _ _ _ _ _ (by omega)

theorem perm_pqPush (c : List NodePtr) (x : NodePtr) : (pqPush c x).Perm (x :: c) := by
  unfold pqPush pushHeapAux
  have hlen : (c ++ [x]).length - 1 = c.length := by simp
  simp only [hlen]
  refine (perm_pushHeapLoop _ _ _ _ _ (by simp)).trans ?_
  have : (c ++ [x]).getD c.length NodePtr.null = x := by simp
  rw [this]
  have : (c ++ [x]).set c.length x = c ++ [x] := by
    conv_rhs => rw [← set_getD_self (c ++ [x]) c.length NodePtr.null]
    rw [‹(c ++ [x]).getD c.length NodePtr.null = x›]
  rw [this]
  exact List.perm_append_singleton x c

/-- Facts about the first loop of `__adjust_heap`: the vector keeps its length, the hole
stays inside the heap range, nothing at or beyond `len` moves, and filling the hole gives
a permutation. -/
theorem adjustHeapLoop_spec (fuel : Nat) (a : List NodePtr) (sc len : Nat) (v : NodePtr)
    (hlen : len ≤ a.length) (hsc : sc < len) :
    (adjustHeapLoop fuel a sc len).1.length = a.length
    ∧ (adjustHeapLoop fuel a sc len).2 < len
    ∧ sc ≤ (adjustHeapLoop fuel a sc len).2
    ∧ (∀ k, len ≤ k →
        (adjustHeapLoop fuel a sc len).1.getD k NodePtr.null = a.getD k NodePtr.null)
    ∧ ((adjustHeapLoop fuel a sc len).1.set (adjustHeapLoop fuel a sc len).2 v).Perm
        (a.set sc v) := by
  induction fuel generalizing a sc with
  | zero => simp [adjustHeapLoop, hsc]
  | succ n ih =>
    simp only [adjustHeapLoop]
    split_ifs with hlt hcmp
    · have hc : 2 * (sc + 1) - 1 < len := by omega
      obtain ⟨h1, h2, h3, h4, h5⟩ := ih (a.set sc (a.getD (2 * (sc + 1) - 1) NodePtr.null))
        (2 * (sc + 1) - 1) (by simpa using hlen) hc
      refine ⟨by rw [h1]; simp, h2, by omega, ?_, ?_⟩
      · intro k hk
        rw [h4 k hk]
        exact getD_set_ne _ _ _ _ _ (by omega)
      · exact h5.trans (set_set_hole_perm a sc _ v NodePtr.null (by omega) (by omega) (by omega))
    · have hc : 2 * (sc + 1) < len := by omega
      obtain ⟨h1, h2, h3, h4, h5⟩ := ih (a.set sc (a.getD (2 * (sc + 1)) NodePtr.null))
        (2 * (sc + 1)) (by simpa using hlen) hc
      refine ⟨by rw [h1]; simp, h2, by omega, ?_, ?_⟩
      · intro k hk
        rw [h4 k hk]
        exact getD_set_ne _ _ _ _ _ (by omega)
      · exact h5.trans (set_set_hole_perm a sc _ v NodePtr.null (by omega) (by omega) (by omega))
    · exact ⟨rfl, hsc, le_refl _, fun _ _ => rfl, List.Perm.refl _⟩

theorem adjustHeap_spec (a : List NodePtr) (len : Nat) (v : NodePtr)
    (hlen : len ≤ a.length) (hpos : 0 < len) :
    (adjustHeap a 0 len v).length = a.length
    ∧ (∀ k, len ≤ k → (adjustHeap a 0 len v).getD k NodePtr.null = a.getD k NodePtr.null)
    ∧ (adjustHeap a 0 len v).Perm (a.set 0 v) := by
  obtain ⟨h1, h2, h3, h4, h5⟩ := adjustHeapLoop_spec len a 0 len v hlen hpos
  unfold adjustHeap pushHeapAux
  generalize adjustHeapLoop len a 0 len = res at h1 h2 h3 h4 h5
  obtain ⟨a1, sc⟩ := res
  simp only at h1 h2 h3 h4 h5 ⊢
  split_ifs with hc
  · have hsc : 2 * (sc + 1) - 1 < len := by omega
    have hne : 2 * (sc + 1) - 1 ≠ sc := by omega
    refine ⟨by rw [length_pushHeapLoop]; simp [h1], ?_, ?_⟩
    · intro k hk
      rw [getD_pushHeapLoop_of_gt _ _ _ _ _ _ (by omega), getD_set_ne _ _ _ _ _ (by omega)]
      exact h4 k hk
    · refine (perm_pushHeapLoop _ _ _ _ _ (by simp; omega)).trans ?_
      exact (set_set_hole_perm a1 sc _ v NodePtr.null (by omega) (by omega) hne).trans h5
  · refine ⟨by rw [length_pushHeapLoop]; exact h1, ?_, ?_⟩
    · intro k hk
      rw [getD_pushHeapLoop_of_gt _ _ _ _ _ _ (by omega)]
      exact h4 k hk
    · exact (perm_pushHeapLoop _ _ _ _ _ (by omega)).trans h5

theorem dropLast_append_getD {α : Type} (l : List α) (d : α) (h : l ≠ []) :
    l.dropLast ++ [l.getD (l.length - 1) d] = l := by
  have hl : l.length - 1 < l.length := Nat.sub_lt (List.length_pos.mpr h) Nat.one_pos
  rw [List.getD_eq_getElem _ _ hl]
  have : l[l.length - 1] = l.getLast h := by
    rw [List.getLast_eq_getElem]
  rw [this]
  exact List.dropLast_append_getLast h

/-- Popping a non-empty queue removes its front element: what is left, together with the
old front, is a permutation of the old contents. -/
theorem perm_pqPop (x : NodePtr) (c : List NodePtr) :
    (x :: pqPop (x :: c)).Perm (x :: c) := by
  unfold pqPop popHeap
  split_ifs with hlen
  · simp only [List.length_cons, Nat.add_sub_cancel] at *
    have hcl : 0 < c.length := by omega
    obtain ⟨h1, h2, h3⟩ := adjustHeap_spec
      ((x :: c).set c.length ((x :: c).getD 0 NodePtr.null)) c.length
      ((x :: c).getD c.length NodePtr.null) (by simp) hcl
    generalize adjustHeap ((x :: c).set c.length ((x :: c).getD 0 NodePtr.null)) 0 c.length
      ((x :: c).getD c.length NodePtr.null) = r at h1 h2 h3
    have hr : r ≠ [] := by
      intro e; rw [e] at h1; simp at h1
    have hlast : r.getD (r.length - 1) NodePtr.null = x := by
      have : r.length - 1 = c.length := by rw [h1]; simp
      rw [this, h2 _ (le_refl _), getD_set_self _ _ _ _ (by simp)]
      rfl
    have hsplit := dropLast_append_getD r NodePtr.null hr
    rw [hlast] at hsplit
    have hp : (x :: r.dropLast).Perm r := by
      conv_rhs => rw [← hsplit]
      exact (List.perm_append_singleton x r.dropLast).symm
    refine hp.trans (h3.trans ?_)
    have := set_set_swap_perm (x :: c) c.length 0 NodePtr.null (by simp) (by simp)
    exact this
  · have : c = [] := by
      simp only [List.length_cons, gt_iff_lt, not_lt] at hlen
      exact List.length_eq_zero.mp (by omega)
    subst this
    simp

theorem length_pqPush (c : List NodePtr) (x : NodePtr) : (pqPush c x).length = c.length + 1 := by
  have := (perm_pqPush c x).length_eq
  simpa using this

theorem length_pqPop (x : NodePtr) (c : List NodePtr) : (pqPop (x :: c)).length = c.length := by
  have := (perm_pqPop x c).length_eq
  simpa using this

/-! ## The heap routines keep the heap property -/

theorem keyAt_set_self (a : List NodePtr) (i : Nat) (x : NodePtr) (h : i < a.length) :
    keyAt (a.set i x) i = x.freqOf := by
  unfold keyAt
  rw [getD_set_self _ _ _ _ h]

theorem keyAt_set_ne (a : List NodePtr) (i j : Nat) (x : NodePtr) (h : i ≠ j) :
    keyAt (a.set i x) j = keyAt a j := by
  unfold keyAt
  rw [getD_set_ne _ _ _ _ _ h]

theorem compare_eq_true_iff (x y : NodePtr) : compare x y = true ↔ y.freqOf < x.freqOf := by
  unfold compare
  simp

/-- In a heap the front element has the smallest key. -/
theorem heapOn_root_le (a : List NodePtr) (n : Nat) (h : HeapOn a n) (i : Nat) (hi : i < n) :
    keyAt a 0 ≤ keyAt a i := by
  induction i using Nat.strong_induction_on with
  | _ i ih =>
    by_cases h0 : i = 0
    · subst h0; exact le_refl _
    · have hp : (i - 1) / 2 < i := by omega
      exact le_trans (ih _ hp (by omega)) (h i (by omega) hi)

/-- Moving a child into the hole keeps the hole invariant, provided the child is no
larger than its sibling. -/
theorem holeInv_descend (a : List NodePtr) (n h c : Nat) (hn : n ≤ a.length)
    (hinv : HoleInv a n h) (hc : c < n) (hpar : (c - 1) / 2 = h) (hc0 : 0 < c)
    (hsib : ∀ s, s < n → 0 < s → (s - 1) / 2 = h → keyAt a c ≤ keyAt a s) :
    HoleInv (a.set h (a.getD c NodePtr.null)) n c := by
  have hhc : h ≠ c := by omega
  have hh : h < a.length := by omega
  have hkey : keyAt (a.set h (a.getD c NodePtr.null)) h = keyAt a c := by
    rw [keyAt_set_self _ _ _ hh]; rfl
  intro i hi0 hin hic
  constructor
  · intro hpi _
    rw [hpar, hkey, keyAt_set_ne _ _ _ _ (by omega : h ≠ i)]
    exact ((hinv i hi0 hin (by omega)).2 (by omega)).trans_eq' (by rw [hpi])
  · intro hpi
    by_cases hph : (i - 1) / 2 = h
    · rw [hph, hkey, keyAt_set_ne _ _ _ _ (by omega : h ≠ i)]
      exact hsib i hin hi0 hph
    · by_cases hih : i = h
      · subst hih
        rw [hkey, keyAt_set_ne _ _ _ _ (by omega)]
        have h1 := (hinv c hc0 hc (by omega)).1 hpar (by omega)
        exact h1
      · rw [keyAt_set_ne _ _ _ _ (Ne.symm hih), keyAt_set_ne _ _ _ _ (Ne.symm hph)]
        exact (hinv i hi0 hin hih).2 hph

/-- Writing the value into the hole gives a heap when the value fits between the parent
of the hole and the children of the hole. -/
theorem heapOn_set_hole (a : List NodePtr) (n hole : Nat) (v : NodePtr)
    (hn : n ≤ a.length) (hh : hole < n) (hinv : HoleInv a n hole)
    (hch : ∀ c, c < n → 0 < c → (c - 1) / 2 = hole → v.freqOf ≤ keyAt a c)
    (hex : hole = 0 ∨ keyAt a ((hole - 1) / 2) ≤ v.freqOf) : HeapOn (a.set hole v) n := by
  intro i hi0 hin
  by_cases hih : i = hole
  · subst hih
    rw [keyAt_set_self _ _ _ (by omega), keyAt_set_ne _ _ _ _ (by omega)]
    rcases hex with h | h
    · omega
    · exact h
  · rw [keyAt_set_ne _ _ _ _ (Ne.symm hih)]
    by_cases hph : (i - 1) / 2 = hole
    · rw [hph, keyAt_set_self _ _ _ (by omega)]
      exact hch i hin hi0 hph
    · rw [keyAt_set_ne _ _ _ _ (Ne.symm hph)]
      exact (hinv i hi0 hin hih).2 hph

/-- The loop of `__push_heap` ends in a heap when it starts from a vector that is a heap
except at the hole and the value is no larger than the children of the hole. -/
theorem heapOn_pushHeapLoop (fuel : Nat) (a : List NodePtr) (n hole : Nat) (v : NodePtr)
    (hfuel : hole ≤ fuel) (hn : n ≤ a.length) (hh : hole < n) (hinv : HoleInv a n hole)
    (hch : ∀ c, c < n → 0 < c → (c - 1) / 2 = hole → v.freqOf ≤ keyAt a c) :
    HeapOn (pushHeapLoop fuel a hole 0 v) n := by
  induction fuel generalizing a hole with
  | zero =>
    simp only [pushHeapLoop]
    exact heapOn_set_hole a n hole v hn hh hinv hch (Or.inl (by omega))
  | succ m ih =>
    simp only [pushHeapLoop]
    split_ifs with hc
    · simp only [Bool.and_eq_true, decide_eq_true_eq, compare_eq_true_iff] at hc
      obtain ⟨hpos, hlt⟩ := hc
      have hp : (hole - 1) / 2 < hole := by omega
      have hkp : keyAt (a.set hole (a.getD ((hole - 1) / 2) NodePtr.null)) hole
          = keyAt a ((hole - 1) / 2) := by
        rw [keyAt_set_self _ _ _ (by omega)]; rfl
      apply ih _ _ (by omega) (by simpa using hn) (by omega)
      · -- the hole invariant at the parent
        intro i hi0 hin hip
        constructor
        · intro hpi hp0
          rw [keyAt_set_ne _ _ _ _ (by omega)]
          have hg := (hinv _ hp0 (by omega) (by omega)).2 (by omega)
          by_cases hih : i = hole
          · subst hih
            rw [hkp]; exact hg
          · rw [keyAt_set_ne _ _ _ _ (Ne.symm hih)]
            have := (hinv i hi0 hin hih).2 (by omega)
            rw [hpi] at this
            exact le_trans hg this
        · intro hpi
          have hih : i ≠ hole := by
            intro e; subst e; exact hpi rfl
          rw [keyAt_set_ne _ _ _ _ (Ne.symm hih)]
          by_cases hph : (i - 1) / 2 = hole
          · rw [hph, hkp]
            exact (hinv i hi0 hin hih).1 hph hpos
          · rw [keyAt_set_ne _ _ _ _ (Ne.symm hph)]
            exact (hinv i hi0 hin hih).2 hph
      · -- the value is below the children of the parent
        intro c hcn hc0 hcp
        by_cases hch2 : c = hole
        · subst hch2
          rw [hkp]; exact le_of_lt hlt
        · rw [keyAt_set_ne _ _ _ _ (Ne.symm hch2)]
          have := (hinv c hc0 hcn hch2).2 (by omega)
          rw [hcp] at this
          exact le_trans (le_of_lt hlt) this
    · apply heapOn_set_hole a n hole v hn hh hinv hch
      simp only [Bool.and_eq_true, decide_eq_true_eq, compare_eq_true_iff, not_and, not_lt] at hc
      by_cases h0 : hole = 0
      · exact Or.inl h0
      · exact Or.inr (hc (by omega))

/-- The first loop of `__adjust_heap` keeps the hole invariant and stops at a hole whose
right child lies outside the heap. -/
theorem holeInv_adjustHeapLoop (fuel : Nat) (a : List NodePtr) (sc len : Nat)
    (hlen : len ≤ a.length) (hsc : sc < len) (hinv : HoleInv a len sc)
    (hfuel : len ≤ fuel + sc) :
    HoleInv (adjustHeapLoop fuel a sc len).1 len (adjustHeapLoop fuel a sc len).2
    ∧ ¬ ((adjustHeapLoop fuel a sc len).2 < (len - 1) / 2) := by
  induction fuel generalizing a sc with
  | zero =>
    simp only [adjustHeapLoop]
    exact ⟨hinv, by omega⟩
  | succ n ih =>
    simp only [adjustHeapLoop]
    split_ifs with hlt hcmp
    · rw [compare_eq_true_iff] at hcmp
      apply ih _ _ (by simpa using hlen) (by omega) _ (by omega)
      apply holeInv_descend a len sc _ hlen hinv (by omega) (by omega) (by omega)
      intro s hs hs0 hps
      have : s = 2 * (sc + 1) - 1 ∨ s = 2 * (sc + 1) := by omega
      rcases this with e | e
      · rw [e]
      · rw [e]; exact le_of_lt hcmp
    · rw [compare_eq_true_iff, not_lt] at hcmp
      apply ih _ _ (by simpa using hlen) (by omega) _ (by omega)
      apply holeInv_descend a len sc _ hlen hinv (by omega) (by omega) (by omega)
      intro s hs hs0 hps
      have : s = 2 * (sc + 1) - 1 ∨ s = 2 * (sc + 1) := by omega
      rcases this with e | e
      · rw [e]; exact hcmp
      · rw [e]
    · exact ⟨hinv, hlt⟩

/-- The routine `__adjust_heap`, started at the root of a vector that is a heap except at
the root, ends in a heap. -/
theorem heapOn_adjustHeap (a : List NodePtr) (len : Nat) (v : NodePtr)
    (hlen : len ≤ a.length) (hpos : 0 < len) (hinv : HoleInv a len 0) :
    HeapOn (adjustHeap a 0 len v) len := by
  obtain ⟨h1, h2, _, _, _⟩ := adjustHeapLoop_spec len a 0 len v hlen hpos
  obtain ⟨h6, h7⟩ := holeInv_adjustHeapLoop len a 0 len hlen hpos hinv (by omega)
  unfold adjustHeap pushHeapAux
  generalize adjustHeapLoop len a 0 len = res at h1 h2 h6 h7
  obtain ⟨a1, sc⟩ := res
  simp only at h1 h2 h6 h7 ⊢
  split_ifs with hc
  · apply heapOn_pushHeapLoop _ _ _ _ _ (le_refl _) (by simp; omega) (by omega)
    · apply holeInv_descend a1 len sc _ (by omega) h6 (by omega) (by omega) (by omega)
      intro s hs hs0 hps
      have : s = 2 * (sc + 1) - 1 := by omega
      rw [this]
    · intro c hcn hc0 hcp
      omega
  · apply heapOn_pushHeapLoop _ _ _ _ _ (le_refl _) (by omega) h2 h6
    intro c hcn hc0 hcp
    exfalso
    apply hc
    omega

theorem heapOn_pqPush (c : List NodePtr) (x : NodePtr) (h : HeapOn c c.length) :
    HeapOn (pqPush c x) (pqPush c x).length := by
  rw [length_pqPush]
  unfold pqPush pushHeapAux
  have hlen : (c ++ [x]).length - 1 = c.length := by simp
  simp only [hlen]
  apply heapOn_pushHeapLoop _ _ _ _ _ (le_refl _) (by simp) (by omega)
  · intro i hi0 hin hic
    constructor
    · intro hp _
      omega
    · intro _
      have hi : i < c.length := by omega
      have := h i hi0 hi
      unfold keyAt at this ⊢
      rw [List.getD_append _ _ _ _ hi, List.getD_append _ _ _ _ (by omega)]
      exact this
  · intro k hk hk0 hkp
    omega

theorem getD_dropLast {α : Type} (l : List α) (i : Nat) (d : α) (h : i < l.length - 1) :
    l.dropLast.getD i d = l.getD i d := by
  rw [List.dropLast_eq_take]
  simp only [List.getD_eq_getElem?_getD]
  rw [List.getElem?_take_of_lt h]

theorem heapOn_pqPop (x : NodePtr) (c : List NodePtr) (h : HeapOn (x :: c) (c.length + 1)) :
    HeapOn (pqPop (x :: c)) (pqPop (x :: c)).length := by
  rw [length_pqPop]
  unfold pqPop popHeap
  split_ifs with hlen
  · simp only [List.length_cons, Nat.add_sub_cancel] at *
    have hcl : 0 < c.length := by omega
    have hinv : HoleInv ((x :: c).set c.length ((x :: c).getD 0 NodePtr.null)) c.length 0 := by
      intro i hi0 hin _
      constructor
      · intro _ h0
        omega
      · intro _
        rw [keyAt_set_ne _ _ _ _ (by omega), keyAt_set_ne _ _ _ _ (by omega)]
        exact h i hi0 (by omega)
    have hheap := heapOn_adjustHeap _ c.length ((x :: c).getD c.length NodePtr.null)
      (by simp) hcl hinv
    obtain ⟨h1, _, _⟩ := adjustHeap_spec
      ((x :: c).set c.length ((x :: c).getD 0 NodePtr.null)) c.length
      ((x :: c).getD c.length NodePtr.null) (by simp) hcl
    generalize adjustHeap ((x :: c).set c.length ((x :: c).getD 0 NodePtr.null)) 0 c.length
      ((x :: c).getD c.length NodePtr.null) = r at h1 hheap
    have hrl : r.length - 1 = c.length := by rw [h1]; simp
    intro i hi0 hin
    unfold keyAt
    rw [getD_dropLast _ _ _ (by omega), getD_dropLast _ _ _ (by omega)]
    exact hheap i hi0 hin
  · intro i hi0 hin
    simp only [List.length_cons, gt_iff_lt, not_lt] at hlen
    omega

/-- The front of a heap has the smallest `freq` of the whole queue. -/
theorem heapOn_head_le (x : NodePtr) (c : List NodePtr) (h : HeapOn (x :: c) (c.length + 1))
    (z : NodePtr) (hz : z ∈ x :: c) : x.freqOf ≤ z.freqOf := by
  obtain ⟨i, hi, e⟩ := List.getElem_of_mem hz
  have := heapOn_root_le (x :: c) _ h i (by simpa using hi)
  unfold keyAt at this
  rw [List.getD_eq_getElem _ _ hi, e] at this
  exact this

/-! ## `buildHuffmanTree` performs greedy merges -/

theorem heapOn_perm_head_le (x : NodePtr) (c : List NodePtr)
    (h : HeapOn (x :: c) (x :: c).length) (z : NodePtr) (hz : z ∈ c) : x.freqOf ≤ z.freqOf :=
  heapOn_head_le x c (by simpa using h) z (List.mem_cons_of_mem _ hz)

/-- The loop of `buildHuffmanTree` returns a tree, and that tree is a greedy reduction of
the queue contents. -/
theorem buildLoop_greedy (fuel : Nat) (H : List NodePtr) (hheap : HeapOn H H.length)
    (hne : H ≠ []) (hfuel : H.length ≤ fuel) :
    ∃ t, buildLoop fuel H = some t ∧ Greedy H t := by
  induction fuel generalizing H with
  | zero =>
    exfalso
    apply hne
    exact List.length_eq_zero.mp (by omega)
  | succ n ih =>
    obtain ⟨x, c, rfl⟩ := List.exists_cons_of_ne_nil hne
    simp only [buildLoop]
    split_ifs with hlen
    · -- at least two nodes in the queue
      have hc : c ≠ [] := by
        intro e; subst e; simp at hlen
      have hp1 := perm_pqPop x c
      have hl1 := length_pqPop x c
      have hh1 := heapOn_pqPop x c (by simpa using hheap)
      have hne1 : pqPop (x :: c) ≠ [] := by
        intro e; rw [e] at hl1
        exact hc (List.length_eq_zero.mp hl1.symm)
      obtain ⟨y, c2, hyc⟩ := List.exists_cons_of_ne_nil hne1
      have hp2 := perm_pqPop y c2
      have hl2 := length_pqPop y c2
      have hh2 := heapOn_pqPop y c2 (by rw [← hyc]; simpa [hyc] using hh1)
      simp only [pqTop, List.head?_cons, hyc]
      have hpush := perm_pqPush (pqPop (y :: c2))
        (NodePtr.node '$' (wrapInt (x.freqOf + y.freqOf)) x y)
      have hhpush := heapOn_pqPush (pqPop (y :: c2))
        (NodePtr.node '$' (wrapInt (x.freqOf + y.freqOf)) x y) hh2
      have hlpush := length_pqPush (pqPop (y :: c2))
        (NodePtr.node '$' (wrapInt (x.freqOf + y.freqOf)) x y)
      have hrest : c.Perm (y :: pqPop (y :: c2)) := by
        have h1 : (pqPop (x :: c)).Perm c := (List.perm_cons x).mp hp1
        rw [hyc] at h1
        exact (hp2.trans h1).symm
      obtain ⟨t, ht, hg⟩ := ih (pqPush (pqPop (y :: c2))
        (NodePtr.node '$' (wrapInt (x.freqOf + y.freqOf)) x y)) hhpush
        (by intro e; rw [e] at hlpush; simp at hlpush)
        (by
          rw [hlpush, hl2]
          have : c.length = c2.length + 1 := by rw [← hl1, hyc]; simp
          simp only [List.length_cons] at hfuel
          omega)
      refine ⟨t, ht, ?_⟩
      refine Greedy.step (x :: c) _ x y (pqPop (y :: c2)) t ((List.perm_cons x).mpr hrest)
        ?_ ?_ hpush hg
      · intro z hz
        exact heapOn_perm_head_le x c hheap z (hrest.symm.subset hz)
      · intro z hz
        have hh1b : HeapOn (y :: c2) (y :: c2).length := by rw [← hyc]; exact hh1
        exact heapOn_perm_head_le y c2 hh1b z
          ((List.perm_cons y).mp hp2 |>.subset hz)
    · have : c = [] := by
        simp only [List.length_cons, ne_eq, not_not] at hlen
        exact List.length_eq_zero.mp (by omega)
      subst this
      exact ⟨x, rfl, Greedy.single x⟩

theorem initHeap_aux (frequency : List (Char × Int)) (H : List NodePtr)
    (hheap : HeapOn H H.length) :
    HeapOn (frequency.foldl (fun minHeap pair => pqPush minHeap (newNode pair.1 pair.2)) H)
      (frequency.foldl (fun minHeap pair => pqPush minHeap (newNode pair.1 pair.2)) H).length
    ∧ (frequency.foldl (fun minHeap pair => pqPush minHeap (newNode pair.1 pair.2)) H).Perm
      (H ++ frequency.map (fun pair => newNode pair.1 pair.2)) := by
  induction frequency generalizing H with
  | nil => simpa using hheap
  | cons p rest ih =>
    simp only [List.foldl_cons, List.map_cons]
    obtain ⟨h1, h2⟩ := ih (pqPush H (newNode p.1 p.2)) (heapOn_pqPush _ _ hheap)
    refine ⟨h1, h2.trans ?_⟩
    have : (pqPush H (newNode p.1 p.2)).Perm (H ++ [newNode p.1 p.2]) :=
      (perm_pqPush _ _).trans (List.perm_append_singleton _ _).symm
    have h3 := this.append_right (rest.map (fun pair => newNode pair.1 pair.2))
    simpa using h3

theorem heapOn_initHeap (frequency : List (Char × Int)) :
    HeapOn (initHeap frequency) (initHeap frequency).length :=
  (initHeap_aux frequency [] (fun i _ hi => by simp at hi)).1

theorem perm_initHeap (frequency : List (Char × Int)) :
    (initHeap frequency).Perm (frequency.map (fun pair => newNode pair.1 pair.2)) := by
  simpa using (initHeap_aux frequency [] (fun i _ hi => by simp at hi)).2

/-- On a non-empty frequency map `buildHuffmanTree` returns a tree, obtained from the
leaves by greedy merges. -/
theorem buildHuffmanTree_greedy (frequency : List (Char × Int)) (hne : frequency ≠ []) :
    ∃ t, buildHuffmanTree frequency = some t ∧ Greedy (initHeap frequency) t := by
  unfold buildHuffmanTree
  apply buildLoop_greedy _ _ (heapOn_initHeap frequency) _ (le_refl _)
  intro e
  have := (perm_initHeap frequency).length_eq
  rw [e] at this
  simp only [List.length_nil, List.length_map] at this
  exact hne (List.length_eq_zero.mp this.symm)

/-! ## Shape and leaves of the built tree -/

theorem leaves_newNode (c : Char) (f : Int) : leaves (newNode c f) = [(c, f)] := by
  simp [newNode, leaves]

theorem wellFormed_newNode (c : Char) (f : Int) : WellFormed (newNode c f) := by
  simp [newNode, WellFormed]

theorem wellFormed_ne_null (t : NodePtr) (h : WellFormed t) : t ≠ NodePtr.null := by
  intro e; subst e; exact h

theorem wellFormed_merge (x y : NodePtr) (hx : WellFormed x) (hy : WellFormed y) :
    WellFormed (merge x y) := by
  show (x = NodePtr.null ∧ y = NodePtr.null)
    ∨ ('$' = '$' ∧ wrapInt (x.freqOf + y.freqOf) = wrapInt (x.freqOf + y.freqOf) ∧ WellFormed x ∧ WellFormed y)
  exact Or.inr ⟨rfl, rfl, hx, hy⟩

theorem leaves_merge (x y : NodePtr) (hx : x ≠ NodePtr.null) :
    leaves (merge x y) = leaves x ++ leaves y := by
  unfold merge
  simp [leaves, hx]

theorem greedy_wellFormed (H : List NodePtr) (t : NodePtr) (hg : Greedy H t)
    (hH : ∀ z ∈ H, WellFormed z) :
    WellFormed t ∧ (leaves t).Perm (H.flatMap leaves) := by
  induction hg with
  | single t => exact ⟨hH t (List.mem_singleton.mpr rfl), by simp⟩
  | step H H2 x y rest t hp _ _ hp2 _ ih =>
    have hx : WellFormed x := hH x (hp.symm.subset (List.mem_cons_self _ _))
    have hy : WellFormed y :=
      hH y (hp.symm.subset (List.mem_cons_of_mem _ (List.mem_cons_self _ _)))
    have hrest : ∀ z ∈ rest, WellFormed z := fun z hz =>
      hH z (hp.symm.subset (List.mem_cons_of_mem _ (List.mem_cons_of_mem _ hz)))
    have hH2 : ∀ z ∈ H2, WellFormed z := by
      intro z hz
      rcases List.mem_cons.mp (hp2.subset hz) with e | e
      · rw [e]; exact wellFormed_merge x y hx hy
      · exact hrest z e
    obtain ⟨h1, h2⟩ := ih hH2
    refine ⟨h1, h2.trans ?_⟩
    refine (hp2.flatMap_right leaves).trans ?_
    refine List.Perm.trans ?_ (hp.flatMap_right leaves).symm
    simp only [List.flatMap_cons]
    rw [leaves_merge x y (wellFormed_ne_null x hx), List.append_assoc]

theorem flatMap_leaves_newNode (frequency : List (Char × Int)) :
    (frequency.map (fun pair => newNode pair.1 pair.2)).flatMap leaves = frequency := by
  induction frequency with
  | nil => rfl
  | cons p rest ih =>
    simp only [List.map_cons, List.flatMap_cons, leaves_newNode, ih]
    rfl

/-- The tree returned for a non-empty frequency map is well formed and its leaves are the
map entries. -/
theorem buildHuffmanTree_spec (frequency : List (Char × Int)) (hne : frequency ≠ []) :
    ∃ t, buildHuffmanTree frequency = some t ∧ Greedy (initHeap frequency) t
      ∧ WellFormed t ∧ (leaves t).Perm frequency := by
  obtain ⟨t, h1, h2⟩ := buildHuffmanTree_greedy frequency hne
  have hwf : ∀ z ∈ initHeap frequency, WellFormed z := by
    intro z hz
    have := (perm_initHeap frequency).subset hz
    obtain ⟨p, _, e⟩ := List.mem_map.mp this
    rw [← e]; exact wellFormed_newNode _ _
  obtain ⟨h3, h4⟩ := greedy_wellFormed _ _ h2 hwf
  refine ⟨t, h1, h2, h3, h4.trans ?_⟩
  have := (perm_initHeap frequency).flatMap_right leaves
  rw [flatMap_leaves_newNode] at this
  exact this

theorem calculateFrequency_ne_nil (text : List Char) (h : text ≠ []) :
    calculateFrequency text ≠ [] := by
  obtain ⟨c, rest, rfl⟩ := List.exists_cons_of_ne_nil h
  intro e
  have := mapFind_calculateFrequency (c :: rest) c
  rw [e] at this
  simp [mapFind] at this

/-! ## Paths and the table written by `storeCodes` -/

theorem codes_map_fst (t : NodePtr) : (codes t).map Prod.fst = (leaves t).map Prod.fst := by
  induction t with
  | null => rfl
  | node c f l r ihl ihr =>
    simp only [codes, leaves]
    split_ifs
    · rfl
    · simp only [List.map_append, List.map_map]
      rw [← ihl, ← ihr]
      rfl

theorem storeCodes_eq_foldl (t : NodePtr) (hwf : WellFormed t) (str : List Char)
    (m : List (Char × List Char)) :
    storeCodes t str m = (codes t).foldl (storeEntry str) m := by
  induction t generalizing str m with
  | null => exact absurd hwf (by simp [WellFormed])
  | node c f l r ihl ihr =>
    simp only [WellFormed] at hwf
    rcases hwf with ⟨hl, hr⟩ | ⟨hc, _, hl, hr⟩
    · subst hl; subst hr
      simp [storeCodes, codes, storeEntry]
    · have hl0 := wellFormed_ne_null l hl
      simp only [storeCodes, codes, hl0, false_and, if_false, hc, ne_eq, not_true]
      rw [ihl hl, ihr hr, List.foldl_append, List.foldl_map, List.foldl_map]
      have e0 : ∀ (b : Char), (fun (m : List (Char × List Char)) (p : Char × List Char) =>
          storeEntry str m (p.1, b :: p.2)) = storeEntry (str ++ [b]) := by
        intro b
        funext m p
        simp [storeEntry]
      rw [e0 '0', e0 '1']

theorem keysSorted_storeEntry (str : List Char) (m : List (Char × List Char))
    (p : Char × List Char) (hm : KeysSorted m) : KeysSorted (storeEntry str m p) := by
  unfold storeEntry
  split_ifs
  · exact keysSorted_mapModify _ _ _ _ hm
  · exact hm

theorem keysSorted_foldl_storeEntry (str : List Char) (ps : List (Char × List Char))
    (m : List (Char × List Char)) (hm : KeysSorted m) :
    KeysSorted (ps.foldl (storeEntry str) m) := by
  induction ps generalizing m with
  | nil => exact hm
  | cons p rest ih => exact ih _ (keysSorted_storeEntry str m p hm)

theorem mapFind_foldl_storeEntry_of_not_mem (str : List Char) (ps : List (Char × List Char))
    (m : List (Char × List Char)) (k : Char)
    (hk : k = '$' ∨ k ∉ ps.map Prod.fst) :
    mapFind k (ps.foldl (storeEntry str) m) = mapFind k m := by
  induction ps generalizing m with
  | nil => rfl
  | cons p rest ih =>
    simp only [List.foldl_cons]
    rw [ih]
    · unfold storeEntry
      split_ifs with h
      · apply mapFind_mapModify_ne
        rcases hk with e | e
        · rw [e]; exact fun e2 => h e2.symm
        · intro e2
          apply e
          rw [e2]
          simp
      · rfl
    · rcases hk with e | e
      · exact Or.inl e
      · right
        intro h
        apply e
        simp only [List.map_cons, List.mem_cons]
        exact Or.inr h

theorem mapFind_foldl_storeEntry_of_mem (str : List Char) (ps : List (Char × List Char))
    (m : List (Char × List Char)) (hm : KeysSorted m) (hnd : (ps.map Prod.fst).Nodup)
    (k : Char) (v : List Char) (hk : k ≠ '$') (hmem : (k, v) ∈ ps) :
    mapFind k (ps.foldl (storeEntry str) m) = some (str ++ v) := by
  induction ps generalizing m with
  | nil => cases hmem
  | cons p rest ih =>
    simp only [List.map_cons, List.nodup_cons] at hnd
    simp only [List.foldl_cons]
    rcases List.mem_cons.mp hmem with e | e
    · subst e
      rw [mapFind_foldl_storeEntry_of_not_mem _ _ _ _ (Or.inr hnd.1)]
      unfold storeEntry
      simp only [ne_eq, hk, not_false_eq_true, if_true]
      rw [mapFind_mapModify_self _ _ _ _ hm]
    · exact ih _ (keysSorted_storeEntry str m p hm) hnd.2 e

/-- The table written by `storeCodes` on a well-formed tree with distinct leaf symbols:
a symbol other than `'$'` on a leaf is mapped to the path of that leaf, and every other
symbol has no entry. -/
theorem mapFind_storeCodes (t : NodePtr) (hwf : WellFormed t)
    (hnd : ((leaves t).map Prod.fst).Nodup) (k : Char) :
    (∀ v, k ≠ '$' → (k, v) ∈ codes t → mapFind k (storeCodes t [] []) = some v)
    ∧ ((k = '$' ∨ k ∉ (leaves t).map Prod.fst) → mapFind k (storeCodes t [] []) = none) := by
  rw [storeCodes_eq_foldl t hwf]
  constructor
  · intro v hk hv
    have := mapFind_foldl_storeEntry_of_mem [] (codes t) [] List.Pairwise.nil
      (by rw [codes_map_fst]; exact hnd) k v hk hv
    simpa using this
  · intro hk
    rw [mapFind_foldl_storeEntry_of_not_mem [] (codes t) [] k (by rw [codes_map_fst]; exact hk)]
    rfl

theorem keysSorted_storeCodes (t : NodePtr) (hwf : WellFormed t) :
    KeysSorted (storeCodes t [] []) := by
  rw [storeCodes_eq_foldl t hwf]
  exact keysSorted_foldl_storeEntry _ _ _ List.Pairwise.nil

/-! ## `encodeText` concatenates the codes -/

theorem mapModify_id_of_mem {V : Type} (k : Char) (d : V) (m : List (Char × V))
    (hm : KeysSorted m) (v : V) (h : mapFind k m = some v) :
    mapModify k (fun s => s) d m = m := by
  induction m with
  | nil => cases h
  | cons p rest ih =>
    obtain ⟨k2, v2⟩ := p
    unfold KeysSorted at hm
    rw [List.pairwise_cons] at hm
    simp only [mapModify]
    split_ifs with h1 h2
    · exfalso
      have hnone : mapFind k ((k2, v2) :: rest) = none := by
        apply mapFind_none_of_lt
        intro x hx
        rcases List.mem_cons.mp hx with e | e
        · rw [e]; exact h1
        · exact lt_trans h1 (hm.1 x e)
      rw [hnone] at h
      cases h
    · rfl
    · simp only [mapFind, h2, if_false] at h
      rw [ih hm.2 h]

theorem mapIndex_mapModify_id (k c : Char) (m : List (Char × List Char)) (hm : KeysSorted m) :
    mapIndex (mapModify k (fun s => s) [] m) c = mapIndex m c := by
  unfold mapIndex
  by_cases h : c = k
  · subst h
    rw [mapFind_mapModify_self _ _ _ _ hm]
    rfl
  · rw [mapFind_mapModify_ne _ _ _ _ _ h]

theorem encodeTextState_aux (text : List Char) (acc : List Char) (m : List (Char × List Char))
    (hm : KeysSorted m) :
    (text.foldl encodeStep (acc, m)).1 = acc ++ text.flatMap (mapIndex m) := by
  induction text generalizing acc m with
  | nil => simp
  | cons c rest ih =>
    simp only [List.foldl_cons, encodeStep, List.flatMap_cons]
    rw [ih _ _ (keysSorted_mapModify _ _ _ _ hm), mapIndex_mapModify_id c c m hm,
      List.append_assoc]
    congr 2
    apply List.flatMap_congr
    intro x _
    exact mapIndex_mapModify_id c x m hm

/-- The string returned by `encodeText` is the concatenation of `huffmanCode[ch]` over the
text, for every map. -/
theorem encodeText_eq_flatMap (text : List Char) (m : List (Char × List Char))
    (hm : KeysSorted m) : encodeText text m = text.flatMap (mapIndex m) := by
  unfold encodeText encodeTextState
  rw [encodeTextState_aux text [] m hm]
  rfl

theorem encodeTextState_snd_aux (text : List Char) (acc : List Char)
    (m : List (Char × List Char)) (hm : KeysSorted m)
    (hall : ∀ c ∈ text, ∃ v, mapFind c m = some v) :
    (text.foldl encodeStep (acc, m)).2 = m := by
  induction text generalizing acc with
  | nil => rfl
  | cons c rest ih =>
    simp only [List.foldl_cons, encodeStep]
    obtain ⟨v, hv⟩ := hall c (List.mem_cons_self _ _)
    rw [mapModify_id_of_mem c [] m hm v hv]
    exact ih _ (fun x hx => hall x (List.mem_cons_of_mem _ hx))

/-- When every character of the text has an entry, `encodeText` leaves the map as it is. -/
theorem encodeTextState_snd (text : List Char) (m : List (Char × List Char))
    (hm : KeysSorted m) (hall : ∀ c ∈ text, ∃ v, mapFind c m = some v) :
    (encodeTextState text m).2 = m :=
  encodeTextState_snd_aux text [] m hm hall

theorem length_flatMap_eq_sum {α β : Type} (l : List α) (f : α → List β) :
    (l.flatMap f).length = (l.map (fun a => (f a).length)).sum := by
  induction l with
  | nil => rfl
  | cons a rest ih => simp [List.flatMap_cons, ih]

/-! ## Walking a well-formed tree -/

theorem wellFormed_cases (t : NodePtr) (h : WellFormed t) :
    (∃ c f, t = NodePtr.node c f NodePtr.null NodePtr.null)
    ∨ (∃ f l r, t = NodePtr.node '$' f l r ∧ f = wrapInt (l.freqOf + r.freqOf) ∧ WellFormed l
        ∧ WellFormed r) := by
  cases t with
  | null => exact absurd h (by simp [WellFormed])
  | node c f l r =>
    simp only [WellFormed] at h
    rcases h with ⟨hl, hr⟩ | ⟨hc, hf, hl, hr⟩
    · left; exact ⟨c, f, by rw [hl, hr]⟩
    · right; exact ⟨f, l, r, by rw [hc], hf, hl, hr⟩

theorem codes_leaf (c : Char) (f : Int) :
    codes (NodePtr.node c f NodePtr.null NodePtr.null) = [(c, [])] := by
  simp [codes]

theorem codes_internal (c : Char) (f : Int) (l r : NodePtr) (hl : l ≠ NodePtr.null) :
    codes (NodePtr.node c f l r)
      = (codes l).map (fun p => (p.1, '0' :: p.2)) ++ (codes r).map (fun p => (p.1, '1' :: p.2)) := by
  simp [codes, hl]

/-- One step of the loop of `decodeText` from an allocated node whose child on the side
of the bit is allocated. -/
theorem decodeLoop_step (root : NodePtr) (c : Char) (f : Int) (l r : NodePtr) (out : List Char)
    (bit : Char) (rest : List Char) (ch : Char) (f2 : Int) (l2 r2 : NodePtr)
    (hnext : (if bit = '0' then l else r) = NodePtr.node ch f2 l2 r2) :
    decodeLoop root (NodePtr.node c f l r) out (bit :: rest)
      = if l2 = NodePtr.null ∧ r2 = NodePtr.null then decodeLoop root root (out ++ [ch]) rest
        else decodeLoop root (NodePtr.node ch f2 l2 r2) out rest := by
  simp only [decodeLoop, hnext]

/-- Following the path of a leaf from an inner node of a well-formed tree emits the symbol
of the leaf and returns to the root. -/
theorem decodeLoop_code (root t : NodePtr) (hwf : WellFormed t) (c0 : Char) (f0 : Int)
    (l0 r0 : NodePtr) (ht : t = NodePtr.node c0 f0 l0 r0) (hl0 : l0 ≠ NodePtr.null)
    (out : List Char) (c : Char) (p : List Char) (hp : (c, p) ∈ codes t) (rest : List Char) :
    decodeLoop root t out (p ++ rest) = decodeLoop root root (out ++ [c]) rest := by
  induction t generalizing c0 f0 l0 r0 p with
  | null => cases ht
  | node c1 f1 l r ihl ihr =>
    injection ht with _ _ e3 e4
    subst e3; subst e4
    simp only [WellFormed] at hwf
    rcases hwf with ⟨h, _⟩ | ⟨_, _, hwl, hwr⟩
    · exact absurd h hl0
    rw [codes_internal _ _ _ _ hl0] at hp
    rcases List.mem_append.mp hp with hm | hm
    · obtain ⟨q, hq, e⟩ := List.mem_map.mp hm
      injection e with e1 e2
      subst e1; subst e2
      rcases wellFormed_cases l hwl with ⟨c2, f2, e⟩ | ⟨f2, l2, r2, e, _, hl2, _⟩
      · subst e
        rw [codes_leaf] at hq
        rw [List.mem_singleton] at hq
        subst hq
        simp only [List.cons_append, List.nil_append]
        rw [decodeLoop_step root c1 f1 _ r out '0' rest c2 f2 NodePtr.null NodePtr.null (by simp)]
        simp
      · subst e
        simp only [List.cons_append]
        rw [decodeLoop_step root c1 f1 _ r out '0' (q.2 ++ rest) '$' f2 l2 r2 (by simp)]
        have hl2n := wellFormed_ne_null l2 hl2
        simp only [hl2n, false_and, if_false]
        exact ihl hwl '$' f2 l2 r2 rfl hl2n q.2 hq
    · obtain ⟨q, hq, e⟩ := List.mem_map.mp hm
      injection e with e1 e2
      subst e1; subst e2
      rcases wellFormed_cases r hwr with ⟨c2, f2, e⟩ | ⟨f2, l2, r2, e, _, hl2, _⟩
      · subst e
        rw [codes_leaf] at hq
        rw [List.mem_singleton] at hq
        subst hq
        simp only [List.cons_append, List.nil_append]
        rw [decodeLoop_step root c1 f1 l _ out '1' rest c2 f2 NodePtr.null NodePtr.null
          (by simp)]
        simp
      · subst e
        simp only [List.cons_append]
        rw [decodeLoop_step root c1 f1 l _ out '1' (q.2 ++ rest) '$' f2 l2 r2 (by simp)]
        have hl2n := wellFormed_ne_null l2 hl2
        simp only [hl2n, false_and, if_false]
        exact ihr hwr '$' f2 l2 r2 rfl hl2n q.2 hq

/-- Decoding a concatenation of leaf paths of a well-formed tree with an inner root gives
the symbols of those leaves. -/
theorem decodeLoop_flatMap (root : NodePtr) (hwf : WellFormed root) (c0 : Char) (f0 : Int)
    (l0 r0 : NodePtr) (ht : root = NodePtr.node c0 f0 l0 r0) (hl0 : l0 ≠ NodePtr.null)
    (code : Char → List Char) (text : List Char)
    (hcode : ∀ c ∈ text, (c, code c) ∈ codes root) (out rest : List Char) :
    decodeLoop root root out (text.flatMap code ++ rest)
      = decodeLoop root root (out ++ text) rest := by
  induction text generalizing out with
  | nil => simp
  | cons c cs ih =>
    simp only [List.flatMap_cons, List.append_assoc]
    rw [decodeLoop_code root root hwf c0 f0 l0 r0 ht hl0 out c (code c)
      (hcode c (List.mem_cons_self _ _))]
    rw [ih (fun x hx => hcode x (List.mem_cons_of_mem _ hx))]
    simp

/-! ## The tree built from a text -/

/-- Everything later proofs use about the tree built from a non-empty text. -/
theorem built_tree (text : List Char) (hne : text ≠ []) :
    ∃ t, buildHuffmanTree (calculateFrequency text) = some t
      ∧ Greedy (initHeap (calculateFrequency text)) t
      ∧ WellFormed t
      ∧ (leaves t).Perm (calculateFrequency text)
      ∧ ((leaves t).map Prod.fst).Nodup := by
  obtain ⟨t, h1, h2, h3, h4⟩ :=
    buildHuffmanTree_spec (calculateFrequency text) (calculateFrequency_ne_nil text hne)
  refine ⟨t, h1, h2, h3, h4, ?_⟩
  exact ((h4.map Prod.fst).nodup_iff).mpr
    (keysSorted_nodup_keys _ (keysSorted_calculateFrequency text))

theorem mem_leaves_built (text : List Char) (t : NodePtr)
    (hp : (leaves t).Perm (calculateFrequency text)) (c : Char) :
    c ∈ (leaves t).map Prod.fst ↔ c ∈ text := by
  constructor
  · intro h
    obtain ⟨⟨c2, n⟩, hm, e⟩ := List.mem_map.mp h
    simp only at e
    subst e
    exact ((mem_calculateFrequency_iff text c2 n).mp (hp.subset hm)).1
  · intro h
    have := (mem_calculateFrequency_iff text c (text.count c)).mpr ⟨h, rfl⟩
    exact List.mem_map.mpr ⟨(c, text.count c), hp.symm.subset this, rfl⟩

/-- With two distinct symbols in the text the root of the built tree has children. -/
theorem built_root_internal (text : List Char) (t : NodePtr) (hwf : WellFormed t)
    (hp : (leaves t).Perm (calculateFrequency text))
    (a b : Char) (ha : a ∈ text) (hb : b ∈ text) (hab : a ≠ b) :
    ∃ f l r, t = NodePtr.node '$' f l r ∧ WellFormed l ∧ WellFormed r := by
  rcases wellFormed_cases t hwf with ⟨c, f, e⟩ | ⟨f, l, r, e, _, hl, hr⟩
  · exfalso
    subst e
    have h1 := (mem_leaves_built text _ hp a).mpr ha
    have h2 := (mem_leaves_built text _ hp b).mpr hb
    simp [leaves] at h1 h2
    exact hab (h1.trans h2.symm)
  · exact ⟨f, l, r, e, hl, hr⟩

/-- In the table built from a text, a symbol of the text other than `'$'` is mapped to the
path of its leaf. -/
theorem built_table_entry (text : List Char) (t : NodePtr) (hwf : WellFormed t)
    (hp : (leaves t).Perm (calculateFrequency text))
    (hnd : ((leaves t).map Prod.fst).Nodup) (c : Char) (hc : c ∈ text) (hd : c ≠ '$') :
    ∃ p, (c, p) ∈ codes t ∧ mapFind c (storeCodes t [] []) = some p := by
  have h1 := (mem_leaves_built text t hp c).mpr hc
  rw [← codes_map_fst] at h1
  obtain ⟨⟨c2, p⟩, hm, e⟩ := List.mem_map.mp h1
  simp only at e
  subst e
  exact ⟨p, hm, (mapFind_storeCodes t hwf hnd c2).1 p hd hm⟩

/-! ## Round trip through `decodeText` -/

theorem roundtrip_decodeText (text : List Char) (a b : Char) (ha : a ∈ text) (hb : b ∈ text)
    (hab : a ≠ b) (hd : '$' ∉ text) :
    ∃ tree, buildHuffmanTree (calculateFrequency text) = some tree
      ∧ decodeText tree (encodeText text (storeCodes tree [] [])) = Outcome.returned text := by
  obtain ⟨t, h1, _, hwf, hp, hnd⟩ := built_tree text (List.ne_nil_of_mem ha)
  refine ⟨t, h1, ?_⟩
  obtain ⟨f, l, r, e, hl, _⟩ := built_root_internal text t hwf hp a b ha hb hab
  rw [encodeText_eq_flatMap _ _ (keysSorted_storeCodes t hwf)]
  unfold decodeText
  have hcode : ∀ c ∈ text, (c, mapIndex (storeCodes t [] []) c) ∈ codes t := by
    intro c hc
    have hcd : c ≠ '$' := fun e => hd (e ▸ hc)
    obtain ⟨p, hp1, hp2⟩ := built_table_entry text t hwf hp hnd c hc hcd
    unfold mapIndex
    rw [hp2]
    exact hp1
  have := decodeLoop_flatMap t hwf '$' f l r e (wellFormed_ne_null l hl)
    (mapIndex (storeCodes t [] [])) text hcode [] []
  simp only [List.append_nil, List.nil_append] at this
  rw [this]
  rfl

/-! ## Paths of distinct leaves are not prefixes of one another -/

theorem codes_prefix_eq (t : NodePtr) (x y : Char × List Char) (hx : x ∈ codes t)
    (hy : y ∈ codes t) (s : List Char) (hs : x.2 ++ s = y.2) : x = y := by
  induction t generalizing x y with
  | null => simp [codes] at hx
  | node c f l r ihl ihr =>
    simp only [codes] at hx hy
    split_ifs at hx hy with h
    · rw [List.mem_singleton] at hx hy
      rw [hx, hy]
    · rcases List.mem_append.mp hx with hx1 | hx1 <;>
      rcases List.mem_append.mp hy with hy1 | hy1 <;>
      obtain ⟨x2, hx2, ex⟩ := List.mem_map.mp hx1 <;>
      obtain ⟨y2, hy2, ey⟩ := List.mem_map.mp hy1 <;>
      subst ex <;> subst ey <;>
      simp only [List.cons_append, List.cons.injEq, true_and] at hs
      · rw [ihl x2 y2 hx2 hy2 hs]
      · exact absurd hs.1 (by decide)
      · exact absurd hs.1 (by decide)
      · rw [ihr x2 y2 hx2 hy2 hs]

theorem table_entry_mem_codes (t : NodePtr) (hwf : WellFormed t)
    (hnd : ((leaves t).map Prod.fst).Nodup) (k : Char) (v : List Char)
    (h : mapFind k (storeCodes t [] []) = some v) : (k, v) ∈ codes t := by
  by_cases hk : k = '$' ∨ k ∉ (leaves t).map Prod.fst
  · rw [(mapFind_storeCodes t hwf hnd k).2 hk] at h
    cases h
  · rw [not_or, not_not] at hk
    rw [← codes_map_fst] at hk
    obtain ⟨⟨k2, p⟩, hm, e⟩ := List.mem_map.mp hk.2
    simp only at e
    subst e
    rw [(mapFind_storeCodes t hwf hnd k2).1 p hk.1 hm] at h
    injection h with h
    rw [← h]; exact hm

theorem table_prefix_free (text : List Char) (hne : text ≠ []) :
    ∃ tree, buildHuffmanTree (calculateFrequency text) = some tree
      ∧ ∀ a b ca cb, a ≠ b → mapFind a (storeCodes tree [] []) = some ca
          → mapFind b (storeCodes tree [] []) = some cb
          → (¬ ∃ s, ca ++ s = cb) ∧ (¬ ∃ s, cb ++ s = ca) := by
  obtain ⟨t, h1, _, hwf, _, hnd⟩ := built_tree text hne
  refine ⟨t, h1, ?_⟩
  intro a b ca cb hab ha hb
  have hma := table_entry_mem_codes t hwf hnd a ca ha
  have hmb := table_entry_mem_codes t hwf hnd b cb hb
  constructor
  · rintro ⟨s, hs⟩
    have := codes_prefix_eq t (a, ca) (b, cb) hma hmb s hs
    injection this with e _
    exact hab e
  · rintro ⟨s, hs⟩
    have := codes_prefix_eq t (b, cb) (a, ca) hmb hma s hs
    injection this with e _
    exact hab e.symm

/-! ## Leaves of the built tree -/

/-- The keys of the table written by `storeCodes` are the symbols of the text other than
`'$'`. -/
theorem built_table_keys (text : List Char) (hne : text ≠ []) :
    ∃ tree, buildHuffmanTree (calculateFrequency text) = some tree
      ∧ ∀ c, c ∈ (storeCodes tree [] []).map Prod.fst ↔ (c ∈ text ∧ c ≠ '$') := by
  obtain ⟨t, h1, _, hwf, hp, hnd⟩ := built_tree text hne
  refine ⟨t, h1, ?_⟩
  intro c
  constructor
  · intro h
    obtain ⟨⟨c2, v⟩, hm, e⟩ := List.mem_map.mp h
    simp only at e
    subst e
    have hf := mapFind_eq_some_of_mem _ (keysSorted_storeCodes t hwf) c2 v hm
    have hc := table_entry_mem_codes t hwf hnd c2 v hf
    constructor
    · apply (mem_leaves_built text t hp c2).mp
      rw [← codes_map_fst]
      exact List.mem_map.mpr ⟨(c2, v), hc, rfl⟩
    · intro e
      rw [(mapFind_storeCodes t hwf hnd c2).2 (Or.inl e)] at hf
      cases hf
  · rintro ⟨hc, hd⟩
    obtain ⟨p, _, hp2⟩ := built_table_entry text t hwf hp hnd c hc hd
    exact List.mem_map.mpr ⟨(c, p), mem_of_mapFind_eq_some _ c p hp2, rfl⟩

/-! ## The table file: `writeHuffmanTable`, `getline`, and the parser -/

theorem writeHuffmanTable_aux (m : List (Char × List Char)) (acc : List Char) :
    m.foldl (fun file pair => file ++ [pair.1] ++ [':', ' '] ++ pair.2 ++ ['\n']) acc
      = acc ++ m.flatMap (fun pair => pair.1 :: ':' :: ' ' :: (pair.2 ++ ['\n'])) := by
  induction m generalizing acc with
  | nil => simp
  | cons p rest ih =>
    simp only [List.foldl_cons, List.flatMap_cons]
    rw [ih]
    simp

theorem writeHuffmanTable_eq (m : List (Char × List Char)) :
    writeHuffmanTable m = m.flatMap (fun pair => pair.1 :: ':' :: ' ' :: (pair.2 ++ ['\n'])) := by
  unfold writeHuffmanTable
  rw [writeHuffmanTable_aux]
  rfl

theorem getlines_line (line temp rest : List Char) (h : '\n' ∉ line) :
    getlines temp (line ++ '\n' :: rest) = (temp ++ line) :: getlines [] rest := by
  induction line generalizing temp with
  | nil => simp [getlines]
  | cons c cs ih =>
    have hc : c ≠ '\n' := by
      intro e; apply h; rw [e]; exact List.mem_cons_self _ _
    have hcs : '\n' ∉ cs := fun e => h (List.mem_cons_of_mem _ e)
    rw [List.cons_append]
    show (if c = '\n' then temp :: getlines [] (cs ++ '\n' :: rest)
      else getlines (temp ++ [c]) (cs ++ '\n' :: rest)) = _
    rw [if_neg hc, ih _ hcs]
    simp

/-- Reading back a written table whose symbols and codes contain no newline yields one
line per entry. -/
theorem getlines_writeHuffmanTable (m : List (Char × List Char))
    (hk : ∀ p ∈ m, p.1 ≠ '\n') (hv : ∀ p ∈ m, '\n' ∉ p.2) :
    getlines [] (writeHuffmanTable m) = m.map (fun pair => pair.1 :: ':' :: ' ' :: pair.2) := by
  rw [writeHuffmanTable_eq]
  induction m with
  | nil => simp [getlines]
  | cons p rest ih =>
    simp only [List.flatMap_cons, List.map_cons]
    have h1 : '\n' ∉ p.1 :: ':' :: ' ' :: p.2 := by
      intro h
      rcases List.mem_cons.mp h with e | e
      · exact hk p (List.mem_cons_self _ _) e.symm
      · rcases List.mem_cons.mp e with e | e
        · exact absurd e (by decide)
        · rcases List.mem_cons.mp e with e | e
          · exact absurd e (by decide)
          · exact hv p (List.mem_cons_self _ _) e
    have e2 : p.1 :: ':' :: ' ' :: (p.2 ++ ['\n'])
          ++ List.flatMap rest (fun pair => pair.1 :: ':' :: ' ' :: (pair.2 ++ ['\n']))
        = (p.1 :: ':' :: ' ' :: p.2) ++ '\n'
          :: List.flatMap rest (fun pair => pair.1 :: ':' :: ' ' :: (pair.2 ++ ['\n'])) := by
      simp
    rw [e2, getlines_line _ _ _ h1]
    rw [ih (fun q hq => hk q (List.mem_cons_of_mem _ hq))
      (fun q hq => hv q (List.mem_cons_of_mem _ hq))]
    rfl

theorem findColon_line (k : Char) (code : List Char) (hk : k ≠ ':') :
    findColon (k :: ':' :: ' ' :: code) = some 1 := by
  unfold findColon
  have : List.indexOf ':' (k :: ':' :: ' ' :: code) = 1 := by
    rw [List.indexOf_cons_ne _ hk, List.indexOf_cons_self]
  rw [this]
  simp

theorem mapModify_append_last {V : Type} (k : Char) (f : V → V) (d : V) (m : List (Char × V))
    (h : ∀ x ∈ m, x.1.toNat < k.toNat) : mapModify k f d m = m ++ [(k, f d)] := by
  induction m with
  | nil => rfl
  | cons p rest ih =>
    obtain ⟨k2, v⟩ := p
    have h1 := h (k2, v) (List.mem_cons_self _ _)
    simp only at h1
    have h2 : ¬ k.toNat < k2.toNat := by omega
    have h3 : k ≠ k2 := by
      intro e; rw [e] at h1; exact lt_irrefl _ h1
    simp only [mapModify, h2, h3, if_false, List.cons_append]
    rw [ih (fun x hx => h x (List.mem_cons_of_mem _ hx))]

theorem parseTable_lines (m acc : List (Char × List Char)) (hm : KeysSorted (acc ++ m))
    (hk : ∀ p ∈ m, p.1 ≠ ':') :
    parseTable (m.map (fun pair => pair.1 :: ':' :: ' ' :: pair.2)) acc = some (acc ++ m) := by
  induction m generalizing acc with
  | nil => simp [parseTable]
  | cons p rest ih =>
    simp only [List.map_cons, parseTable]
    rw [findColon_line _ _ (hk p (List.mem_cons_self _ _))]
    simp only [List.length_cons, List.headD_cons, List.drop_succ_cons, List.drop_zero]
    have hlen : ¬ (1 + 2 > p.2.length + 1 + 1 + 1) := by omega
    rw [if_neg hlen]
    have hlt : ∀ x ∈ acc, x.1.toNat < p.1.toNat := by
      intro x hx
      unfold KeysSorted at hm
      rw [List.pairwise_append] at hm
      exact hm.2.2 x hx p (List.mem_cons_self _ _)
    rw [mapModify_append_last _ _ _ _ hlt]
    have e : acc ++ [(p.1, p.2)] ++ rest = acc ++ p :: rest := by simp
    rw [ih _ (by rw [e]; exact hm) (fun q hq => hk q (List.mem_cons_of_mem _ hq)), e]

/-- Writing a table and parsing it back returns the table, provided no symbol is a colon
or a newline and no code contains a newline. -/
theorem parse_write (m : List (Char × List Char)) (hm : KeysSorted m)
    (hk1 : ∀ p ∈ m, p.1 ≠ ':') (hk2 : ∀ p ∈ m, p.1 ≠ '\n') (hv : ∀ p ∈ m, '\n' ∉ p.2) :
    parseTable (getlines [] (writeHuffmanTable m)) [] = some m := by
  rw [getlines_writeHuffmanTable m hk2 hv]
  have := parseTable_lines m [] (by simpa using hm) hk1
  simpa using this

/-! ## The reconstruction loop rebuilds the shape of the tree -/

theorem allocIfNull_ne_null (p : NodePtr) : allocIfNull p ≠ NodePtr.null := by
  unfold allocIfNull
  split_ifs with h
  · simp [newNode]
  · exact h

theorem allocIfNull_of_ne_null (p : NodePtr) (h : p ≠ NodePtr.null) : allocIfNull p = p := by
  unfold allocIfNull
  rw [if_neg h]

theorem insertCode_ne_null (ch : Char) (p : List Char) (z : NodePtr) (hz : z ≠ NodePtr.null) :
    insertCode ch p z ≠ NodePtr.null := by
  cases z with
  | null => exact absurd rfl hz
  | node c f l r =>
    cases p with
    | nil => simp [insertCode]
    | cons b bs =>
      simp only [insertCode]
      split_ifs <;> simp

/-- Two insertions along different paths can be done in either order. -/
theorem insertCode_comm (a b : Char) (p q : List Char) (hpq : p ≠ q) (hp : IsBits p)
    (hq : IsBits q) (z : NodePtr) :
    insertCode a p (insertCode b q z) = insertCode b q (insertCode a p z) := by
  induction p generalizing q z with
  | nil =>
    cases z with
    | null => simp [insertCode]
    | node c f l r =>
      cases q with
      | nil => exact absurd rfl hpq
      | cons b0 q2 =>
        simp only [insertCode]
        split_ifs <;> simp [insertCode]
  | cons a0 p2 ih =>
    cases z with
    | null => simp [insertCode]
    | node c f l r =>
      cases q with
      | nil =>
        simp only [insertCode]
        split_ifs <;> simp [insertCode]
      | cons b0 q2 =>
        have al := allocIfNull_ne_null l
        have ar := allocIfNull_ne_null r
        have hp2 : IsBits p2 := fun c hc => hp c (List.mem_cons_of_mem _ hc)
        have hq2 : IsBits q2 := fun c hc => hq c (List.mem_cons_of_mem _ hc)
        simp only [insertCode]
        by_cases ha : a0 = '0' <;> by_cases hb : b0 = '0'
        · have hne : p2 ≠ q2 := by
            intro e; apply hpq; rw [ha, hb, e]
          simp only [ha, hb, if_true, insertCode]
          rw [allocIfNull_of_ne_null _ (insertCode_ne_null b q2 _ al),
            allocIfNull_of_ne_null _ (insertCode_ne_null a p2 _ al), ih q2 hne hp2 hq2]
        · simp only [ha, hb, if_true, if_false, insertCode]
        · simp only [ha, hb, if_true, if_false, insertCode]
        · have ha1 : a0 = '1' := (hp a0 (List.mem_cons_self _ _)).resolve_left ha
          have hb1 : b0 = '1' := (hq b0 (List.mem_cons_self _ _)).resolve_left hb
          have hne : p2 ≠ q2 := by
            intro e; apply hpq; rw [ha1, hb1, e]
          simp only [ha, hb, if_false, insertCode]
          rw [allocIfNull_of_ne_null _ (insertCode_ne_null b q2 _ ar),
            allocIfNull_of_ne_null _ (insertCode_ne_null a p2 _ ar), ih q2 hne hp2 hq2]

theorem codes_isBits (t : NodePtr) (x : Char × List Char) (hx : x ∈ codes t) : IsBits x.2 := by
  induction t generalizing x with
  | null => simp [codes] at hx
  | node c f l r ihl ihr =>
    simp only [codes] at hx
    split_ifs at hx with h
    · rw [List.mem_singleton] at hx
      rw [hx]
      intro c hc
      cases hc
    · rcases List.mem_append.mp hx with h1 | h1
      · obtain ⟨y, hy, e⟩ := List.mem_map.mp h1
        subst e
        intro c hc
        rcases List.mem_cons.mp hc with e | e
        · exact Or.inl e
        · exact ihl y hy c e
      · obtain ⟨y, hy, e⟩ := List.mem_map.mp h1
        subst e
        intro c hc
        rcases List.mem_cons.mp hc with e | e
        · exact Or.inr e
        · exact ihr y hy c e

theorem codes_ne_nil (t : NodePtr) (hwf : WellFormed t) : codes t ≠ [] := by
  induction t with
  | null => exact absurd hwf (by simp [WellFormed])
  | node c f l r ihl _ =>
    simp only [WellFormed] at hwf
    rcases hwf with ⟨hl, hr⟩ | ⟨_, _, hl, _⟩
    · simp [codes, hl, hr]
    · have := ihl hl
      simp [codes, wellFormed_ne_null l hl, this]

theorem foldl_insertEntry_left (c : Char) (f : Int) (L R : NodePtr) (p : Char × List Char)
    (ps : List (Char × List Char)) :
    ((p :: ps).map (fun x => (x.1, '0' :: x.2))).foldl insertEntry (NodePtr.node c f L R)
      = NodePtr.node c f ((p :: ps).foldl insertEntry (allocIfNull L)) R := by
  induction ps generalizing p L with
  | nil => simp [insertEntry, insertCode]
  | cons q qs ih =>
    rw [List.map_cons, List.foldl_cons]
    have e : insertEntry (NodePtr.node c f L R) (p.1, '0' :: p.2)
        = NodePtr.node c f (insertCode p.1 p.2 (allocIfNull L)) R := by
      simp [insertEntry, insertCode]
    rw [e, ih _ q, allocIfNull_of_ne_null _ (insertCode_ne_null _ _ _ (allocIfNull_ne_null L))]
    rfl

theorem foldl_insertEntry_right (c : Char) (f : Int) (L R : NodePtr) (p : Char × List Char)
    (ps : List (Char × List Char)) :
    ((p :: ps).map (fun x => (x.1, '1' :: x.2))).foldl insertEntry (NodePtr.node c f L R)
      = NodePtr.node c f L ((p :: ps).foldl insertEntry (allocIfNull R)) := by
  induction ps generalizing p R with
  | nil => simp [insertEntry, insertCode]
  | cons q qs ih =>
    rw [List.map_cons, List.foldl_cons]
    have e : insertEntry (NodePtr.node c f L R) (p.1, '1' :: p.2)
        = NodePtr.node c f L (insertCode p.1 p.2 (allocIfNull R)) := by
      simp [insertEntry, insertCode]
    rw [e, ih _ q, allocIfNull_of_ne_null _ (insertCode_ne_null _ _ _ (allocIfNull_ne_null R))]
    rfl

/-- Inserting the paths of a well-formed tree, left to right, into a fresh root rebuilds
the tree up to the `freq` fields. -/
theorem foldl_insertEntry_codes (t : NodePtr) (hwf : WellFormed t) :
    (codes t).foldl insertEntry (newNode '$' 0) = skeleton t := by
  induction t with
  | null => exact absurd hwf (by simp [WellFormed])
  | node c f l r ihl ihr =>
    simp only [WellFormed] at hwf
    rcases hwf with ⟨hl, hr⟩ | ⟨hc, _, hl, hr⟩
    · subst hl; subst hr
      simp [codes, insertEntry, insertCode, newNode, skeleton]
    · obtain ⟨p, ps, e1⟩ := List.exists_cons_of_ne_nil (codes_ne_nil l hl)
      obtain ⟨q, qs, e2⟩ := List.exists_cons_of_ne_nil (codes_ne_nil r hr)
      rw [codes_internal _ _ _ _ (wellFormed_ne_null l hl), List.foldl_append, e1, e2]
      unfold newNode
      rw [foldl_insertEntry_left, foldl_insertEntry_right, ← e1, ← e2]
      have e3 : allocIfNull NodePtr.null = newNode '$' 0 := rfl
      rw [e3, ihl hl, ihr hr, hc]
      rfl

/-- The table written by `storeCodes` holds exactly the leaf paths when no leaf carries
`'$'`. -/
theorem perm_storeCodes_codes (t : NodePtr) (hwf : WellFormed t)
    (hnd : ((leaves t).map Prod.fst).Nodup) (hd : '$' ∉ (leaves t).map Prod.fst) :
    (storeCodes t [] []).Perm (codes t) := by
  rw [List.perm_ext_iff_of_nodup]
  · intro x
    obtain ⟨k, v⟩ := x
    constructor
    · intro h
      exact table_entry_mem_codes t hwf hnd k v
        (mapFind_eq_some_of_mem _ (keysSorted_storeCodes t hwf) k v h)
    · intro h
      have hk : k ≠ '$' := by
        intro e
        apply hd
        rw [← codes_map_fst, ← e]
        exact List.mem_map.mpr ⟨(k, v), h, rfl⟩
      exact mem_of_mapFind_eq_some _ k v ((mapFind_storeCodes t hwf hnd k).1 v hk h)
  · exact (keysSorted_nodup_keys _ (keysSorted_storeCodes t hwf)).of_map
  · rw [← codes_map_fst] at hnd
    exact hnd.of_map

/-- The tree that `decodeFromFile` rebuilds from the table of a well-formed tree is that
tree with the `freq` fields cleared. -/
theorem rebuildTree_storeCodes (t : NodePtr) (hwf : WellFormed t)
    (hnd : ((leaves t).map Prod.fst).Nodup) (hd : '$' ∉ (leaves t).map Prod.fst) :
    rebuildTree (storeCodes t [] []) = skeleton t := by
  unfold rebuildTree
  rw [← foldl_insertEntry_codes t hwf]
  have hperm := perm_storeCodes_codes t hwf hnd hd
  apply hperm.foldl_eq'
  intro x hx y hy z
  have hx2 := hperm.subset hx
  have hy2 := hperm.subset hy
  by_cases hxy : x.2 = y.2
  · have := codes_prefix_eq t x y hx2 hy2 [] (by simpa using hxy)
    rw [this]
  · unfold insertEntry
    exact insertCode_comm y.1 x.1 y.2 x.2 (Ne.symm hxy) (codes_isBits t y hy2)
      (codes_isBits t x hx2) _

/-! ## `trace` on the rebuilt tree -/

theorem getD_append_cons (pre : List Char) (b : Char) (tail : List Char) (d : Char) :
    (pre ++ b :: tail).getD pre.length d = b := by
  induction pre with
  | nil => rfl
  | cons x xs ih => simpa using ih

theorem trace_leaf (fuel i : Nat) (txt : List Char) (root : NodePtr) (c : Char) (f : Int)
    (l r : NodePtr) (out : List Char) (hc : c ≠ '$') :
    trace (fuel + 1) i txt root (NodePtr.node c f l r) out
      = trace fuel i txt root root (out ++ [c]) := by
  simp [trace, hc]

theorem trace_end (fuel : Nat) (txt : List Char) (root : NodePtr) (f : Int)
    (l r : NodePtr) (out : List Char) :
    trace (fuel + 1) txt.length txt root (NodePtr.node '$' f l r) out
      = some (Outcome.returned out) := by
  simp [trace]

theorem trace_descend (fuel : Nat) (pre : List Char) (b : Char) (tail : List Char)
    (root : NodePtr) (f : Int) (l r : NodePtr) (out : List Char) :
    trace (fuel + 1) pre.length (pre ++ b :: tail) root (NodePtr.node '$' f l r) out
      = trace fuel (pre.length + 1) (pre ++ b :: tail) root (if b = '0' then l else r) out := by
  have hlen : pre.length ≠ (pre ++ b :: tail).length := by
    simp
  have h3 : NodePtr.node '$' f l r ≠ NodePtr.null := by simp
  simp only [trace, ne_eq, not_true_eq_false, ↓reduceIte, hlen, h3, getD_append_cons]
  split_ifs <;> rfl

theorem leaves_internal (c : Char) (f : Int) (l r : NodePtr) (hl : l ≠ NodePtr.null) :
    leaves (NodePtr.node c f l r) = leaves l ++ leaves r := by
  simp [leaves, hl]

/-- Following the path of a leaf in the rebuilt tree emits the symbol of the leaf and
returns to the root, using one call per bit and one for the leaf. -/
theorem trace_code (root t : NodePtr) (hwf : WellFormed t)
    (hd : '$' ∉ (leaves t).map Prod.fst) (c : Char) (p : List Char) (hp : (c, p) ∈ codes t)
    (fuel : Nat) (pre rest out : List Char) :
    trace (fuel + p.length + 1) pre.length (pre ++ (p ++ rest)) root (skeleton t) out
      = trace fuel (pre.length + p.length) (pre ++ (p ++ rest)) root root (out ++ [c]) := by
  induction t generalizing p pre with
  | null => exact absurd hwf (by simp [WellFormed])
  | node c1 f1 l r ihl ihr =>
    simp only [WellFormed] at hwf
    rcases hwf with ⟨hl, hr⟩ | ⟨hc, _, hwl, hwr⟩
    · subst hl; subst hr
      rw [codes_leaf, List.mem_singleton] at hp
      injection hp with e1 e2
      subst e1; subst e2
      have hc : c ≠ '$' := by
        intro e
        apply hd
        simp [leaves, e]
      simp only [List.length_nil, Nat.add_zero, skeleton]
      exact trace_leaf _ _ _ _ _ _ _ _ _ hc
    · have hln := wellFormed_ne_null l hwl
      rw [leaves_internal _ _ _ _ hln, List.map_append, List.mem_append, not_or] at hd
      rw [codes_internal _ _ _ _ hln] at hp
      subst hc
      rcases List.mem_append.mp hp with hm | hm
      · obtain ⟨q, hq, e⟩ := List.mem_map.mp hm
        injection e with e1 e2
        subst e1; subst e2
        have e3 : fuel + ('0' :: q.2).length + 1 = (fuel + q.2.length + 1) + 1 := by
          simp only [List.length_cons]; omega
        rw [e3, skeleton, List.cons_append, trace_descend]
        have e4 : pre ++ '0' :: (q.2 ++ rest) = (pre ++ ['0']) ++ (q.2 ++ rest) := by simp
        have e5 : pre.length + 1 = (pre ++ ['0']).length := by simp
        rw [if_pos rfl, e4, e5, ihl hwl hd.1 q.2 hq (pre ++ ['0'])]
        simp only [List.length_append, List.length_cons, List.length_nil]
        congr 1
        omega
      · obtain ⟨q, hq, e⟩ := List.mem_map.mp hm
        injection e with e1 e2
        subst e1; subst e2
        have e3 : fuel + ('1' :: q.2).length + 1 = (fuel + q.2.length + 1) + 1 := by
          simp only [List.length_cons]; omega
        rw [e3, skeleton, List.cons_append, trace_descend]
        have e4 : pre ++ '1' :: (q.2 ++ rest) = (pre ++ ['1']) ++ (q.2 ++ rest) := by simp
        have e5 : pre.length + 1 = (pre ++ ['1']).length := by simp
        rw [if_neg (by decide), e4, e5, ihr hwr hd.2 q.2 hq (pre ++ ['1'])]
        simp only [List.length_append, List.length_cons, List.length_nil]
        congr 1
        omega

theorem trace_flatMap (t : NodePtr) (hwf : WellFormed t)
    (hd : '$' ∉ (leaves t).map Prod.fst) (code : Char → List Char) (text : List Char)
    (hcode : ∀ c ∈ text, (c, code c) ∈ codes t) (fuel : Nat) (pre rest out : List Char) :
    trace (fuel + traceCost code text) pre.length (pre ++ (text.flatMap code ++ rest))
        (skeleton t) (skeleton t) out
      = trace fuel (pre.length + (text.flatMap code).length)
          (pre ++ (text.flatMap code ++ rest)) (skeleton t) (skeleton t) (out ++ text) := by
  induction text generalizing pre out with
  | nil => simp [traceCost]
  | cons c cs ih =>
    have hc := hcode c (List.mem_cons_self _ _)
    have e1 : fuel + traceCost code (c :: cs)
        = (fuel + traceCost code cs) + (code c).length + 1 := by
      simp only [traceCost, List.map_cons, List.sum_cons]; omega
    have e2 : pre ++ ((c :: cs).flatMap code ++ rest)
        = pre ++ (code c ++ (cs.flatMap code ++ rest)) := by
      simp
    rw [e1, e2, trace_code (skeleton t) t hwf hd c (code c) hc]
    have e3 : pre ++ (code c ++ (cs.flatMap code ++ rest))
        = (pre ++ code c) ++ (cs.flatMap code ++ rest) := by simp
    have e4 : pre.length + (code c).length = (pre ++ code c).length := by simp
    rw [e3, e4, ih (fun x hx => hcode x (List.mem_cons_of_mem _ hx))]
    simp only [List.length_append, List.flatMap_cons, List.append_assoc, List.singleton_append]
    congr 1
    omega

/-- On the rebuilt tree `trace` returns the text whose codes it is given, once the
recursion budget covers one call per bit and per symbol plus the final call. -/
theorem trace_roundtrip (t : NodePtr) (hwf : WellFormed t) (f : Int) (l r : NodePtr)
    (ht : t = NodePtr.node '$' f l r)
    (hd : '$' ∉ (leaves t).map Prod.fst) (code : Char → List Char) (text : List Char)
    (hcode : ∀ c ∈ text, (c, code c) ∈ codes t) (fuel : Nat)
    (hfuel : traceCost code text + 1 ≤ fuel) :
    trace fuel 0 (text.flatMap code) (skeleton t) (skeleton t) []
      = some (Outcome.returned text) := by
  obtain ⟨k, rfl⟩ : ∃ k, fuel = (k + 1) + traceCost code text := ⟨fuel - (traceCost code text + 1), by omega⟩
  have := trace_flatMap t hwf hd code text hcode (k + 1) [] [] []
  simp only [List.nil_append, List.append_nil, List.length_nil, Nat.zero_add] at this
  rw [this]
  subst ht
  exact trace_end _ _ _ _ _ _ _

/-! ## Round trip through the table file and `trace` -/

theorem roundtrip_trace (text : List Char) (a b : Char) (ha : a ∈ text) (hb : b ∈ text)
    (hab : a ≠ b) (hd : '$' ∉ text) (hcolon : ':' ∉ text) (hnl : '\n' ∉ text) :
    ∃ tree root, buildHuffmanTree (calculateFrequency text) = some tree
      ∧ loadTree (writeHuffmanTable (encodeTextState text (storeCodes tree [] [])).2) = some root
      ∧ root = skeleton tree
      ∧ ∀ fuel, traceCost (mapIndex (storeCodes tree [] [])) text + 1 ≤ fuel →
          trace fuel 0 (encodeText text (storeCodes tree [] [])) root root []
            = some (Outcome.returned text) := by
  obtain ⟨t, h1, _, hwf, hp, hnd⟩ := built_tree text (List.ne_nil_of_mem ha)
  obtain ⟨f, l, r, e, hl, _⟩ := built_root_internal text t hwf hp a b ha hb hab
  have hsorted := keysSorted_storeCodes t hwf
  have hdl : '$' ∉ (leaves t).map Prod.fst := fun h => hd ((mem_leaves_built text t hp _).mp h)
  have hentry : ∀ c ∈ text, ∃ v, mapFind c (storeCodes t [] []) = some v := by
    intro c hc
    obtain ⟨p, _, hp2⟩ := built_table_entry text t hwf hp hnd c hc (fun e => hd (e ▸ hc))
    exact ⟨p, hp2⟩
  have hkeys : ∀ p ∈ storeCodes t [] [], p.1 ∈ text := by
    intro p hpm
    have := table_entry_mem_codes t hwf hnd p.1 p.2
      (mapFind_eq_some_of_mem _ hsorted p.1 p.2 hpm)
    apply (mem_leaves_built text t hp p.1).mp
    rw [← codes_map_fst]
    exact List.mem_map.mpr ⟨(p.1, p.2), this, rfl⟩
  have hvals : ∀ p ∈ storeCodes t [] [], '\n' ∉ p.2 := by
    intro p hpm hmem
    have := table_entry_mem_codes t hwf hnd p.1 p.2
      (mapFind_eq_some_of_mem _ hsorted p.1 p.2 hpm)
    rcases codes_isBits t _ this '\n' hmem with e | e
    · exact absurd e (by decide)
    · exact absurd e (by decide)
  refine ⟨t, skeleton t, h1, ?_, rfl, ?_⟩
  · rw [encodeTextState_snd text _ hsorted hentry]
    unfold loadTree
    rw [parse_write _ hsorted (fun p hpm e => hcolon (e ▸ hkeys p hpm))
      (fun p hpm e => hnl (e ▸ hkeys p hpm)) hvals]
    simp only [Option.map_some']
    rw [rebuildTree_storeCodes t hwf hnd hdl]
  · intro fuel hfuel
    rw [encodeText_eq_flatMap _ _ hsorted]
    apply trace_roundtrip t hwf f l r e hdl _ text _ fuel hfuel
    intro c hc
    obtain ⟨p, hp1, hp2⟩ := built_table_entry text t hwf hp hnd c hc (fun e => hd (e ▸ hc))
    unfold mapIndex
    rw [hp2]
    exact hp1

/-! ## A bit-string cut short inside the last code -/

/-- Bits that stop strictly inside a code leave `decodeText` at an inner node: nothing is
emitted for them. -/
theorem decodeLoop_inside_code (root t : NodePtr) (hwf : WellFormed t) (c0 : Char) (f0 : Int)
    (l0 r0 : NodePtr) (ht : t = NodePtr.node c0 f0 l0 r0) (hl0 : l0 ≠ NodePtr.null)
    (out : List Char) (c : Char) (q s : List Char) (hs : s ≠ [])
    (hp : (c, q ++ s) ∈ codes t) :
    decodeLoop root t out q = Outcome.returned out := by
  induction t generalizing c0 f0 l0 r0 q with
  | null => cases ht
  | node c1 f1 l r ihl ihr =>
    injection ht with _ _ e3 e4
    subst e3; subst e4
    simp only [WellFormed] at hwf
    rcases hwf with ⟨h, _⟩ | ⟨_, _, hwl, hwr⟩
    · exact absurd h hl0
    cases q with
    | nil => simp [decodeLoop]
    | cons b q2 =>
      rw [codes_internal _ _ _ _ hl0] at hp
      rcases List.mem_append.mp hp with hm | hm
      · obtain ⟨⟨x1, x2⟩, hx, e⟩ := List.mem_map.mp hm
        injection e with e1 e2
        simp only at e1
        subst e1
        simp only [List.cons_append, List.cons.injEq] at e2
        obtain ⟨eb, e2⟩ := e2
        subst eb
        rcases wellFormed_cases l hwl with ⟨c2, f2, e⟩ | ⟨f2, l2, r2, e, _, hl2, _⟩
        · subst e
          rw [codes_leaf, List.mem_singleton] at hx
          injection hx with _ hx2
          rw [hx2] at e2
          exact absurd (List.append_eq_nil.mp e2.symm).2 hs
        · subst e
          rw [decodeLoop_step root c1 f1 _ r out '0' q2 '$' f2 l2 r2 (by simp)]
          have hl2n := wellFormed_ne_null l2 hl2
          simp only [hl2n, false_and, if_false]
          exact ihl hwl '$' f2 l2 r2 rfl hl2n q2 (by rw [← e2]; exact hx)
      · obtain ⟨⟨x1, x2⟩, hx, e⟩ := List.mem_map.mp hm
        injection e with e1 e2
        simp only at e1
        subst e1
        simp only [List.cons_append, List.cons.injEq] at e2
        obtain ⟨eb, e2⟩ := e2
        subst eb
        rcases wellFormed_cases r hwr with ⟨c2, f2, e⟩ | ⟨f2, l2, r2, e, _, hl2, _⟩
        · subst e
          rw [codes_leaf, List.mem_singleton] at hx
          injection hx with _ hx2
          rw [hx2] at e2
          exact absurd (List.append_eq_nil.mp e2.symm).2 hs
        · subst e
          rw [decodeLoop_step root c1 f1 l _ out '1' q2 '$' f2 l2 r2 (by simp)]
          have hl2n := wellFormed_ne_null l2 hl2
          simp only [hl2n, false_and, if_false]
          exact ihr hwr '$' f2 l2 r2 rfl hl2n q2 (by rw [← e2]; exact hx)

/-- The same for `trace` on the rebuilt tree: it reaches the end of the string at an inner
node and returns what it has. -/
theorem trace_inside_code (root t : NodePtr) (hwf : WellFormed t) (f0 : Int)
    (l0 r0 : NodePtr) (ht : t = NodePtr.node '$' f0 l0 r0) (hl0 : l0 ≠ NodePtr.null)
    (out : List Char) (c : Char) (q s : List Char) (hs : s ≠ [])
    (hp : (c, q ++ s) ∈ codes t) (fuel : Nat) (pre : List Char) :
    trace (fuel + q.length + 1) pre.length (pre ++ q) root (skeleton t) out
      = some (Outcome.returned out) := by
  induction t generalizing f0 l0 r0 q pre with
  | null => cases ht
  | node c1 f1 l r ihl ihr =>
    injection ht with e1 _ e3 e4
    subst e1; subst e3; subst e4
    simp only [WellFormed] at hwf
    rcases hwf with ⟨h, _⟩ | ⟨_, _, hwl, hwr⟩
    · exact absurd h hl0
    cases q with
    | nil =>
      simp only [List.append_nil, List.length_nil, Nat.add_zero, skeleton]
      exact trace_end _ _ _ _ _ _ _
    | cons b q2 =>
      have e3 : fuel + (b :: q2).length + 1 = (fuel + q2.length + 1) + 1 := by
        simp only [List.length_cons]; omega
      have e4 : pre ++ b :: q2 = (pre ++ [b]) ++ q2 := by simp
      have e5 : pre.length + 1 = (pre ++ [b]).length := by simp
      rw [e3, skeleton, trace_descend, e4, e5]
      rw [codes_internal _ _ _ _ hl0] at hp
      rcases List.mem_append.mp hp with hm | hm
      · obtain ⟨⟨x1, x2⟩, hx, e⟩ := List.mem_map.mp hm
        injection e with e1 e2
        simp only at e1
        subst e1
        simp only [List.cons_append, List.cons.injEq] at e2
        obtain ⟨eb, e2⟩ := e2
        subst eb
        rw [if_pos rfl]
        rcases wellFormed_cases l hwl with ⟨c2, f2, e⟩ | ⟨f2, l2, r2, e, _, hl2, _⟩
        · subst e
          rw [codes_leaf, List.mem_singleton] at hx
          injection hx with _ hx2
          rw [hx2] at e2
          exact absurd (List.append_eq_nil.mp e2.symm).2 hs
        · exact ihl hwl f2 l2 r2 e (wellFormed_ne_null l2 hl2) q2
            (by rw [← e2]; exact hx) (pre ++ ['0'])
      · obtain ⟨⟨x1, x2⟩, hx, e⟩ := List.mem_map.mp hm
        injection e with e1 e2
        simp only at e1
        subst e1
        simp only [List.cons_append, List.cons.injEq] at e2
        obtain ⟨eb, e2⟩ := e2
        subst eb
        rw [if_neg (by decide)]
        rcases wellFormed_cases r hwr with ⟨c2, f2, e⟩ | ⟨f2, l2, r2, e, _, hl2, _⟩
        · subst e
          rw [codes_leaf, List.mem_singleton] at hx
          injection hx with _ hx2
          rw [hx2] at e2
          exact absurd (List.append_eq_nil.mp e2.symm).2 hs
        · exact ihr hwr f2 l2 r2 e (wellFormed_ne_null l2 hl2) q2
            (by rw [← e2]; exact hx) (pre ++ ['1'])

theorem codes_internal_ne_nil (t : NodePtr) (c0 : Char) (f0 : Int) (l0 r0 : NodePtr)
    (ht : t = NodePtr.node c0 f0 l0 r0) (hl0 : l0 ≠ NodePtr.null) (c : Char) (p : List Char)
    (hp : (c, p) ∈ codes t) : p ≠ [] := by
  subst ht
  rw [codes_internal _ _ _ _ hl0] at hp
  rcases List.mem_append.mp hp with hm | hm <;>
  obtain ⟨x, _, e⟩ := List.mem_map.mp hm <;>
  injection e with _ e2 <;>
  rw [← e2] <;>
  simp

theorem dropLast_flatMap_concat (code : Char → List Char) (text : List Char) (c : Char)
    (hc : code c ≠ []) :
    ((text ++ [c]).flatMap code).dropLast = text.flatMap code ++ (code c).dropLast := by
  rw [List.flatMap_append]
  simp only [List.flatMap_cons, List.flatMap_nil, List.append_nil]
  rw [List.dropLast_append_of_ne_nil _ hc]

/-- Both decoders, given the encoded text without its last bit, return the text without
its last character. -/
theorem truncated_decode (text : List Char) (a b : Char) (ha : a ∈ text) (hb : b ∈ text)
    (hab : a ≠ b) (hd : '$' ∉ text) :
    ∃ tree, buildHuffmanTree (calculateFrequency text) = some tree
      ∧ decodeText tree (encodeText text (storeCodes tree [] [])).dropLast
          = Outcome.returned text.dropLast
      ∧ ∀ fuel, traceCost (mapIndex (storeCodes tree [] [])) text + 1 ≤ fuel →
          trace fuel 0 (encodeText text (storeCodes tree [] [])).dropLast
              (skeleton tree) (skeleton tree) []
            = some (Outcome.returned text.dropLast) := by
  obtain ⟨t, h1, _, hwf, hp, hnd⟩ := built_tree text (List.ne_nil_of_mem ha)
  obtain ⟨f, l, r, e, hl, _⟩ := built_root_internal text t hwf hp a b ha hb hab
  have hln := wellFormed_ne_null l hl
  have hsorted := keysSorted_storeCodes t hwf
  have hdl : '$' ∉ (leaves t).map Prod.fst := fun h => hd ((mem_leaves_built text t hp _).mp h)
  have hcode : ∀ c ∈ text, (c, mapIndex (storeCodes t [] []) c) ∈ codes t := by
    intro c hc
    obtain ⟨p, hp1, hp2⟩ := built_table_entry text t hwf hp hnd c hc (fun e => hd (e ▸ hc))
    unfold mapIndex
    rw [hp2]
    exact hp1
  obtain ⟨init, c, rfl⟩ : ∃ init c, text = init ++ [c] :=
    ⟨text.dropLast, text.getLast (List.ne_nil_of_mem ha),
      (List.dropLast_append_getLast _).symm⟩
  have hcm : c ∈ init ++ [c] := by simp
  have hcne := codes_internal_ne_nil t '$' f l r e hln c _ (hcode c hcm)
  have hsplit : mapIndex (storeCodes t [] []) c
      = (mapIndex (storeCodes t [] []) c).dropLast
        ++ [(mapIndex (storeCodes t [] []) c).getLast hcne] :=
    (List.dropLast_append_getLast hcne).symm
  have hmem : (c, (mapIndex (storeCodes t [] []) c).dropLast
      ++ [(mapIndex (storeCodes t [] []) c).getLast hcne]) ∈ codes t := by
    rw [← hsplit]; exact hcode c hcm
  have hinit : ∀ x ∈ init, (x, mapIndex (storeCodes t [] []) x) ∈ codes t :=
    fun x hx => hcode x (List.mem_append_left _ hx)
  refine ⟨t, h1, ?_, ?_⟩
  · rw [encodeText_eq_flatMap _ _ hsorted, dropLast_flatMap_concat _ _ _ hcne,
      List.dropLast_concat]
    unfold decodeText
    rw [decodeLoop_flatMap t hwf '$' f l r e hln _ init hinit]
    simp only [List.nil_append]
    exact decodeLoop_inside_code t t hwf '$' f l r e hln init c _ _ (by simp) hmem
  · intro fuel hfuel
    rw [encodeText_eq_flatMap _ _ hsorted, dropLast_flatMap_concat _ _ _ hcne,
      List.dropLast_concat]
    have hcost : traceCost (mapIndex (storeCodes t [] [])) (init ++ [c])
        = traceCost (mapIndex (storeCodes t [] [])) init
          + ((mapIndex (storeCodes t [] []) c).dropLast.length + 1) + 1 := by
      simp only [traceCost, List.map_append, List.sum_append, List.map_cons, List.map_nil,
        List.sum_cons, List.sum_nil, List.length_dropLast]
      have := List.length_pos.mpr hcne
      omega
    obtain ⟨k, rfl⟩ : ∃ k, fuel = (k + (mapIndex (storeCodes t [] []) c).dropLast.length + 1)
        + traceCost (mapIndex (storeCodes t [] [])) init := ⟨fuel
          - (traceCost (mapIndex (storeCodes t [] [])) init
            + ((mapIndex (storeCodes t [] []) c).dropLast.length + 1)), by omega⟩
    have := trace_flatMap t hwf hdl _ init hinit
      (k + (mapIndex (storeCodes t [] []) c).dropLast.length + 1) []
      (mapIndex (storeCodes t [] []) c).dropLast []
    simp only [List.nil_append, List.length_nil, Nat.zero_add] at this
    rw [this]
    have e2 : (List.flatMap init (mapIndex (storeCodes t [] []))).length
        = (List.flatMap init (mapIndex (storeCodes t [] []))).length := rfl
    exact trace_inside_code (skeleton t) t hwf f l r e hln init c _ _ (by simp) hmem k
      (List.flatMap init (mapIndex (storeCodes t [] [])))

/-! ## Depth assignments under the Kraft inequality -/

theorem cost_cons (p : Nat × Nat) (A : List (Nat × Nat)) : cost (p :: A) = p.1 * p.2 + cost A := by
  simp [cost]

theorem cost_perm (A B : List (Nat × Nat)) (h : A.Perm B) : cost A = cost B := by
  unfold cost
  exact (h.map _).sum_eq

theorem kraftSum_cons (D d : Nat) (ds : List Nat) :
    kraftSum D (d :: ds) = 2 ^ (D - d) + kraftSum D ds := by
  simp [kraftSum]

theorem kraftSum_perm (D : Nat) (ds es : List Nat) (h : ds.Perm es) :
    kraftSum D ds = kraftSum D es := by
  unfold kraftSum
  exact (h.map _).sum_eq

theorem kraftOK_perm (ds es : List Nat) (h : ds.Perm es) (hk : KraftOK ds) : KraftOK es := by
  obtain ⟨D, h1, h2⟩ := hk
  exact ⟨D, fun d hd => h1 d (h.symm.subset hd), by rw [← kraftSum_perm D ds es h]; exact h2⟩

theorem exists_perm_cons_of_mem {α : Type} (A : List α) (p : α) (hm : p ∈ A) :
    ∃ A1, A.Perm (p :: A1) ∧ ∀ q ∈ A1, q ∈ A := by
  obtain ⟨s, t, rfl⟩ := List.append_of_mem hm
  refine ⟨s ++ t, List.perm_middle, ?_⟩
  intro q hq
  rcases List.mem_append.mp hq with h | h
  · exact List.mem_append_left _ h
  · exact List.mem_append_right _ (List.mem_cons_of_mem _ h)

/-- Pull the entry of a given weight out of an assignment. -/
theorem assignment_extract (A : List (Nat × Nat)) (a : Nat) (W : List Nat)
    (h : (A.map Prod.fst).Perm (a :: W)) :
    ∃ d A1, A.Perm ((a, d) :: A1) ∧ (A1.map Prod.fst).Perm W := by
  have ha : a ∈ A.map Prod.fst := h.symm.subset (List.mem_cons_self _ _)
  obtain ⟨⟨a2, d⟩, hm, e⟩ := List.mem_map.mp ha
  simp only at e
  subst e
  obtain ⟨A1, hA1, _⟩ := exists_perm_cons_of_mem A (a2, d) hm
  refine ⟨d, A1, hA1, ?_⟩
  have h2 := hA1.map Prod.fst
  simp only [List.map_cons] at h2
  exact (List.perm_cons a2).mp (h2.symm.trans h)

theorem exists_max_depth (B : List (Nat × Nat)) (hB : B ≠ []) :
    ∃ p ∈ B, ∀ q ∈ B, q.2 ≤ p.2 := by
  induction B with
  | nil => exact absurd rfl hB
  | cons x xs ih =>
    by_cases hxs : xs = []
    · subst hxs
      exact ⟨x, List.mem_cons_self _ _, fun q hq => by
        rw [List.mem_singleton] at hq; rw [hq]⟩
    · obtain ⟨p, hp, hmax⟩ := ih hxs
      by_cases hc : p.2 ≤ x.2
      · refine ⟨x, List.mem_cons_self _ _, ?_⟩
        intro q hq
        rcases List.mem_cons.mp hq with e | e
        · rw [e]
        · exact le_trans (hmax q e) hc
      · refine ⟨p, List.mem_cons_of_mem _ hp, ?_⟩
        intro q hq
        rcases List.mem_cons.mp hq with e | e
        · rw [e]; omega
        · exact hmax q e

theorem swap_cost_le (a x da dx : Nat) (h1 : a ≤ x) (h2 : da ≤ dx) :
    a * dx + x * da ≤ a * da + x * dx := by
  obtain ⟨u, rfl⟩ := Nat.exists_eq_add_of_le h1
  obtain ⟨v, rfl⟩ := Nat.exists_eq_add_of_le h2
  nlinarith [Nat.zero_le (u * v)]

/-- A lightest weight can be given the largest depth without raising the cost. -/
theorem assignment_deepest (A : List (Nat × Nat)) (a : Nat) (W : List Nat)
    (h : (A.map Prod.fst).Perm (a :: W)) (hmin : ∀ w ∈ W, a ≤ w) :
    ∃ m B, (B.map Prod.fst).Perm W ∧ (∀ p ∈ B, p.2 ≤ m)
      ∧ (m :: B.map Prod.snd).Perm (A.map Prod.snd) ∧ a * m + cost B ≤ cost A := by
  obtain ⟨da, A1, hA, hW⟩ := assignment_extract A a W h
  by_cases hall : ∀ p ∈ A1, p.2 ≤ da
  · refine ⟨da, A1, hW, hall, ?_, ?_⟩
    · have := (hA.map Prod.snd).symm
      simpa using this
    · rw [cost_perm A _ hA, cost_cons]
  · simp only [not_forall, not_le] at hall
    obtain ⟨p0, hp0, hlt⟩ := hall
    obtain ⟨⟨x, dx⟩, hxm, hmax⟩ := exists_max_depth A1 (List.ne_nil_of_mem hp0)
    have hdx : da < dx := lt_of_lt_of_le hlt (hmax p0 hp0)
    obtain ⟨A2, hA1, hsub⟩ := exists_perm_cons_of_mem A1 (x, dx) hxm
    have hax : a ≤ x := by
      apply hmin
      apply hW.subset
      exact List.mem_map.mpr ⟨(x, dx), hxm, rfl⟩
    refine ⟨dx, (x, da) :: A2, ?_, ?_, ?_, ?_⟩
    · have := (hA1.map Prod.fst).symm.trans hW
      simpa using this
    · intro p hp
      rcases List.mem_cons.mp hp with e | e
      · rw [e]; exact le_of_lt hdx
      · exact hmax p (hsub p e)
    · have h1 := (hA.map Prod.snd).symm
      have h2 := (hA1.map Prod.snd).symm
      simp only [List.map_cons] at h1 h2 ⊢
      exact (List.Perm.swap da dx _).trans (((List.perm_cons da).mpr h2).trans h1)
    · rw [cost_perm A _ hA, cost_cons, cost_cons, cost_perm A1 _ hA1, cost_cons]
      have := swap_cost_le a x da dx hax (le_of_lt hdx)
      simp only
      omega

theorem kraftSum_dvd (D m : Nat) (C : List Nat) (hC : ∀ d ∈ C, d ≤ m) :
    2 ^ (D - m) ∣ kraftSum D C := by
  unfold kraftSum
  apply List.dvd_sum
  intro x hx
  obtain ⟨d, hd, e⟩ := List.mem_map.mp hx
  rw [← e]
  exact pow_dvd_pow 2 (by have := hC d hd; omega)

/-- The two deepest entries of a Kraft assignment can be fused one level up. -/
theorem kraft_fuse (D m m2 : Nat) (C : List Nat) (hC : ∀ d ∈ C, d ≤ m2) (hm : m2 ≤ m)
    (hD : m ≤ D) (hk : kraftSum D (m :: m2 :: C) ≤ 2 ^ D) :
    1 ≤ m2 ∧ kraftSum D ((m2 - 1) :: C) ≤ 2 ^ D := by
  rw [kraftSum_cons, kraftSum_cons] at hk
  rw [kraftSum_cons]
  obtain ⟨k, hk1⟩ := kraftSum_dvd D m2 C hC
  have hpos : 0 < 2 ^ (D - m) := Nat.pow_pos (by norm_num)
  have hu : 0 < 2 ^ (D - m2) := Nat.pow_pos (by norm_num)
  have hsplit : 2 ^ D = 2 ^ (D - m2) * 2 ^ m2 := by
    rw [← pow_add]
    congr 1
    omega
  have hm2 : 1 ≤ m2 := by
    by_contra hcon
    have : m2 = 0 := by omega
    subst this
    simp only [Nat.sub_zero] at hk
    omega
  refine ⟨hm2, ?_⟩
  have hstep : 2 ^ (D - (m2 - 1)) = 2 ^ (D - m2) * 2 := by
    rw [← pow_succ]
    congr 1
    omega
  rw [hstep, hk1, hsplit]
  rw [hk1, hsplit] at hk
  have hlt : 2 ^ (D - m2) * (k + 1) < 2 ^ (D - m2) * 2 ^ m2 := by
    rw [Nat.mul_add, Nat.mul_one]
    omega
  have hk2 : k + 1 < 2 ^ m2 := lt_of_mul_lt_mul_left hlt (Nat.zero_le _)
  have : 2 ^ (D - m2) * (k + 2) ≤ 2 ^ (D - m2) * 2 ^ m2 := Nat.mul_le_mul_left _ hk2
  rw [Nat.mul_add] at this
  omega

/-- The exchange step of the optimality argument: an assignment of depths to the weights
`a :: b :: ws`, with `a` and `b` the two lightest, yields an assignment to
`(a + b) :: ws` that is cheaper by at least `a + b`. -/
theorem assignment_merge (A : List (Nat × Nat)) (a b : Nat) (ws : List Nat)
    (h : (A.map Prod.fst).Perm (a :: b :: ws)) (ha : ∀ w ∈ b :: ws, a ≤ w)
    (hb : ∀ w ∈ ws, b ≤ w) (hk : KraftOK (A.map Prod.snd)) :
    ∃ A2 : List (Nat × Nat), (A2.map Prod.fst).Perm ((a + b) :: ws)
      ∧ KraftOK (A2.map Prod.snd) ∧ cost A2 + a + b ≤ cost A := by
  obtain ⟨m, B, hB, hBm, hBd, hBc⟩ := assignment_deepest A a (b :: ws) h ha
  obtain ⟨m2, C, hC, hCm, hCd, hCc⟩ := assignment_deepest B b ws hB hb
  have hm2 : m2 ≤ m := by
    have : m2 ∈ B.map Prod.snd := hCd.subset (List.mem_cons_self _ _)
    obtain ⟨p, hp, e⟩ := List.mem_map.mp this
    rw [← e]; exact hBm p hp
  obtain ⟨D, hD1, hD2⟩ := hk
  have hperm : (m :: m2 :: C.map Prod.snd).Perm (A.map Prod.snd) :=
    ((List.perm_cons m).mpr hCd).trans hBd
  have hmD : m ≤ D := hD1 m (hperm.subset (List.mem_cons_self _ _))
  have hCs : ∀ d ∈ C.map Prod.snd, d ≤ m2 := by
    intro d hd
    obtain ⟨p, hp, e⟩ := List.mem_map.mp hd
    rw [← e]; exact hCm p hp
  rw [← kraftSum_perm D _ _ hperm] at hD2
  obtain ⟨hpos, hfuse⟩ := kraft_fuse D m m2 (C.map Prod.snd) hCs hm2 hmD hD2
  refine ⟨(a + b, m2 - 1) :: C, ?_, ⟨D, ?_, ?_⟩, ?_⟩
  · simpa using hC
  · intro d hd
    simp only [List.map_cons, List.mem_cons] at hd
    rcases hd with e | e
    · rw [e]; omega
    · exact le_trans (hCs d e) (le_trans hm2 hmD)
  · simpa using hfuse
  · rw [cost_cons]
    simp only
    have e1 : (a + b) * (m2 - 1) + a + b = (a + b) * m2 := by
      obtain ⟨j, rfl⟩ : ∃ j, m2 = j + 1 := ⟨m2 - 1, by omega⟩
      simp only [Nat.add_sub_cancel]
      ring
    have e2 : a * m2 ≤ a * m := Nat.mul_le_mul_left _ hm2
    have e3 : (a + b) * m2 = a * m2 + b * m2 := by ring
    omega

/-! ## Weighted path length of the built tree -/

theorem cost_append (A B : List (Nat × Nat)) : cost (A ++ B) = cost A + cost B := by
  simp [cost]

theorem kraftSum_append (D : Nat) (xs ys : List Nat) :
    kraftSum D (xs ++ ys) = kraftSum D xs + kraftSum D ys := by
  simp [kraftSum]

theorem leafDepths_map_fst (t : NodePtr) (d : Nat) :
    (leafDepths t d).map Prod.fst = (leaves t).map Prod.snd := by
  induction t generalizing d with
  | null => rfl
  | node c f l r ihl ihr =>
    simp only [leafDepths, leaves]
    split_ifs
    · rfl
    · rw [List.map_append, List.map_append, ihl, ihr]

theorem leafDepths_ge (t : NodePtr) (d : Nat) (p : Int × Nat) (hp : p ∈ leafDepths t d) :
    d ≤ p.2 := by
  induction t generalizing d with
  | null => simp [leafDepths] at hp
  | node c f l r ihl ihr =>
    simp only [leafDepths] at hp
    split_ifs at hp
    · rw [List.mem_singleton] at hp
      rw [hp]
    · rcases List.mem_append.mp hp with h | h
      · have := ihl (d + 1) h; omega
      · have := ihr (d + 1) h; omega

theorem natDepths_map_snd (t : NodePtr) (d : Nat) :
    (natDepths t d).map Prod.snd = (leafDepths t d).map Prod.snd := by
  simp [natDepths, List.map_map, Function.comp_def]

theorem natDepths_map_fst (t : NodePtr) (d : Nat) :
    (natDepths t d).map Prod.fst = (leaves t).map (fun p => p.2.toNat) := by
  have h := congrArg (List.map Int.toNat) (leafDepths_map_fst t d)
  simpa [natDepths, List.map_map, Function.comp_def] using h

theorem natDepths_leaf (c : Char) (f : Int) (d : Nat) :
    natDepths (NodePtr.node c f NodePtr.null NodePtr.null) d = [(f.toNat, d)] := by
  simp [natDepths, leafDepths]

theorem natDepths_internal (c : Char) (f : Int) (l r : NodePtr) (d : Nat)
    (hl : l ≠ NodePtr.null) :
    natDepths (NodePtr.node c f l r) d = natDepths l (d + 1) ++ natDepths r (d + 1) := by
  simp [natDepths, leafDepths, hl]

theorem cost_natDepths_succ (t : NodePtr) (d : Nat) :
    cost (natDepths t (d + 1))
      = cost (natDepths t d) + ((leaves t).map (fun p => p.2.toNat)).sum := by
  induction t generalizing d with
  | null => rfl
  | node c f l r ihl ihr =>
    by_cases h : l = NodePtr.null ∧ r = NodePtr.null
    · obtain ⟨hl, hr⟩ := h
      subst hl; subst hr
      rw [natDepths_leaf, natDepths_leaf]
      simp [cost, leaves]
      ring
    · have e1 : natDepths (NodePtr.node c f l r) (d + 1)
          = natDepths l (d + 1 + 1) ++ natDepths r (d + 1 + 1) := by
        simp [natDepths, leafDepths, h]
      have e2 : natDepths (NodePtr.node c f l r) d
          = natDepths l (d + 1) ++ natDepths r (d + 1) := by
        simp [natDepths, leafDepths, h]
      rw [e1, e2, cost_append, cost_append, ihl, ihr]
      simp only [leaves, h, if_false, List.map_append, List.sum_append]
      omega

/-! ## Trees whose sums have not left the range of `int` -/

theorem wrapInt_of_range (z : Int) (h1 : -2147483648 ≤ z) (h2 : z < 2147483648) :
    wrapInt z = z := by
  unfold wrapInt
  omega

theorem wrapInt_range (z : Int) : -2147483648 ≤ wrapInt z ∧ wrapInt z < 2147483648 := by
  unfold wrapInt
  omega

theorem exactSums_ne_null (t : NodePtr) (h : ExactSums t) : t ≠ NodePtr.null := by
  intro e
  rw [e] at h
  exact h

theorem exactSums_newNode (c : Char) (f : Int) (hf : 0 ≤ f) : ExactSums (newNode c f) := by
  simp [newNode, ExactSums, hf]

theorem exactSums_freqOf_nonneg (t : NodePtr) (h : ExactSums t) : 0 ≤ t.freqOf := by
  induction t with
  | null => exact absurd h (by simp [ExactSums])
  | node c f l r ihl ihr =>
    simp only [ExactSums] at h
    rcases h with ⟨_, _, hf⟩ | ⟨hf, hl, hr⟩
    · exact hf
    · have := ihl hl
      have := ihr hr
      simp only [NodePtr.freqOf]
      omega

/-- In a tree without overflow the `freq` of a node is the sum of the `freq` of the leaves
below it. -/
theorem exactSums_freqOf_eq_sum (t : NodePtr) (h : ExactSums t) :
    t.freqOf = ((leaves t).map Prod.snd).sum := by
  induction t with
  | null => exact absurd h (by simp [ExactSums])
  | node c f l r ihl ihr =>
    simp only [ExactSums] at h
    rcases h with ⟨hl, hr, _⟩ | ⟨hf, hl, hr⟩
    · simp [leaves, hl, hr, NodePtr.freqOf]
    · rw [leaves_internal _ _ _ _ (exactSums_ne_null l hl), List.map_append, List.sum_append,
        ← ihl hl, ← ihr hr]
      exact hf

theorem exactSums_toNat_eq_sum (t : NodePtr) (h : ExactSums t) :
    t.freqOf.toNat = ((leaves t).map (fun p => p.2.toNat)).sum := by
  induction t with
  | null => exact absurd h (by simp [ExactSums])
  | node c f l r ihl ihr =>
    simp only [ExactSums] at h
    rcases h with ⟨hl, hr, _⟩ | ⟨hf, hl, hr⟩
    · simp [leaves, hl, hr, NodePtr.freqOf]
    · rw [leaves_internal _ _ _ _ (exactSums_ne_null l hl), List.map_append, List.sum_append,
        ← ihl hl, ← ihr hr]
      simp only [NodePtr.freqOf]
      rw [hf]
      exact Int.toNat_add (exactSums_freqOf_nonneg l hl) (exactSums_freqOf_nonneg r hr)

theorem exactSums_leaves_nonneg (t : NodePtr) (h : ExactSums t) :
    ∀ p ∈ leaves t, 0 ≤ p.2 := by
  induction t with
  | null => exact absurd h (by simp [ExactSums])
  | node c f l r ihl ihr =>
    simp only [ExactSums] at h
    rcases h with ⟨hl, hr, hf⟩ | ⟨_, hl, hr⟩
    · intro p hp
      simp [leaves, hl, hr] at hp
      rw [hp]
      exact hf
    · intro p hp
      rw [leaves_internal _ _ _ _ (exactSums_ne_null l hl)] at hp
      rcases List.mem_append.mp hp with e | e
      · exact ihl hl p e
      · exact ihr hr p e

theorem sum_freqOf_nonneg (H : List NodePtr) (hH : ∀ z ∈ H, ExactSums z) :
    0 ≤ (H.map NodePtr.freqOf).sum := by
  apply List.sum_nonneg
  intro w hw
  obtain ⟨z, hz, e⟩ := List.mem_map.mp hw
  rw [← e]
  exact exactSums_freqOf_nonneg z (hH z hz)

/-- While the `freq` of a forest add up to less than `2^31`, the addition in a merge of
two of its trees does not overflow. -/
theorem merge_exact (x y : NodePtr) (rest : List NodePtr) (hx : ExactSums x)
    (hy : ExactSums y) (hrest : ∀ z ∈ rest, ExactSums z)
    (hsum : ((x :: y :: rest).map NodePtr.freqOf).sum < 2147483648) :
    merge x y = NodePtr.node '$' (x.freqOf + y.freqOf) x y := by
  have h1 := exactSums_freqOf_nonneg x hx
  have h2 := exactSums_freqOf_nonneg y hy
  have h3 := sum_freqOf_nonneg rest hrest
  simp only [List.map_cons, List.sum_cons] at hsum
  unfold merge
  rw [wrapInt_of_range _ (by omega) (by omega)]

theorem exactSums_merge (x y : NodePtr) (rest : List NodePtr) (hx : ExactSums x)
    (hy : ExactSums y) (hrest : ∀ z ∈ rest, ExactSums z)
    (hsum : ((x :: y :: rest).map NodePtr.freqOf).sum < 2147483648) :
    ExactSums (merge x y) := by
  rw [merge_exact x y rest hx hy hrest hsum]
  show (x = NodePtr.null ∧ y = NodePtr.null ∧ 0 ≤ x.freqOf + y.freqOf)
    ∨ (x.freqOf + y.freqOf = x.freqOf + y.freqOf ∧ ExactSums x ∧ ExactSums y)
  exact Or.inr ⟨rfl, hx, hy⟩

theorem cost_natDepths_merge (x y : NodePtr) (hx : ExactSums x) (hy : ExactSums y) :
    cost (natDepths (merge x y) 0)
      = cost (natDepths x 0) + cost (natDepths y 0) + x.freqOf.toNat + y.freqOf.toNat := by
  unfold merge
  rw [natDepths_internal _ _ _ _ _ (exactSums_ne_null x hx), cost_append,
    cost_natDepths_succ, cost_natDepths_succ, ← exactSums_toNat_eq_sum x hx,
    ← exactSums_toNat_eq_sum y hy]
  omega

theorem cost_natDepths_newNode (c : Char) (f : Int) : cost (natDepths (newNode c f) 0) = 0 := by
  simp [newNode, natDepths_leaf, cost]

/-- For non-negative `freq` the weighted path length is the cost of the leaf depths read
as natural numbers. -/
theorem sum_mul_eq_cost (L : List (Int × Nat)) (h : ∀ p ∈ L, 0 ≤ p.1) :
    (L.map (fun p => p.1 * (p.2 : Int))).sum
      = ((cost (L.map (fun p => (p.1.toNat, p.2))) : Nat) : Int) := by
  induction L with
  | nil => simp [cost]
  | cons p rest ih =>
    have hp := h p (List.mem_cons_self _ _)
    have ih2 := ih (fun q hq => h q (List.mem_cons_of_mem _ hq))
    simp only [List.map_cons, List.sum_cons, cost] at ih2 ⊢
    rw [ih2]
    push_cast
    rw [Int.toNat_of_nonneg hp]

theorem weightedPathLength_eq_cost (t : NodePtr) (h : ∀ p ∈ leaves t, 0 ≤ p.2) :
    weightedPathLength t = ((cost (natDepths t 0) : Nat) : Int) := by
  unfold weightedPathLength natDepths
  apply sum_mul_eq_cost
  intro p hp
  have : p.1 ∈ (leafDepths t 0).map Prod.fst := List.mem_map.mpr ⟨p, hp, rfl⟩
  rw [leafDepths_map_fst] at this
  obtain ⟨q, hq, e⟩ := List.mem_map.mp this
  rw [← e]
  exact h q hq

/-! ## The leaf depths of every binary tree satisfy the Kraft inequality -/

theorem kraftSum_tree (t : NodePtr) (d D : Nat) (hD : ∀ p ∈ leafDepths t d, p.2 ≤ D) :
    kraftSum D ((leafDepths t d).map Prod.snd) ≤ 2 ^ (D - d) := by
  induction t generalizing d with
  | null => simp [leafDepths, kraftSum]
  | node c f l r ihl ihr =>
    simp only [leafDepths] at hD ⊢
    split_ifs at hD ⊢ with h
    · simp [kraftSum]
    · rw [List.map_append, kraftSum_append]
      have h1 := ihl (d + 1) (fun p hp => hD p (List.mem_append_left _ hp))
      have h2 := ihr (d + 1) (fun p hp => hD p (List.mem_append_right _ hp))
      by_cases hempty : leafDepths l (d + 1) ++ leafDepths r (d + 1) = []
      · rw [List.append_eq_nil] at hempty
        rw [hempty.1, hempty.2]
        simp [kraftSum]
      · obtain ⟨p, hp⟩ := List.exists_mem_of_ne_nil _ hempty
        have hle := hD p hp
        have hge : d + 1 ≤ p.2 := by
          rcases List.mem_append.mp hp with e | e
          · exact leafDepths_ge l _ p e
          · exact leafDepths_ge r _ p e
        have hpow : 2 ^ (D - d) = 2 ^ (D - (d + 1)) * 2 := by
          rw [← pow_succ]
          congr 1
          omega
        omega

theorem mem_le_sum (l : List Nat) (x : Nat) (h : x ∈ l) : x ≤ l.sum := by
  induction l with
  | nil => cases h
  | cons y ys ih =>
    rw [List.sum_cons]
    rcases List.mem_cons.mp h with e | e
    · rw [e]; omega
    · have := ih e; omega

theorem kraftOK_tree (t : NodePtr) : KraftOK ((leafDepths t 0).map Prod.snd) := by
  refine ⟨((leafDepths t 0).map Prod.snd).sum, fun d hd => mem_le_sum _ d hd, ?_⟩
  have := kraftSum_tree t 0 ((leafDepths t 0).map Prod.snd).sum
    (fun p hp => mem_le_sum _ p.2 (List.mem_map.mpr ⟨p, hp, rfl⟩))
  simpa using this

/-! ## Optimality of the greedy reduction -/

/-- A greedy reduction of a forest without overflow yields a tree without overflow. -/
theorem greedy_exactSums (H : List NodePtr) (t : NodePtr) (hg : Greedy H t)
    (hH : ∀ z ∈ H, ExactSums z) (hsum : (H.map NodePtr.freqOf).sum < 2147483648) :
    ExactSums t := by
  induction hg with
  | single t => exact hH t (List.mem_singleton_self t)
  | step H H2 x y rest t hp hx hy hp2 _ ih =>
    have hwx : ExactSums x := hH x (hp.symm.subset (List.mem_cons_self _ _))
    have hwy : ExactSums y :=
      hH y (hp.symm.subset (List.mem_cons_of_mem _ (List.mem_cons_self _ _)))
    have hrest : ∀ z ∈ rest, ExactSums z := fun z hz =>
      hH z (hp.symm.subset (List.mem_cons_of_mem _ (List.mem_cons_of_mem _ hz)))
    have hs : ((x :: y :: rest).map NodePtr.freqOf).sum < 2147483648 := by
      rw [← (hp.map NodePtr.freqOf).sum_eq]
      exact hsum
    have hH2 : ∀ z ∈ H2, ExactSums z := by
      intro z hz
      rcases List.mem_cons.mp (hp2.subset hz) with e | e
      · rw [e]; exact exactSums_merge x y rest hwx hwy hrest hs
      · exact hrest z e
    have hs2 : (H2.map NodePtr.freqOf).sum < 2147483648 := by
      rw [(hp2.map NodePtr.freqOf).sum_eq, merge_exact x y rest hwx hwy hrest hs]
      simp only [List.map_cons, List.sum_cons, NodePtr.freqOf] at hs ⊢
      omega
    exact ih hH2 hs2

/-- A greedy reduction of a forest without overflow costs no more than the forest's own
path lengths plus the cost of any Kraft assignment of depths to the root weights of the
forest. -/
theorem greedy_cost (H : List NodePtr) (t : NodePtr) (hg : Greedy H t)
    (hH : ∀ z ∈ H, ExactSums z) (hsum : (H.map NodePtr.freqOf).sum < 2147483648)
    (A : List (Nat × Nat))
    (hA : (A.map Prod.fst).Perm (H.map (fun z => z.freqOf.toNat)))
    (hk : KraftOK (A.map Prod.snd)) :
    cost (natDepths t 0) ≤ (H.map (fun z => cost (natDepths z 0))).sum + cost A := by
  induction hg generalizing A with
  | single t => simp
  | step H H2 x y rest t hp hx hy hp2 _ ih =>
    have hwx : ExactSums x := hH x (hp.symm.subset (List.mem_cons_self _ _))
    have hwy : ExactSums y :=
      hH y (hp.symm.subset (List.mem_cons_of_mem _ (List.mem_cons_self _ _)))
    have hrest : ∀ z ∈ rest, ExactSums z := fun z hz =>
      hH z (hp.symm.subset (List.mem_cons_of_mem _ (List.mem_cons_of_mem _ hz)))
    have hs : ((x :: y :: rest).map NodePtr.freqOf).sum < 2147483648 := by
      rw [← (hp.map NodePtr.freqOf).sum_eq]
      exact hsum
    have hmerge := merge_exact x y rest hwx hwy hrest hs
    have hH2 : ∀ z ∈ H2, ExactSums z := by
      intro z hz
      rcases List.mem_cons.mp (hp2.subset hz) with e | e
      · rw [e]; exact exactSums_merge x y rest hwx hwy hrest hs
      · exact hrest z e
    have hs2 : (H2.map NodePtr.freqOf).sum < 2147483648 := by
      rw [(hp2.map NodePtr.freqOf).sum_eq, hmerge]
      simp only [List.map_cons, List.sum_cons, NodePtr.freqOf] at hs ⊢
      omega
    have hA2 : (A.map Prod.fst).Perm
        (x.freqOf.toNat :: y.freqOf.toNat :: rest.map (fun z => z.freqOf.toNat)) := by
      have := hp.map (fun z => z.freqOf.toNat)
      simp only [List.map_cons] at this
      exact hA.trans this
    have hxmin : ∀ w ∈ y.freqOf.toNat :: rest.map (fun z => z.freqOf.toNat),
        x.freqOf.toNat ≤ w := by
      intro w hw
      have : w ∈ (y :: rest).map (fun z => z.freqOf.toNat) := by simpa using hw
      obtain ⟨z, hz, e⟩ := List.mem_map.mp this
      rw [← e]; exact Int.toNat_le_toNat (hx z hz)
    have hymin : ∀ w ∈ rest.map (fun z => z.freqOf.toNat), y.freqOf.toNat ≤ w := by
      intro w hw
      obtain ⟨z, hz, e⟩ := List.mem_map.mp hw
      rw [← e]; exact Int.toNat_le_toNat (hy z hz)
    obtain ⟨A2, hA2w, hA2k, hA2c⟩ := assignment_merge A x.freqOf.toNat y.freqOf.toNat
      (rest.map (fun z => z.freqOf.toNat)) hA2 hxmin hymin hk
    have hmw : (merge x y).freqOf.toNat = x.freqOf.toNat + y.freqOf.toNat := by
      rw [hmerge]
      exact Int.toNat_add (exactSums_freqOf_nonneg x hwx) (exactSums_freqOf_nonneg y hwy)
    have hw2 : (A2.map Prod.fst).Perm (H2.map (fun z => z.freqOf.toNat)) := by
      have := (hp2.map (fun z => z.freqOf.toNat)).symm
      simp only [List.map_cons] at this
      rw [hmw] at this
      exact hA2w.trans this
    have h1 := ih hH2 hs2 A2 hw2 hA2k
    have e1 : (H2.map (fun z => cost (natDepths z 0))).sum
        = cost (natDepths (merge x y) 0) + (rest.map (fun z => cost (natDepths z 0))).sum := by
      rw [(hp2.map (fun z => cost (natDepths z 0))).sum_eq]
      simp
    have e2 : (H.map (fun z => cost (natDepths z 0))).sum
        = cost (natDepths x 0)
          + (cost (natDepths y 0) + (rest.map (fun z => cost (natDepths z 0))).sum) := by
      rw [(hp.map (fun z => cost (natDepths z 0))).sum_eq]
      simp
    rw [e1, cost_natDepths_merge x y hwx hwy] at h1
    rw [e2]
    omega

/-- When the counts are non-negative and add up to less than `2^31`, no sum in
`buildHuffmanTree` overflows, and the returned tree costs no more than any Kraft
assignment of depths to the frequencies. -/
theorem buildHuffmanTree_le_assignment (frequency : List (Char × Int)) (hne : frequency ≠ [])
    (hpos : ∀ p ∈ frequency, 0 ≤ p.2)
    (hsum : (frequency.map Prod.snd).sum < 2147483648) :
    ∃ t, buildHuffmanTree frequency = some t ∧ WellFormed t ∧ (leaves t).Perm frequency
      ∧ ExactSums t
      ∧ ∀ A : List (Nat × Nat),
          (A.map Prod.fst).Perm (frequency.map (fun p => p.2.toNat)) →
          KraftOK (A.map Prod.snd) → cost (natDepths t 0) ≤ cost A := by
  obtain ⟨t, h1, h2, h3, h4⟩ := buildHuffmanTree_spec frequency hne
  have hperm := perm_initHeap frequency
  have hex : ∀ z ∈ initHeap frequency, ExactSums z := by
    intro z hz
    obtain ⟨p, hp, e⟩ := List.mem_map.mp (hperm.subset hz)
    rw [← e]; exact exactSums_newNode _ _ (hpos p hp)
  have hs : ((initHeap frequency).map NodePtr.freqOf).sum < 2147483648 := by
    rw [(hperm.map NodePtr.freqOf).sum_eq, List.map_map]
    exact hsum
  refine ⟨t, h1, h3, h4, greedy_exactSums _ t h2 hex hs, ?_⟩
  intro A hA hk
  have hzero : ((initHeap frequency).map (fun z => cost (natDepths z 0))).sum = 0 := by
    rw [(hperm.map (fun z => cost (natDepths z 0))).sum_eq, List.map_map]
    apply List.sum_eq_zero
    intro x hx
    obtain ⟨p, _, e⟩ := List.mem_map.mp hx
    rw [← e]
    exact cost_natDepths_newNode _ _
  have hweights : (A.map Prod.fst).Perm
      ((initHeap frequency).map (fun z => z.freqOf.toNat)) := by
    refine hA.trans ?_
    have := (hperm.map (fun z => z.freqOf.toNat)).symm
    rw [List.map_map] at this
    exact this
  have := greedy_cost _ t h2 hex hs A hweights hk
  omega

/-- When the counts are non-negative and add up to less than `2^31`, the tree returned by
`buildHuffmanTree` has the least weighted path length among all binary trees with the
same leaves. -/
theorem buildHuffmanTree_optimal (frequency : List (Char × Int)) (hne : frequency ≠ [])
    (hpos : ∀ p ∈ frequency, 0 ≤ p.2)
    (hsum : (frequency.map Prod.snd).sum < 2147483648) :
    ∃ t, buildHuffmanTree frequency = some t ∧ (leaves t).Perm frequency
      ∧ ∀ t2 : NodePtr, (leaves t2).Perm frequency →
          weightedPathLength t ≤ weightedPathLength t2 := by
  obtain ⟨t, h1, _, h3, _, h5⟩ := buildHuffmanTree_le_assignment frequency hne hpos hsum
  refine ⟨t, h1, h3, ?_⟩
  intro t2 h2
  have hpos1 : ∀ p ∈ leaves t, 0 ≤ p.2 := fun p hp => hpos p (h3.subset hp)
  have hpos2 : ∀ p ∈ leaves t2, 0 ≤ p.2 := fun p hp => hpos p (h2.subset hp)
  rw [weightedPathLength_eq_cost t hpos1, weightedPathLength_eq_cost t2 hpos2]
  have := h5 (natDepths t2 0) (by
    rw [natDepths_map_fst]
    exact h2.map (fun p => p.2.toNat)) (by
    rw [natDepths_map_snd]
    exact kraftOK_tree t2)
  exact_mod_cast this

/-! ## More frequent symbols get codes that are no longer -/

theorem codes_eq_leafInfo (t : NodePtr) :
    codes t = (leafInfo t).map (fun p => (p.1, p.2.2)) := by
  induction t with
  | null => rfl
  | node c f l r ihl ihr =>
    simp only [codes, leafInfo]
    split_ifs
    · rfl
    · rw [ihl, ihr]
      simp [List.map_map, Function.comp_def]

theorem leaves_eq_leafInfo (t : NodePtr) :
    leaves t = (leafInfo t).map (fun p => (p.1, p.2.1)) := by
  induction t with
  | null => rfl
  | node c f l r ihl ihr =>
    simp only [leaves, leafInfo]
    split_ifs
    · rfl
    · rw [ihl, ihr]
      simp [List.map_map, Function.comp_def]

theorem leafDepths_eq_leafInfo (t : NodePtr) (d : Nat) :
    leafDepths t d = (leafInfo t).map (fun p => (p.2.1, d + p.2.2.length)) := by
  induction t generalizing d with
  | null => rfl
  | node c f l r ihl ihr =>
    simp only [leafDepths, leafInfo]
    split_ifs
    · rfl
    · rw [ihl, ihr]
      simp only [List.map_append, List.map_map, Function.comp_def, List.length_cons]
      congr 1 <;>
      · apply List.map_congr_left
        intro p _
        congr 1
        omega

theorem swap_cost_lt (fa fb da db : Nat) (h1 : fb < fa) (h2 : db < da) :
    fa * db + fb * da < fa * da + fb * db := by
  obtain ⟨u, rfl⟩ := Nat.exists_eq_add_of_lt h1
  obtain ⟨v, rfl⟩ := Nat.exists_eq_add_of_lt h2
  nlinarith [Nat.zero_le (u * v), Nat.zero_le u, Nat.zero_le v]

theorem natDepths_eq_leafInfo (t : NodePtr) (d : Nat) :
    natDepths t d = (leafInfo t).map (fun p => (p.2.1.toNat, d + p.2.2.length)) := by
  unfold natDepths
  rw [leafDepths_eq_leafInfo, List.map_map]
  rfl

/-- When the counts are non-negative and add up to less than `2^31`, a leaf of the built
tree with a larger `freq` is no deeper than a leaf with a smaller `freq`. -/
theorem built_depth_monotone (frequency : List (Char × Int)) (hne : frequency ≠ [])
    (hpos : ∀ p ∈ frequency, 0 ≤ p.2)
    (hsum : (frequency.map Prod.snd).sum < 2147483648) :
    ∃ t, buildHuffmanTree frequency = some t
      ∧ ∀ ia ib, ia ∈ leafInfo t → ib ∈ leafInfo t → ib.2.1 < ia.2.1 →
          ia.2.2.length ≤ ib.2.2.length := by
  obtain ⟨t, h1, _, hperm, _, hopt⟩ := buildHuffmanTree_le_assignment frequency hne hpos hsum
  refine ⟨t, h1, ?_⟩
  intro ia ib ha hb hlt
  by_contra hcon
  rw [not_le] at hcon
  have hnonneg : ∀ i ∈ leafInfo t, 0 ≤ i.2.1 := by
    intro i hi
    have : (i.1, i.2.1) ∈ leaves t := by
      rw [leaves_eq_leafInfo]
      exact List.mem_map.mpr ⟨i, hi, rfl⟩
    exact hpos _ (hperm.subset this)
  have hlt2 : ib.2.1.toNat < ia.2.1.toNat := by
    have h3 := hnonneg ia ha
    have h4 := hnonneg ib hb
    omega
  obtain ⟨L1, hL1, _⟩ := exists_perm_cons_of_mem (leafInfo t) ia ha
  have hb1 : ib ∈ L1 := by
    rcases List.mem_cons.mp (hL1.subset hb) with e | e
    · rw [e] at hlt; exact absurd hlt (lt_irrefl _)
    · exact e
  obtain ⟨L2, hL2, _⟩ := exists_perm_cons_of_mem L1 ib hb1
  have hL : (leafInfo t).Perm (ia :: ib :: L2) := hL1.trans ((List.perm_cons ia).mpr hL2)
  have hA := hL.map (fun p : Char × Int × List Char => (p.2.1.toNat, 0 + p.2.2.length))
  rw [← natDepths_eq_leafInfo] at hA
  simp only [List.map_cons, Nat.zero_add] at hA
  have hswap := hopt ((ia.2.1.toNat, ib.2.2.length) :: (ib.2.1.toNat, ia.2.2.length)
      :: L2.map (fun p : Char × Int × List Char => (p.2.1.toNat, p.2.2.length))) ?_ ?_
  · have hc := cost_perm _ _ hA
    rw [cost_cons, cost_cons] at hc hswap
    simp only at hc hswap
    have := swap_cost_lt ia.2.1.toNat ib.2.1.toNat ia.2.2.length ib.2.2.length hlt2 hcon
    omega
  · have h2 := (hA.map Prod.fst).symm
    simp only [List.map_cons] at h2 ⊢
    refine h2.trans ?_
    rw [natDepths_map_fst]
    exact hperm.map (fun p => p.2.toNat)
  · have hk : KraftOK ((natDepths t 0).map Prod.snd) := by
      rw [natDepths_map_snd]
      exact kraftOK_tree t
    apply kraftOK_perm _ _ _ hk
    have h2 := hA.map Prod.snd
    simp only [List.map_cons] at h2 ⊢
    exact h2.trans (List.Perm.swap _ _ _)

theorem sum_mapModify_succ (c : Char) (m : List (Char × Int)) :
    ((mapModify c (fun n => n + 1) 0 m).map Prod.snd).sum = (m.map Prod.snd).sum + 1 := by
  induction m with
  | nil => simp [mapModify]
  | cons p rest ih =>
    obtain ⟨k, v⟩ := p
    simp only [mapModify]
    split_ifs
    · simp only [List.map_cons, List.sum_cons]
      omega
    · simp only [List.map_cons, List.sum_cons]
      omega
    · simp only [List.map_cons, List.sum_cons, ih]
      omega

theorem sum_calculateFrequency_aux (text : List Char) (m : List (Char × Int)) :
    ((text.foldl (fun frequency ch => mapModify ch (fun n => n + 1) 0 frequency) m).map
      Prod.snd).sum = (m.map Prod.snd).sum + text.length := by
  induction text generalizing m with
  | nil => simp
  | cons c rest ih =>
    simp only [List.foldl_cons, List.length_cons]
    rw [ih, sum_mapModify_succ]
    push_cast
    omega

/-- The counters of `calculateFrequency` add up to the length of the text. -/
theorem sum_calculateFrequency (text : List Char) :
    ((calculateFrequency text).map Prod.snd).sum = text.length := by
  unfold calculateFrequency
  rw [sum_calculateFrequency_aux]
  simp

theorem calculateFrequency_nonneg (text : List Char) :
    ∀ p ∈ calculateFrequency text, 0 ≤ p.2 := by
  intro p hp
  have := ((mem_calculateFrequency_iff text p.1 p.2).mp hp).2
  rw [this]
  exact Int.natCast_nonneg _

/-- In the table built from a text shorter than `2^31` characters, among symbols other
than `'$'` a symbol that occurs more often has a code that is no longer. -/
theorem code_length_monotone (text : List Char) (hlen : text.length < 2147483648)
    (a b : Char) (ha : a ∈ text) (hb : b ∈ text)
    (had : a ≠ '$') (hbd : b ≠ '$') (hcount : text.count b < text.count a) :
    ∃ tree, buildHuffmanTree (calculateFrequency text) = some tree
      ∧ ∃ ca cb, mapFind a (storeCodes tree [] []) = some ca
        ∧ mapFind b (storeCodes tree [] []) = some cb ∧ ca.length ≤ cb.length := by
  obtain ⟨t, h1, _, hwf, hp, hnd⟩ := built_tree text (List.ne_nil_of_mem ha)
  obtain ⟨t2, h2, hmono⟩ := built_depth_monotone (calculateFrequency text)
    (calculateFrequency_ne_nil text (List.ne_nil_of_mem ha))
    (calculateFrequency_nonneg text)
    (by rw [sum_calculateFrequency]; exact_mod_cast hlen)
  rw [h1] at h2
  injection h2 with h2
  subst h2
  refine ⟨t, h1, ?_⟩
  obtain ⟨pa, hpa1, hpa2⟩ := built_table_entry text t hwf hp hnd a ha had
  obtain ⟨pb, hpb1, hpb2⟩ := built_table_entry text t hwf hp hnd b hb hbd
  refine ⟨pa, pb, hpa2, hpb2, ?_⟩
  rw [codes_eq_leafInfo] at hpa1 hpb1
  obtain ⟨ia, hia, ea⟩ := List.mem_map.mp hpa1
  obtain ⟨ib, hib, eb⟩ := List.mem_map.mp hpb1
  have hfa : ia.2.1 = text.count a := by
    have : (ia.1, ia.2.1) ∈ leaves t := by
      rw [leaves_eq_leafInfo]
      exact List.mem_map.mpr ⟨ia, hia, rfl⟩
    have := ((mem_calculateFrequency_iff text _ _).mp (hp.subset this)).2
    rw [this]
    injection ea with e1 _
    rw [e1]
  have hfb : ib.2.1 = text.count b := by
    have : (ib.1, ib.2.1) ∈ leaves t := by
      rw [leaves_eq_leafInfo]
      exact List.mem_map.mpr ⟨ib, hib, rfl⟩
    have := ((mem_calculateFrequency_iff text _ _).mp (hp.subset this)).2
    rw [this]
    injection eb with e1 _
    rw [e1]
  have := hmono ia ib hia hib (by rw [hfa, hfb]; exact_mod_cast hcount)
  injection ea with _ e2
  injection eb with _ e3
  rw [← e2, ← e3]
  exact this

/-! ## Texts made of one symbol -/

theorem calculateFrequency_replicate_aux (c : Char) (n : Nat) (k : Int) :
    (List.replicate n c).foldl (fun frequency ch => mapModify ch (fun n => n + 1) 0 frequency)
      [(c, k)] = [(c, k + n)] := by
  induction n generalizing k with
  | zero => simp
  | succ m ih =>
    simp only [List.replicate_succ, List.foldl_cons, mapModify, lt_irrefl, if_false, if_true]
    rw [ih]
    congr 2
    push_cast
    omega

theorem calculateFrequency_replicate (c : Char) (n : Nat) :
    calculateFrequency (List.replicate (n + 1) c) = [(c, (n : Int) + 1)] := by
  unfold calculateFrequency
  simp only [List.replicate_succ, List.foldl_cons, mapModify]
  rw [calculateFrequency_replicate_aux]
  congr 2
  omega

theorem buildHuffmanTree_single (c : Char) (k : Int) :
    buildHuffmanTree [(c, k)] = some (newNode c k) := by
  rfl

/-- For a text that repeats one symbol the tree is a single leaf, every read of the table
gives the empty string, nothing is encoded and nothing is decoded. -/
theorem single_symbol (c : Char) (n : Nat) :
    buildHuffmanTree (calculateFrequency (List.replicate (n + 1) c)) = some (newNode c (n + 1))
    ∧ (c ≠ '$' → storeCodes (newNode c (n + 1)) [] [] = [(c, [])])
    ∧ (c = '$' → storeCodes (newNode c (n + 1)) [] [] = [])
    ∧ encodeText (List.replicate (n + 1) c) (storeCodes (newNode c (n + 1)) [] []) = []
    ∧ decodeText (newNode c (n + 1)) [] = Outcome.returned [] := by
  have hs1 : c ≠ '$' → storeCodes (newNode c (n + 1)) [] [] = [(c, [])] := by
    intro h
    simp [newNode, storeCodes, h, mapModify]
  have hs2 : c = '$' → storeCodes (newNode c (n + 1)) [] [] = [] := by
    intro h
    simp [newNode, storeCodes, h]
  refine ⟨by rw [calculateFrequency_replicate, buildHuffmanTree_single], hs1, hs2, ?_, rfl⟩
  have hsorted : KeysSorted (storeCodes (newNode c (n + 1)) [] []) :=
    keysSorted_storeCodes _ (wellFormed_newNode _ _)
  rw [encodeText_eq_flatMap _ _ hsorted]
  have hidx : mapIndex (storeCodes (newNode c (n + 1)) [] []) c = [] := by
    by_cases h : c = '$'
    · rw [hs2 h]; rfl
    · rw [hs1 h]; simp [mapIndex, mapFind]
  generalize storeCodes (newNode c (n + 1)) [] [] = m at hidx
  generalize n + 1 = k
  induction k with
  | zero => rfl
  | succ j ih => rw [List.replicate_succ, List.flatMap_cons, hidx, ih]; rfl

/-! ## `trace` and its recursion budget -/

/-- A larger budget does not change a result `trace` has already produced. -/
theorem trace_succ (fuel i : Nat) (txt : List Char) (root current : NodePtr) (out : List Char)
    (r : Outcome) (h : trace fuel i txt root current out = some r) :
    trace (fuel + 1) i txt root current out = some r := by
  induction fuel generalizing i current out with
  | zero => simp [trace] at h
  | succ n ih =>
    cases current with
    | null =>
      simp only [trace] at h ⊢
      exact h
    | node ch f l r2 =>
      rw [trace] at h
      rw [trace]
      split_ifs at h ⊢ with h1 h2 h3 h4
      · exact ih _ _ _ h
      · exact h
      · exact h
      · exact ih _ _ _ h
      · exact ih _ _ _ h

theorem trace_mono (fuel k i : Nat) (txt : List Char) (root current : NodePtr)
    (out : List Char) (r : Outcome) (h : trace fuel i txt root current out = some r) :
    trace (fuel + k) i txt root current out = some r := by
  induction k with
  | zero => exact h
  | succ j ih => exact trace_succ _ _ _ _ _ _ _ ih

/-- Two budgets that both suffice give the same result. -/
theorem trace_det (n m i : Nat) (txt : List Char) (root current : NodePtr) (out : List Char)
    (r1 r2 : Outcome) (h1 : trace n i txt root current out = some r1)
    (h2 : trace m i txt root current out = some r2) : r1 = r2 := by
  have a1 := trace_mono n m i txt root current out r1 h1
  have a2 := trace_mono m n i txt root current out r2 h2
  rw [Nat.add_comm] at a2
  rw [a1] at a2
  injection a2

/-- At a root that carries a symbol `trace` calls itself at the same position until the
budget is used up. -/
theorem trace_symbol_root (fuel i : Nat) (txt : List Char) (c : Char) (f : Int)
    (l r : NodePtr) (hc : c ≠ '$') (out : List Char) :
    trace fuel i txt (NodePtr.node c f l r) (NodePtr.node c f l r) out = none := by
  induction fuel generalizing out with
  | zero => rfl
  | succ n ih =>
    rw [trace_leaf _ _ _ _ _ _ _ _ _ hc]
    exact ih _

/-! ## The claims -/

/-- C1, as amended: for every text with at least two distinct symbols and without the
character `'$'`, `buildHuffmanTree` returns a tree and `decodeText` applied to that tree
and to `encodeText` of the text (with the table filled by `storeCodes`) returns the text. -/
theorem roundtrip_tree_walk (text : List Char) (a b : Char) (ha : a ∈ text) (hb : b ∈ text)
    (hab : a ≠ b) (hd : '$' ∉ text) :
    ∃ tree, buildHuffmanTree (calculateFrequency text) = some tree
      ∧ decodeText tree (encodeText text (storeCodes tree [] [])) = Outcome.returned text :=
  roundtrip_decodeText text a b ha hb hab hd

/-- C1, witness: the amended round trip at the text `abb`. -/
theorem roundtrip_tree_walk_witness :
    'a' ∈ ['a', 'b', 'b'] ∧ 'b' ∈ ['a', 'b', 'b'] ∧ 'a' ≠ 'b' ∧ '$' ∉ ['a', 'b', 'b']
    ∧ ∃ tree, buildHuffmanTree (calculateFrequency ['a', 'b', 'b']) = some tree
      ∧ decodeText tree (encodeText ['a', 'b', 'b'] (storeCodes tree [] []))
          = Outcome.returned ['a', 'b', 'b'] :=
  ⟨by decide, by decide, by decide, by decide,
    roundtrip_tree_walk ['a', 'b', 'b'] 'a' 'b' (by decide) (by decide) (by decide) (by decide)⟩

/-- C1, counterexample: for the text `aaaa` the tree is a single leaf, the encoding is
empty and `decodeText` returns the empty text, so the round trip does not give back the
text; for the text `a$` the character `'$'` is lost. -/
theorem roundtrip_tree_walk_fails :
    (buildHuffmanTree (calculateFrequency ['a', 'a', 'a', 'a']) = some (newNode 'a' 4)
      ∧ decodeText (newNode 'a' 4)
          (encodeText ['a', 'a', 'a', 'a'] (storeCodes (newNode 'a' 4) [] []))
        = Outcome.returned [])
    ∧ (¬ ∃ tree, buildHuffmanTree (calculateFrequency ['a', 'a', 'a', 'a']) = some tree
        ∧ decodeText tree (encodeText ['a', 'a', 'a', 'a'] (storeCodes tree [] []))
          = Outcome.returned ['a', 'a', 'a', 'a'])
    ∧ (¬ ∃ tree, buildHuffmanTree (calculateFrequency ['a', '$']) = some tree
        ∧ decodeText tree (encodeText ['a', '$'] (storeCodes tree [] []))
          = Outcome.returned ['a', '$']) := by
  have h1 : buildHuffmanTree (calculateFrequency ['a', 'a', 'a', 'a']) = some (newNode 'a' 4)
      ∧ decodeText (newNode 'a' 4)
          (encodeText ['a', 'a', 'a', 'a'] (storeCodes (newNode 'a' 4) [] []))
        = Outcome.returned [] := by decide
  have h2 : buildHuffmanTree (calculateFrequency ['a', '$'])
        = some (NodePtr.node '$' 2 (newNode '$' 1) (newNode 'a' 1))
      ∧ decodeText (NodePtr.node '$' 2 (newNode '$' 1) (newNode 'a' 1))
          (encodeText ['a', '$'] (storeCodes (NodePtr.node '$' 2 (newNode '$' 1) (newNode 'a' 1)) [] []))
        = Outcome.returned ['a'] := by decide
  refine ⟨h1, ?_, ?_⟩
  · rintro ⟨tree, e1, e2⟩
    rw [h1.1] at e1
    injection e1 with e1
    subst e1
    rw [h1.2] at e2
    exact absurd e2 (by decide)
  · rintro ⟨tree, e1, e2⟩
    rw [h2.1] at e1
    injection e1 with e1
    subst e1
    rw [h2.2] at e2
    exact absurd e2 (by decide)

/-- C2, as amended: for every text with at least two distinct symbols and without the
characters `'$'`, `':'` and newline, the table written by `writeHuffmanTable` is parsed
and rebuilt by `decodeFromFile` into a tree on which `trace(0, bits, root, root, "")`,
with `bits` the encoded text, returns the text as soon as the recursion budget covers one
call per bit and per symbol plus the final call. -/
theorem roundtrip_table_file (text : List Char) (a b : Char) (ha : a ∈ text) (hb : b ∈ text)
    (hab : a ≠ b) (hd : '$' ∉ text) (hcolon : ':' ∉ text) (hnl : '\n' ∉ text) :
    ∃ tree root, buildHuffmanTree (calculateFrequency text) = some tree
      ∧ loadTree (writeHuffmanTable (encodeTextState text (storeCodes tree [] [])).2) = some root
      ∧ ∀ fuel, traceCost (mapIndex (storeCodes tree [] [])) text + 1 ≤ fuel →
          trace fuel 0 (encodeText text (storeCodes tree [] [])) root root []
            = some (Outcome.returned text) := by
  obtain ⟨tree, root, h1, h2, _, h3⟩ := roundtrip_trace text a b ha hb hab hd hcolon hnl
  exact ⟨tree, root, h1, h2, h3⟩

/-- C2, witness: the amended round trip through the table file at the text `abb`. -/
theorem roundtrip_table_file_witness :
    'a' ∈ ['a', 'b', 'b'] ∧ 'b' ∈ ['a', 'b', 'b'] ∧ 'a' ≠ 'b' ∧ '$' ∉ ['a', 'b', 'b']
    ∧ ':' ∉ ['a', 'b', 'b'] ∧ '\n' ∉ ['a', 'b', 'b']
    ∧ ∃ tree root, buildHuffmanTree (calculateFrequency ['a', 'b', 'b']) = some tree
      ∧ loadTree (writeHuffmanTable
          (encodeTextState ['a', 'b', 'b'] (storeCodes tree [] [])).2) = some root
      ∧ ∀ fuel, traceCost (mapIndex (storeCodes tree [] [])) ['a', 'b', 'b'] + 1 ≤ fuel →
          trace fuel 0 (encodeText ['a', 'b', 'b'] (storeCodes tree [] [])) root root []
            = some (Outcome.returned ['a', 'b', 'b']) :=
  ⟨by decide, by decide, by decide, by decide, by decide, by decide,
    roundtrip_table_file ['a', 'b', 'b'] 'a' 'b' (by decide) (by decide) (by decide)
      (by decide) (by decide) (by decide)⟩

/-- C2, counterexample: the round trip through the table file fails for the text `aaaa`
(the rebuilt root carries `'a'` and `trace` never returns), for `aa:` (the line `:: 0` is
parsed as the code ` 0` and `trace` runs into a null child), for a newline followed by
`aa` (the newline is read back as the symbol `':'`) and for `aa$`. -/
theorem roundtrip_table_file_fails :
    (¬ ∃ tree root, buildHuffmanTree (calculateFrequency ['a', 'a', 'a', 'a']) = some tree
        ∧ loadTree (writeHuffmanTable
            (encodeTextState ['a', 'a', 'a', 'a'] (storeCodes tree [] [])).2) = some root
        ∧ ∃ fuel, trace fuel 0 (encodeText ['a', 'a', 'a', 'a'] (storeCodes tree [] []))
            root root [] = some (Outcome.returned ['a', 'a', 'a', 'a']))
    ∧ (¬ ∃ tree root, buildHuffmanTree (calculateFrequency ['a', 'a', ':']) = some tree
        ∧ loadTree (writeHuffmanTable
            (encodeTextState ['a', 'a', ':'] (storeCodes tree [] [])).2) = some root
        ∧ ∃ fuel, trace fuel 0 (encodeText ['a', 'a', ':'] (storeCodes tree [] []))
            root root [] = some (Outcome.returned ['a', 'a', ':']))
    ∧ (¬ ∃ tree root, buildHuffmanTree (calculateFrequency ['\n', 'a', 'a']) = some tree
        ∧ loadTree (writeHuffmanTable
            (encodeTextState ['\n', 'a', 'a'] (storeCodes tree [] [])).2) = some root
        ∧ ∃ fuel, trace fuel 0 (encodeText ['\n', 'a', 'a'] (storeCodes tree [] []))
            root root [] = some (Outcome.returned ['\n', 'a', 'a']))
    ∧ (¬ ∃ tree root, buildHuffmanTree (calculateFrequency ['a', 'a', '$']) = some tree
        ∧ loadTree (writeHuffmanTable
            (encodeTextState ['a', 'a', '$'] (storeCodes tree [] [])).2) = some root
        ∧ ∃ fuel, trace fuel 0 (encodeText ['a', 'a', '$'] (storeCodes tree [] []))
            root root [] = some (Outcome.returned ['a', 'a', '$'])) := by
  refine ⟨?_, ?_, ?_, ?_⟩
  · have h1 : buildHuffmanTree (calculateFrequency ['a', 'a', 'a', 'a'])
        = some (newNode 'a' 4) := by decide
    have h2 : loadTree (writeHuffmanTable
        (encodeTextState ['a', 'a', 'a', 'a'] (storeCodes (newNode 'a' 4) [] [])).2)
        = some (NodePtr.node 'a' 0 NodePtr.null NodePtr.null) := by decide
    rintro ⟨tree, root, e1, e2, fuel, e3⟩
    rw [h1] at e1
    injection e1 with e1
    subst e1
    rw [h2] at e2
    injection e2 with e2
    subst e2
    rw [trace_symbol_root _ _ _ _ _ _ _ (by decide)] at e3
    cases e3
  · have h1 : buildHuffmanTree (calculateFrequency ['a', 'a', ':'])
        = some (NodePtr.node '$' 3 (newNode ':' 1) (newNode 'a' 2)) := by decide
    have h2 : loadTree (writeHuffmanTable (encodeTextState ['a', 'a', ':']
          (storeCodes (NodePtr.node '$' 3 (newNode ':' 1) (newNode 'a' 2)) [] [])).2)
        = some (NodePtr.node '$' 0 NodePtr.null
            (NodePtr.node 'a' 0 (newNode ':' 0) NodePtr.null)) := by decide
    have h3 : trace 6 0 (encodeText ['a', 'a', ':']
          (storeCodes (NodePtr.node '$' 3 (newNode ':' 1) (newNode 'a' 2)) [] []))
        (NodePtr.node '$' 0 NodePtr.null (NodePtr.node 'a' 0 (newNode ':' 0) NodePtr.null))
        (NodePtr.node '$' 0 NodePtr.null (NodePtr.node 'a' 0 (newNode ':' 0) NodePtr.null)) []
        = some Outcome.undefined := by decide
    rintro ⟨tree, root, e1, e2, fuel, e3⟩
    rw [h1] at e1
    injection e1 with e1
    subst e1
    rw [h2] at e2
    injection e2 with e2
    subst e2
    exact absurd (trace_det _ _ _ _ _ _ _ _ _ e3 h3) (by decide)
  · have h1 : buildHuffmanTree (calculateFrequency ['\n', 'a', 'a'])
        = some (NodePtr.node '$' 3 (newNode '\n' 1) (newNode 'a' 2)) := by decide
    have h2 : loadTree (writeHuffmanTable (encodeTextState ['\n', 'a', 'a']
          (storeCodes (NodePtr.node '$' 3 (newNode '\n' 1) (newNode 'a' 2)) [] [])).2)
        = some (NodePtr.node '$' 0 (newNode ':' 0) (newNode 'a' 0)) := by decide
    have h3 : trace 7 0 (encodeText ['\n', 'a', 'a']
          (storeCodes (NodePtr.node '$' 3 (newNode '\n' 1) (newNode 'a' 2)) [] []))
        (NodePtr.node '$' 0 (newNode ':' 0) (newNode 'a' 0))
        (NodePtr.node '$' 0 (newNode ':' 0) (newNode 'a' 0)) []
        = some (Outcome.returned [':', 'a', 'a']) := by decide
    rintro ⟨tree, root, e1, e2, fuel, e3⟩
    rw [h1] at e1
    injection e1 with e1
    subst e1
    rw [h2] at e2
    injection e2 with e2
    subst e2
    exact absurd (trace_det _ _ _ _ _ _ _ _ _ e3 h3) (by decide)
  · have h1 : buildHuffmanTree (calculateFrequency ['a', 'a', '$'])
        = some (NodePtr.node '$' 3 (newNode '$' 1) (newNode 'a' 2)) := by decide
    have h2 : loadTree (writeHuffmanTable (encodeTextState ['a', 'a', '$']
          (storeCodes (NodePtr.node '$' 3 (newNode '$' 1) (newNode 'a' 2)) [] [])).2)
        = some (NodePtr.node '$' 0 NodePtr.null (newNode 'a' 0)) := by decide
    have h3 : trace 5 0 (encodeText ['a', 'a', '$']
          (storeCodes (NodePtr.node '$' 3 (newNode '$' 1) (newNode 'a' 2)) [] []))
        (NodePtr.node '$' 0 NodePtr.null (newNode 'a' 0))
        (NodePtr.node '$' 0 NodePtr.null (newNode 'a' 0)) []
        = some (Outcome.returned ['a', 'a']) := by decide
    rintro ⟨tree, root, e1, e2, fuel, e3⟩
    rw [h1] at e1
    injection e1 with e1
    subst e1
    rw [h2] at e2
    injection e2 with e2
    subst e2
    exact absurd (trace_det _ _ _ _ _ _ _ _ _ e3 h3) (by decide)

/-- C3: for every non-empty text and every two distinct symbols that have entries in the
table filled by `storeCodes` on the built tree, neither code is an initial segment of the
other. -/
theorem codes_are_prefix_free (text : List Char) (hne : text ≠ []) :
    ∃ tree, buildHuffmanTree (calculateFrequency text) = some tree
      ∧ ∀ a b ca cb, a ≠ b → mapFind a (storeCodes tree [] []) = some ca
          → mapFind b (storeCodes tree [] []) = some cb
          → (¬ ∃ s, ca ++ s = cb) ∧ (¬ ∃ s, cb ++ s = ca) :=
  table_prefix_free text hne

/-- C3, witness: the codes built from `aabbbcc` are pairwise free of initial segments. -/
theorem codes_are_prefix_free_witness :
    ['a', 'a', 'b', 'b', 'b', 'c', 'c'] ≠ []
    ∧ ∃ tree, buildHuffmanTree (calculateFrequency ['a', 'a', 'b', 'b', 'b', 'c', 'c'])
        = some tree
      ∧ ∀ a b ca cb, a ≠ b → mapFind a (storeCodes tree [] []) = some ca
          → mapFind b (storeCodes tree [] []) = some cb
          → (¬ ∃ s, ca ++ s = cb) ∧ (¬ ∃ s, cb ++ s = ca) :=
  ⟨by decide, codes_are_prefix_free ['a', 'a', 'b', 'b', 'b', 'c', 'c'] (by decide)⟩

/-- C4, amended: for every non-empty frequency table whose counts are non-negative and
add up to less than `2^31` (so that no `int` sum overflows), `buildHuffmanTree` returns a
tree whose leaves are the table entries and whose weighted path length (sum over leaves of
`freq` times depth) is at most that of every binary tree with the same leaves. -/
theorem huffman_tree_is_optimal_within_int (frequency : List (Char × Int))
    (hne : frequency ≠ []) (hpos : ∀ p ∈ frequency, 0 ≤ p.2)
    (hsum : (frequency.map Prod.snd).sum < 2147483648) :
    ∃ t, buildHuffmanTree frequency = some t ∧ (leaves t).Perm frequency
      ∧ ∀ t2 : NodePtr, (leaves t2).Perm frequency →
          weightedPathLength t ≤ weightedPathLength t2 :=
  buildHuffmanTree_optimal frequency hne hpos hsum

/-- C4, witness: optimality for the frequency table of `aabbbcc`. -/
theorem huffman_tree_is_optimal_within_int_witness :
    ([('a', 2), ('b', 3), ('c', 2)] : List (Char × Int)) ≠ []
    ∧ (∀ p ∈ ([('a', 2), ('b', 3), ('c', 2)] : List (Char × Int)), 0 ≤ p.2)
    ∧ (([('a', 2), ('b', 3), ('c', 2)] : List (Char × Int)).map Prod.snd).sum < 2147483648
    ∧ ∃ t, buildHuffmanTree [('a', 2), ('b', 3), ('c', 2)] = some t
      ∧ (leaves t).Perm [('a', 2), ('b', 3), ('c', 2)]
      ∧ ∀ t2 : NodePtr, (leaves t2).Perm [('a', 2), ('b', 3), ('c', 2)] →
          weightedPathLength t ≤ weightedPathLength t2 :=
  ⟨by decide, by decide, by decide,
    huffman_tree_is_optimal_within_int [('a', 2), ('b', 3), ('c', 2)] (by decide) (by decide)
      (by decide)⟩

/-- C4, at the failing input: for the table that gives each of `a`, `b`, `c`, `d` the count
`2^30`, the first merge stores `2^30 + 2^30` in an `int`, which leaves the node with
`freq` `-2^31`; that node is merged again at once, and the returned tree has `a` and `c`
at depth 3, `d` at depth 2 and `b` at depth 1, hence weighted path length `9 * 2^30`.  The
tree with all four leaves at depth 2 has the same leaves and weighted path length
`8 * 2^30`, which is smaller. -/
theorem huffman_tree_overflow_not_optimal :
    buildHuffmanTree
        [('a', 1073741824), ('b', 1073741824), ('c', 1073741824), ('d', 1073741824)]
      = some (NodePtr.node '$' 0
          (NodePtr.node '$' (-1073741824)
            (NodePtr.node '$' (-2147483648) (newNode 'a' 1073741824) (newNode 'c' 1073741824))
            (newNode 'd' 1073741824))
          (newNode 'b' 1073741824))
    ∧ weightedPathLength (NodePtr.node '$' 0
          (NodePtr.node '$' (-1073741824)
            (NodePtr.node '$' (-2147483648) (newNode 'a' 1073741824) (newNode 'c' 1073741824))
            (newNode 'd' 1073741824))
          (newNode 'b' 1073741824)) = 9663676416
    ∧ leaves (NodePtr.node '$' 0
          (NodePtr.node '$' (-2147483648) (newNode 'a' 1073741824) (newNode 'b' 1073741824))
          (NodePtr.node '$' (-2147483648) (newNode 'c' 1073741824) (newNode 'd' 1073741824)))
      = [('a', 1073741824), ('b', 1073741824), ('c', 1073741824), ('d', 1073741824)]
    ∧ weightedPathLength (NodePtr.node '$' 0
          (NodePtr.node '$' (-2147483648) (newNode 'a' 1073741824) (newNode 'b' 1073741824))
          (NodePtr.node '$' (-2147483648) (newNode 'c' 1073741824) (newNode 'd' 1073741824)))
      = 8589934592
    ∧ ¬ ∃ t, buildHuffmanTree
          [('a', 1073741824), ('b', 1073741824), ('c', 1073741824), ('d', 1073741824)] = some t
        ∧ (leaves t).Perm
          [('a', 1073741824), ('b', 1073741824), ('c', 1073741824), ('d', 1073741824)]
        ∧ ∀ t2 : NodePtr, (leaves t2).Perm
            [('a', 1073741824), ('b', 1073741824), ('c', 1073741824), ('d', 1073741824)] →
          weightedPathLength t ≤ weightedPathLength t2 := by
  have hbuild : buildHuffmanTree
        [('a', 1073741824), ('b', 1073741824), ('c', 1073741824), ('d', 1073741824)]
      = some (NodePtr.node '$' 0
          (NodePtr.node '$' (-1073741824)
            (NodePtr.node '$' (-2147483648) (newNode 'a' 1073741824) (newNode 'c' 1073741824))
            (newNode 'd' 1073741824))
          (newNode 'b' 1073741824)) := by decide
  have hleaves : leaves (NodePtr.node '$' 0
          (NodePtr.node '$' (-2147483648) (newNode 'a' 1073741824) (newNode 'b' 1073741824))
          (NodePtr.node '$' (-2147483648) (newNode 'c' 1073741824) (newNode 'd' 1073741824)))
      = [('a', 1073741824), ('b', 1073741824), ('c', 1073741824), ('d', 1073741824)] := by
    decide
  refine ⟨hbuild, by decide, hleaves, by decide, ?_⟩
  rintro ⟨t, ht, _, hmin⟩
  rw [hbuild] at ht
  injection ht with ht
  subst ht
  have h := hmin _ (List.Perm.of_eq hleaves)
  revert h
  decide

/-- C5, at the failing input: in the text `aa$` the symbol `'a'` occurs more often than
`'$'`, the table holds the one-bit code `1` for `'a'` and no entry for `'$'`, and the read
`huffmanCode['$']` performed by `encodeText` gives the empty string, which is shorter. -/
theorem code_length_order_broken_by_sentinel :
    buildHuffmanTree (calculateFrequency ['a', 'a', '$'])
      = some (NodePtr.node '$' 3 (newNode '$' 1) (newNode 'a' 2))
    ∧ storeCodes (NodePtr.node '$' 3 (newNode '$' 1) (newNode 'a' 2)) [] [] = [('a', ['1'])]
    ∧ List.count '$' ['a', 'a', '$'] < List.count 'a' ['a', 'a', '$']
    ∧ mapFind '$' [('a', ['1'])] = none
    ∧ (mapIndex [('a', ['1'])] '$').length < (mapIndex [('a', ['1'])] 'a').length := by
  decide

/-- C6, at the failing input: for the text `a$` the table filled by `storeCodes` has the
single key `'a'`, although `'$'` occurs in the text. -/
theorem table_keys_miss_sentinel :
    buildHuffmanTree (calculateFrequency ['a', '$'])
      = some (NodePtr.node '$' 2 (newNode '$' 1) (newNode 'a' 1))
    ∧ (storeCodes (NodePtr.node '$' 2 (newNode '$' 1) (newNode 'a' 1)) [] []).map Prod.fst
      = ['a']
    ∧ '$' ∈ ['a', '$'] := by
  decide

/-- C8: for every text and every code table (a key-sorted map) that has an entry `code c`
for each character `c` of the text, `encodeText` returns the concatenation of `code c`
in text order, and its length is the sum of the code lengths. -/
theorem encodeText_concatenates (text : List Char) (huffmanCode : List (Char × List Char))
    (code : Char → List Char) (hsorted : KeysSorted huffmanCode)
    (hentry : ∀ c ∈ text, mapFind c huffmanCode = some (code c)) :
    encodeText text huffmanCode = text.flatMap code
    ∧ (encodeText text huffmanCode).length = (text.map (fun c => (code c).length)).sum := by
  have h : encodeText text huffmanCode = text.flatMap code := by
    rw [encodeText_eq_flatMap text huffmanCode hsorted]
    apply List.flatMap_congr
    intro c hc
    unfold mapIndex
    rw [hentry c hc]
    rfl
  exact ⟨h, by rw [h, length_flatMap_eq_sum]⟩

/-- C8, witness: encoding `aba` with the table `a: 0`, `b: 10`. -/
theorem encodeText_concatenates_witness :
    KeysSorted [('a', ['0']), ('b', ['1', '0'])]
    ∧ (∀ c ∈ ['a', 'b', 'a'], mapFind c [('a', ['0']), ('b', ['1', '0'])]
        = some (if c = 'a' then ['0'] else ['1', '0']))
    ∧ encodeText ['a', 'b', 'a'] [('a', ['0']), ('b', ['1', '0'])]
        = ['a', 'b', 'a'].flatMap (fun c => if c = 'a' then ['0'] else ['1', '0'])
    ∧ (encodeText ['a', 'b', 'a'] [('a', ['0']), ('b', ['1', '0'])]).length
        = (['a', 'b', 'a'].map
            (fun c => (if c = 'a' then ['0'] else ['1', '0'] : List Char).length)).sum := by
  have h1 : KeysSorted [('a', ['0']), ('b', ['1', '0'])] := by
    unfold KeysSorted
    decide
  have h2 : ∀ c ∈ ['a', 'b', 'a'], mapFind c [('a', ['0']), ('b', ['1', '0'])]
      = some (if c = 'a' then ['0'] else ['1', '0']) := by
    decide
  exact ⟨h1, h2, encodeText_concatenates ['a', 'b', 'a'] [('a', ['0']), ('b', ['1', '0'])]
    (fun c => if c = 'a' then ['0'] else ['1', '0']) h1 h2⟩

/-- C9, as amended: for every text with at least two distinct symbols and without `'$'`,
both decoders, given the encoded text without its last bit, raise no error and return the
text without its last character: `decodeText` on the built tree, and `trace` on the tree
rebuilt from the code table once its recursion budget suffices. -/
theorem truncated_bits_drop_last_symbol (text : List Char) (a b : Char) (ha : a ∈ text)
    (hb : b ∈ text) (hab : a ≠ b) (hd : '$' ∉ text) :
    ∃ tree, buildHuffmanTree (calculateFrequency text) = some tree
      ∧ decodeText tree (encodeText text (storeCodes tree [] [])).dropLast
          = Outcome.returned text.dropLast
      ∧ ∀ fuel, traceCost (mapIndex (storeCodes tree [] [])) text + 1 ≤ fuel →
          trace fuel 0 (encodeText text (storeCodes tree [] [])).dropLast
              (rebuildTree (storeCodes tree [] [])) (rebuildTree (storeCodes tree [] [])) []
            = some (Outcome.returned text.dropLast) := by
  obtain ⟨t, h1, h2, h3⟩ := truncated_decode text a b ha hb hab hd
  obtain ⟨t2, e1, _, hwf, hp, hnd⟩ := built_tree text (List.ne_nil_of_mem ha)
  rw [h1] at e1
  injection e1 with e1
  subst e1
  have hdl : '$' ∉ (leaves t).map Prod.fst := fun h => hd ((mem_leaves_built text t hp _).mp h)
  refine ⟨t, h1, h2, ?_⟩
  rw [rebuildTree_storeCodes t hwf hnd hdl]
  exact h3

/-- C9, witness: the amended statement at the text `abb`. -/
theorem truncated_bits_drop_last_symbol_witness :
    'a' ∈ ['a', 'b', 'b'] ∧ 'b' ∈ ['a', 'b', 'b'] ∧ 'a' ≠ 'b' ∧ '$' ∉ ['a', 'b', 'b']
    ∧ ∃ tree, buildHuffmanTree (calculateFrequency ['a', 'b', 'b']) = some tree
      ∧ decodeText tree (encodeText ['a', 'b', 'b'] (storeCodes tree [] [])).dropLast
          = Outcome.returned ['a', 'b', 'b'].dropLast
      ∧ ∀ fuel, traceCost (mapIndex (storeCodes tree [] [])) ['a', 'b', 'b'] + 1 ≤ fuel →
          trace fuel 0 (encodeText ['a', 'b', 'b'] (storeCodes tree [] [])).dropLast
              (rebuildTree (storeCodes tree [] [])) (rebuildTree (storeCodes tree [] [])) []
            = some (Outcome.returned ['a', 'b', 'b'].dropLast) :=
  ⟨by decide, by decide, by decide, by decide,
    truncated_bits_drop_last_symbol ['a', 'b', 'b'] 'a' 'b' (by decide) (by decide)
      (by decide) (by decide)⟩

/-- C9, counterexample: for the text `abb` the encoding is `011`; given `01`, both
`decodeText` on the built tree and `trace` on the rebuilt tree return the text `ab`
instead of raising an error. -/
theorem truncated_bits_raise_no_error :
    buildHuffmanTree (calculateFrequency ['a', 'b', 'b'])
      = some (NodePtr.node '$' 3 (newNode 'a' 1) (newNode 'b' 2))
    ∧ encodeText ['a', 'b', 'b']
        (storeCodes (NodePtr.node '$' 3 (newNode 'a' 1) (newNode 'b' 2)) [] [])
      = ['0', '1', '1']
    ∧ decodeText (NodePtr.node '$' 3 (newNode 'a' 1) (newNode 'b' 2)) ['0', '1']
      = Outcome.returned ['a', 'b']
    ∧ rebuildTree (storeCodes (NodePtr.node '$' 3 (newNode 'a' 1) (newNode 'b' 2)) [] [])
      = NodePtr.node '$' 0 (newNode 'a' 0) (newNode 'b' 0)
    ∧ trace 5 0 ['0', '1'] (NodePtr.node '$' 0 (newNode 'a' 0) (newNode 'b' 0))
        (NodePtr.node '$' 0 (newNode 'a' 0) (newNode 'b' 0)) []
      = some (Outcome.returned ['a', 'b']) := by
  decide

/-- C10, at the failing input: for the text `$` the tree is a single leaf holding `'$'`
and `storeCodes` leaves the table empty, so the table does not map `'$'` to any string. -/
theorem single_sentinel_has_no_entry :
    buildHuffmanTree (calculateFrequency ['$']) = some (newNode '$' 1)
    ∧ storeCodes (newNode '$' 1) [] [] = []
    ∧ mapFind '$' (storeCodes (newNode '$' 1) [] []) = none := by
  decide

/-! ## Further properties -/

/-- Among the symbols other than `'$'` of a text shorter than `2^31` characters, a symbol
that occurs strictly more often has a table entry that is no longer. -/
theorem code_length_monotone_off_sentinel (text : List Char)
    (hlen : text.length < 2147483648) (a b : Char) (ha : a ∈ text)
    (hb : b ∈ text) (had : a ≠ '$') (hbd : b ≠ '$') (hcount : text.count b < text.count a) :
    ∃ tree, buildHuffmanTree (calculateFrequency text) = some tree
      ∧ ∃ ca cb, mapFind a (storeCodes tree [] []) = some ca
        ∧ mapFind b (storeCodes tree [] []) = some cb ∧ ca.length ≤ cb.length :=
  code_length_monotone text hlen a b ha hb had hbd hcount

/-- Instance of `code_length_monotone_off_sentinel` at the text `abb`. -/
theorem code_length_monotone_off_sentinel_witness :
    ['a', 'b', 'b'].length < 2147483648
    ∧ 'b' ∈ ['a', 'b', 'b'] ∧ 'a' ∈ ['a', 'b', 'b'] ∧ 'b' ≠ '$' ∧ 'a' ≠ '$'
    ∧ ['a', 'b', 'b'].count 'a' < ['a', 'b', 'b'].count 'b'
    ∧ ∃ tree, buildHuffmanTree (calculateFrequency ['a', 'b', 'b']) = some tree
      ∧ ∃ ca cb, mapFind 'b' (storeCodes tree [] []) = some ca
        ∧ mapFind 'a' (storeCodes tree [] []) = some cb ∧ ca.length ≤ cb.length :=
  ⟨by decide, by decide, by decide, by decide, by decide, by decide,
    code_length_monotone_off_sentinel ['a', 'b', 'b'] (by decide) 'b' 'a' (by decide)
      (by decide) (by decide) (by decide) (by decide)⟩

/-- The keys of the table filled by `storeCodes` on the tree built from a non-empty text
are the symbols of the text other than `'$'`, each once. -/
theorem table_keys_off_sentinel (text : List Char) (hne : text ≠ []) :
    ∃ tree, buildHuffmanTree (calculateFrequency text) = some tree
      ∧ (∀ c, c ∈ (storeCodes tree [] []).map Prod.fst ↔ (c ∈ text ∧ c ≠ '$'))
      ∧ ((storeCodes tree [] []).map Prod.fst).Nodup := by
  obtain ⟨t, h1, h2⟩ := built_table_keys text hne
  obtain ⟨t2, e1, _, hwf, _, _⟩ := built_tree text hne
  rw [h1] at e1
  injection e1 with e1
  subst e1
  exact ⟨t, h1, h2, keysSorted_nodup_keys _ (keysSorted_storeCodes t hwf)⟩

/-- Instance of `table_keys_off_sentinel` at the text `a$`. -/
theorem table_keys_off_sentinel_witness :
    ['a', '$'] ≠ []
    ∧ ∃ tree, buildHuffmanTree (calculateFrequency ['a', '$']) = some tree
      ∧ (∀ c, c ∈ (storeCodes tree [] []).map Prod.fst ↔ (c ∈ ['a', '$'] ∧ c ≠ '$'))
      ∧ ((storeCodes tree [] []).map Prod.fst).Nodup :=
  ⟨by decide, table_keys_off_sentinel ['a', '$'] (by decide)⟩

/-- For a text that repeats one symbol `c`, the tree is a single leaf holding `c`, the
table is `c: ""` when `c` is not `'$'` and empty when it is, `encodeText` returns the
empty string and `decodeText` on the empty string returns the empty text. -/
theorem single_symbol_text (c : Char) (n : Nat) :
    buildHuffmanTree (calculateFrequency (List.replicate (n + 1) c)) = some (newNode c (n + 1))
    ∧ (c ≠ '$' → storeCodes (newNode c (n + 1)) [] [] = [(c, [])])
    ∧ (c = '$' → storeCodes (newNode c (n + 1)) [] [] = [])
    ∧ encodeText (List.replicate (n + 1) c) (storeCodes (newNode c (n + 1)) [] []) = []
    ∧ decodeText (newNode c (n + 1)) [] = Outcome.returned [] :=
  single_symbol c n

/-! ## The worked example, and characters without a table entry -/

/-- C11: for the text `aabbbcc` the frequencies are a:2, b:3, c:2; the built table gives
`b` a one-bit code and `a` and `c` two-bit codes (`b: 0`, `a: 10`, `c: 11`); the encoded
text has 11 bits (`10100001111`); and `decodeText` on the same tree returns `aabbbcc`. -/
theorem worked_example_aabbbcc :
    calculateFrequency ['a', 'a', 'b', 'b', 'b', 'c', 'c'] = [('a', 2), ('b', 3), ('c', 2)]
    ∧ buildHuffmanTree [('a', 2), ('b', 3), ('c', 2)]
      = some (NodePtr.node '$' 7 (newNode 'b' 3)
          (NodePtr.node '$' 4 (newNode 'a' 2) (newNode 'c' 2)))
    ∧ storeCodes (NodePtr.node '$' 7 (newNode 'b' 3)
          (NodePtr.node '$' 4 (newNode 'a' 2) (newNode 'c' 2))) [] []
      = [('a', ['1', '0']), ('b', ['0']), ('c', ['1', '1'])]
    ∧ (mapIndex [('a', ['1', '0']), ('b', ['0']), ('c', ['1', '1'])] 'b').length = 1
    ∧ (mapIndex [('a', ['1', '0']), ('b', ['0']), ('c', ['1', '1'])] 'a').length = 2
    ∧ (mapIndex [('a', ['1', '0']), ('b', ['0']), ('c', ['1', '1'])] 'c').length = 2
    ∧ encodeText ['a', 'a', 'b', 'b', 'b', 'c', 'c']
        [('a', ['1', '0']), ('b', ['0']), ('c', ['1', '1'])]
      = ['1', '0', '1', '0', '0', '0', '0', '1', '1', '1', '1']
    ∧ (encodeText ['a', 'a', 'b', 'b', 'b', 'c', 'c']
        [('a', ['1', '0']), ('b', ['0']), ('c', ['1', '1'])]).length = 11
    ∧ decodeText (NodePtr.node '$' 7 (newNode 'b' 3)
          (NodePtr.node '$' 4 (newNode 'a' 2) (newNode 'c' 2)))
        ['1', '0', '1', '0', '0', '0', '0', '1', '1', '1', '1']
      = Outcome.returned ['a', 'a', 'b', 'b', 'b', 'c', 'c'] := by
  decide

theorem mapFind_encodeStep_other (st : List Char × List (Char × List Char)) (ch c : Char)
    (h : c ≠ ch) : mapFind c (encodeStep st ch).2 = mapFind c st.2 := by
  unfold encodeStep
  exact mapFind_mapModify_ne ch c _ _ _ h

theorem mapFind_encodeStep_self (st : List Char × List (Char × List Char)) (ch : Char)
    (hs : KeysSorted st.2) :
    mapFind ch (encodeStep st ch).2 = some ((mapFind ch st.2).getD []) := by
  unfold encodeStep
  exact mapFind_mapModify_self ch _ _ _ hs

theorem keysSorted_encodeStep (st : List Char × List (Char × List Char)) (ch : Char)
    (hs : KeysSorted st.2) : KeysSorted (encodeStep st ch).2 := by
  unfold encodeStep
  exact keysSorted_mapModify _ _ _ _ hs

/-- The map that `encodeText` leaves behind: every character of the text has an entry,
namely its old one, or the empty string if it had none; other keys are untouched. -/
theorem mapFind_encodeTextState_aux (text : List Char) (st : List Char × List (Char × List Char))
    (hs : KeysSorted st.2) (c : Char) :
    mapFind c (text.foldl encodeStep st).2
      = if c ∈ text then some ((mapFind c st.2).getD []) else mapFind c st.2 := by
  induction text generalizing st with
  | nil => simp
  | cons x xs ih =>
    rw [List.foldl_cons, ih _ (keysSorted_encodeStep st x hs)]
    by_cases hcx : c = x
    · subst hcx
      rw [mapFind_encodeStep_self st c hs]
      simp
    · rw [mapFind_encodeStep_other st x c hcx]
      simp [hcx]

/-- C12, as amended: `encodeText` signals no error for a character without an entry. For
every text and every code table (a key-sorted map) it returns the concatenation of
`huffmanCode[ch]`, where a character without an entry contributes the empty string, and
it leaves that character in the map with the empty string as its code. -/
theorem encodeText_missing_entry (text : List Char) (huffmanCode : List (Char × List Char))
    (hsorted : KeysSorted huffmanCode) :
    encodeText text huffmanCode = text.flatMap (fun c => (mapFind c huffmanCode).getD [])
    ∧ ∀ c ∈ text, mapFind c huffmanCode = none →
        (mapFind c huffmanCode).getD [] = []
        ∧ mapFind c (encodeTextState text huffmanCode).2 = some [] := by
  refine ⟨encodeText_eq_flatMap text huffmanCode hsorted, ?_⟩
  intro c hc hnone
  refine ⟨by rw [hnone]; rfl, ?_⟩
  unfold encodeTextState
  rw [mapFind_encodeTextState_aux text ([], huffmanCode) hsorted c, if_pos hc]
  simp only
  rw [hnone]
  rfl

/-- C12, witness: encoding `ab` with the table `a: 0`, which has no entry for `b`. -/
theorem encodeText_missing_entry_witness :
    KeysSorted [('a', ['0'])]
    ∧ encodeText ['a', 'b'] [('a', ['0'])]
        = ['a', 'b'].flatMap (fun c => (mapFind c [('a', ['0'])]).getD [])
    ∧ ∀ c ∈ ['a', 'b'], mapFind c [('a', ['0'])] = none →
        (mapFind c [('a', ['0'])]).getD [] = []
        ∧ mapFind c (encodeTextState ['a', 'b'] [('a', ['0'])]).2 = some [] :=
  ⟨List.pairwise_singleton _ _,
    encodeText_missing_entry ['a', 'b'] [('a', ['0'])] (List.pairwise_singleton _ _)⟩

/-- C12, counterexample: the table `a: 0` has no entry for `b`, yet `encodeText` of `ab`
returns the bit-string `0` (the code of `b` replaced by the empty string) and leaves the
entry `b: ""` in the table. -/
theorem encodeText_substitutes_silently :
    'b' ∈ ['a', 'b']
    ∧ mapFind 'b' [('a', ['0'])] = none
    ∧ encodeTextState ['a', 'b'] [('a', ['0'])] = (['0'], [('a', ['0']), ('b', [])])
    ∧ encodeText ['a', 'b'] [('a', ['0'])] = ['0'] := by
  decide

/-! ## `trace` and null children -/

/-- The `throw` statement of `trace` is never reached: the pointer it tests has already
been dereferenced. -/
theorem trace_ne_thrown (fuel i : Nat) (txt : List Char) (root current : NodePtr)
    (out : List Char) : trace fuel i txt root current out ≠ some Outcome.thrown := by
  induction fuel generalizing i current out with
  | zero => simp [trace]
  | succ n ih =>
    cases current with
    | null => simp [trace]
    | node ch f l r =>
      rw [trace]
      split_ifs with h1 h2 h3 h4
      · exact ih _ _ _
      · simp
      · exact absurd h3 (by simp)
      · exact ih _ _ _
      · exact ih _ _ _

/-- C13, at the failing input: the table `a: 1` is rebuilt into a root with a null left
child; on the bit-string `0` the call `trace(0, bits, root, root, "")` steps onto that
null child and dereferences it (`current->ch`) before the null test, so the outcome is
undefined behaviour and not the error `Failed To Decode!`. -/
theorem trace_null_child_is_dereferenced :
    rebuildTree [('a', ['1'])] = NodePtr.node '$' 0 NodePtr.null (newNode 'a' 0)
    ∧ trace 2 0 ['0'] (NodePtr.node '$' 0 NodePtr.null (newNode 'a' 0))
        (NodePtr.node '$' 0 NodePtr.null (newNode 'a' 0)) [] = some Outcome.undefined
    ∧ ∀ fuel, trace fuel 0 ['0'] (NodePtr.node '$' 0 NodePtr.null (newNode 'a' 0))
        (NodePtr.node '$' 0 NodePtr.null (newNode 'a' 0)) [] ≠ some Outcome.thrown :=
  ⟨by decide, by decide, fun fuel => trace_ne_thrown fuel _ _ _ _ _⟩

/-! ## The table parser, line by line -/

theorem indexOf_first_colon (before after : List Char) (h : ':' ∉ before) :
    List.indexOf ':' (before ++ ':' :: after) = before.length := by
  induction before with
  | nil => simp
  | cons c cs ih =>
    have hc : c ≠ ':' := fun e => h (e ▸ List.mem_cons_self _ _)
    have hcs : ':' ∉ cs := fun e => h (List.mem_cons_of_mem _ e)
    rw [List.cons_append, List.indexOf_cons_ne _ hc, ih hcs]
    rfl

theorem findColon_none (temp : List Char) (h : ':' ∉ temp) : findColon temp = none := by
  unfold findColon
  have : ¬ List.indexOf ':' temp < temp.length := by
    rw [List.indexOf_lt_length]
    exact h
  rw [if_neg this]

theorem findColon_first (before after : List Char) (h : ':' ∉ before) :
    findColon (before ++ ':' :: after) = some before.length := by
  unfold findColon
  rw [indexOf_first_colon before after h]
  simp

theorem specCodeOf_first_colon (before code : List Char) (h : ':' ∉ before) :
    specCodeOf (before ++ ':' :: ' ' :: code) = some code := by
  induction before with
  | nil => simp [specCodeOf]
  | cons c cs ih =>
    have hc : c ≠ ':' := fun e => h (e ▸ List.mem_cons_self _ _)
    have hcs : ':' ∉ cs := fun e => h (List.mem_cons_of_mem _ e)
    have ih2 := ih hcs
    cases cs with
    | nil =>
      simp only [List.cons_append, List.nil_append] at ih2 ⊢
      rw [specCodeOf]
      simp only [hc, false_and, if_false]
      exact ih2
    | cons d ds =>
      simp only [List.cons_append] at ih2 ⊢
      rw [specCodeOf]
      simp only [hc, false_and, if_false]
      exact ih2

/-- C14, as amended: the table parser skips a line without a colon; at a line whose first
colon is its last character, `substr` throws and the parse is abandoned; at every other
line with a colon it registers the first character of the line with the substring that
starts two characters after the first colon; and when a space follows that first colon
this substring is the one that follows the first delimiter `": "` of the line. -/
theorem parseTable_line (temp : List Char) (lines : List (List Char))
    (charTable : List (Char × List Char)) :
    (':' ∉ temp → parseTable (temp :: lines) charTable = parseTable lines charTable)
    ∧ ∀ before after, temp = before ++ ':' :: after → ':' ∉ before →
        (after = [] → parseTable (temp :: lines) charTable = none)
        ∧ (after ≠ [] → parseTable (temp :: lines) charTable
            = parseTable lines
                (mapModify (temp.headD ' ') (fun _ => after.tail) [] charTable))
        ∧ (∀ code, after = ' ' :: code →
            after.tail = code ∧ specCodeOf temp = some code) := by
  constructor
  · intro h
    rw [parseTable, findColon_none temp h]
  · intro before after htemp hbefore
    have hfind := findColon_first before after hbefore
    rw [← htemp] at hfind
    refine ⟨?_, ?_, ?_⟩
    · intro hafter
      rw [parseTable, hfind]
      simp only
      rw [if_pos (by rw [htemp, hafter]; simp)]
    · intro hafter
      obtain ⟨x, xs, rfl⟩ := List.exists_cons_of_ne_nil hafter
      rw [parseTable, hfind]
      simp only
      rw [if_neg (by rw [htemp]; simp)]
      have hdrop : List.drop (before.length + 2) temp = xs := by
        rw [htemp]
        have : before ++ ':' :: x :: xs = (before ++ [':', x]) ++ xs := by simp
        rw [this]
        have hl : before.length + 2 = (before ++ [':', x]).length := by simp
        rw [hl, List.drop_left]
      rw [hdrop]
      rfl
    · intro code hcode
      subst hcode
      refine ⟨rfl, ?_⟩
      rw [htemp]
      exact specCodeOf_first_colon before code hbefore

/-- C14, witness: the line `b01` is skipped, and the line `a: 01` registers `a` with the
code `01`, the substring after its delimiter. -/
theorem parseTable_line_witness :
    ':' ∉ ['b', '0', '1']
    ∧ parseTable [['b', '0', '1'], ['a', ':', ' ', '0', '1']] []
        = parseTable [['a', ':', ' ', '0', '1']] []
    ∧ ':' ∉ ['a']
    ∧ parseTable [['a', ':', ' ', '0', '1']] []
        = parseTable [] (mapModify 'a' (fun _ => ['0', '1']) [] [])
    ∧ specCodeOf ['a', ':', ' ', '0', '1'] = some ['0', '1'] :=
  ⟨by decide,
    (parseTable_line ['b', '0', '1'] [['a', ':', ' ', '0', '1']] []).1 (by decide),
    by decide,
    ((parseTable_line ['a', ':', ' ', '0', '1'] [] []).2 ['a'] [' ', '0', '1'] rfl
      (by decide)).2.1 (by simp),
    (((parseTable_line ['a', ':', ' ', '0', '1'] [] []).2 ['a'] [' ', '0', '1'] rfl
      (by decide)).2.2 ['0', '1'] rfl).2⟩

/-- C14, counterexample: the line `:: 0`, which `writeHuffmanTable` writes for the symbol
`':'`, is registered with the code ` 0` although the substring after its delimiter is
`0`; the line `a:x01` is registered with the code `01` although it holds no delimiter;
and the line `a:` is neither skipped nor registered: the whole parse is abandoned. -/
theorem parseTable_ignores_delimiter :
    parseTable [[':', ':', ' ', '0']] [] = some [(':', [' ', '0'])]
    ∧ specCodeOf [':', ':', ' ', '0'] = some ['0']
    ∧ parseTable [['a', ':', 'x', '0', '1']] [] = some [('a', ['0', '1'])]
    ∧ specCodeOf ['a', ':', 'x', '0', '1'] = none
    ∧ parseTable [['b', ':', ' ', '1'], ['a', ':']] [] = none := by
  decide

/-! ## The rebuilt tree against the built tree -/

/-- C15, at the failing input: for the text `a$` the built tree has the two leaves `'$'`
and `'a'`, the table holds the single entry `a: 1` (with the entry `$: ""` added by
`encodeText`), and the tree rebuilt from either table has a null left child where the
built tree has the leaf `'$'`. -/
theorem rebuilt_tree_lacks_sentinel_leaf :
    buildHuffmanTree (calculateFrequency ['a', '$'])
      = some (NodePtr.node '$' 2 (newNode '$' 1) (newNode 'a' 1))
    ∧ storeCodes (NodePtr.node '$' 2 (newNode '$' 1) (newNode 'a' 1)) [] [] = [('a', ['1'])]
    ∧ (encodeTextState ['a', '$']
        (storeCodes (NodePtr.node '$' 2 (newNode '$' 1) (newNode 'a' 1)) [] [])).2
      = [('$', []), ('a', ['1'])]
    ∧ rebuildTree [('a', ['1'])] = NodePtr.node '$' 0 NodePtr.null (newNode 'a' 0)
    ∧ rebuildTree [('$', []), ('a', ['1'])] = NodePtr.node '$' 0 NodePtr.null (newNode 'a' 0)
    ∧ skeleton (NodePtr.node '$' 2 (newNode '$' 1) (newNode 'a' 1))
      = NodePtr.node '$' 0 (newNode '$' 0) (newNode 'a' 0) := by
  decide

/-- For every non-empty text without `'$'` the tree rebuilt from the code table is the
built tree with every `freq` cleared. -/
theorem rebuilt_tree_off_sentinel (text : List Char) (hne : text ≠ []) (hd : '$' ∉ text) :
    ∃ tree, buildHuffmanTree (calculateFrequency text) = some tree
      ∧ rebuildTree (storeCodes tree [] []) = skeleton tree := by
  obtain ⟨t, h1, _, hwf, hp, hnd⟩ := built_tree text hne
  refine ⟨t, h1, rebuildTree_storeCodes t hwf hnd ?_⟩
  exact fun h => hd ((mem_leaves_built text t hp _).mp h)

/-- Instance of `rebuilt_tree_off_sentinel` at the text `aaaa`. -/
theorem rebuilt_tree_off_sentinel_witness :
    ['a', 'a', 'a', 'a'] ≠ [] ∧ '$' ∉ ['a', 'a', 'a', 'a']
    ∧ ∃ tree, buildHuffmanTree (calculateFrequency ['a', 'a', 'a', 'a']) = some tree
      ∧ rebuildTree (storeCodes tree [] []) = skeleton tree :=
  ⟨by decide, by decide,
    rebuilt_tree_off_sentinel ['a', 'a', 'a', 'a'] (by decide) (by decide)⟩

/-! ## `trace` against `decodeText` -/

theorem sentinelTree_cases (t : NodePtr) (h : SentinelTree t) :
    (∃ c f, c ≠ '$' ∧ t = NodePtr.node c f NodePtr.null NodePtr.null)
    ∨ (∃ f l r, t = NodePtr.node '$' f l r ∧ SentinelTree l ∧ SentinelTree r) := by
  cases t with
  | null => exact absurd h (by simp [SentinelTree])
  | node c f l r =>
    simp only [SentinelTree] at h
    rcases h with ⟨hc, hl, hr⟩ | ⟨hc, hl, hr⟩
    · left; exact ⟨c, f, hc, by rw [hl, hr]⟩
    · right; exact ⟨f, l, r, by rw [hc], hl, hr⟩

theorem sentinelTree_ne_null (t : NodePtr) (h : SentinelTree t) : t ≠ NodePtr.null := by
  intro e; subst e; exact h

/-- From an inner node of a tree in which exactly the nodes labelled `'$'` have children
(two each), `trace` and the loop of `decodeText` compute the same outcome. -/
theorem trace_eq_decodeLoop (root : NodePtr) (f0 : Int) (l0 r0 : NodePtr)
    (hroot : root = NodePtr.node '$' f0 l0 r0) (hl0 : SentinelTree l0) (hr0 : SentinelTree r0)
    (bits : List Char) (f : Int) (l r : NodePtr) (hl : SentinelTree l) (hr : SentinelTree r)
    (before out : List Char) (fuel : Nat) (hfuel : 2 * bits.length + 1 ≤ fuel) :
    trace fuel before.length (before ++ bits) root (NodePtr.node '$' f l r) out
      = some (decodeLoop root (NodePtr.node '$' f l r) out bits) := by
  induction bits generalizing f l r before out fuel with
  | nil =>
    obtain ⟨k, rfl⟩ : ∃ k, fuel = k + 1 := ⟨fuel - 1, by omega⟩
    rw [List.append_nil, trace_end]
    rfl
  | cons bit rest ih =>
    obtain ⟨k, rfl⟩ : ∃ k, fuel = (k + 1) + 1 := ⟨fuel - 2, by simp at hfuel; omega⟩
    have hk : 2 * rest.length + 1 ≤ k := by simp at hfuel; omega
    have e4 : before ++ bit :: rest = (before ++ [bit]) ++ rest := by simp
    have e5 : before.length + 1 = (before ++ [bit]).length := by simp
    rw [trace_descend]
    have hnext : SentinelTree (if bit = '0' then l else r) := by
      split_ifs
      · exact hl
      · exact hr
    rcases sentinelTree_cases _ hnext with ⟨c, f2, hc, e⟩ | ⟨f2, l2, r2, e, hl2, hr2⟩
    · rw [decodeLoop_step root '$' f l r out bit rest c f2 NodePtr.null NodePtr.null e, e]
      simp only [and_self, if_true]
      rw [trace_leaf _ _ _ _ _ _ _ _ _ hc, e4, e5, hroot]
      have := ih f0 l0 r0 hl0 hr0 (before ++ [bit]) (out ++ [c]) k hk
      rw [hroot] at this
      exact this
    · rw [decodeLoop_step root '$' f l r out bit rest '$' f2 l2 r2 e, e]
      have hl2n := sentinelTree_ne_null l2 hl2
      simp only [hl2n, false_and, if_false]
      rw [e4, e5]
      exact ih f2 l2 r2 hl2 hr2 (before ++ [bit]) out (k + 1) (by omega)

/-- C16: for every tree whose root has children, in which every node labelled `'$'` has
exactly two children and every other node has none, and for every bit-string,
`trace(0, bits, root, root, "")` returns what `decodeText(root, bits)` returns, as soon
as its recursion budget covers two calls per bit and the final call. -/
theorem trace_agrees_with_decodeText (c : Char) (f : Int) (l r : NodePtr)
    (hshape : SentinelTree (NodePtr.node c f l r))
    (hchildren : l ≠ NodePtr.null ∨ r ≠ NodePtr.null) (bits : List Char) (fuel : Nat)
    (hfuel : 2 * bits.length + 1 ≤ fuel) :
    trace fuel 0 bits (NodePtr.node c f l r) (NodePtr.node c f l r) []
      = some (decodeText (NodePtr.node c f l r) bits) := by
  simp only [SentinelTree] at hshape
  rcases hshape with ⟨_, hl, hr⟩ | ⟨hc, hl, hr⟩
  · rcases hchildren with h | h
    · exact absurd hl h
    · exact absurd hr h
  · subst hc
    have := trace_eq_decodeLoop (NodePtr.node '$' f l r) f l r rfl hl hr bits f l r hl hr
      [] [] fuel hfuel
    simpa [decodeText] using this

/-- C16, witness: the two decoders on a three-node tree and the bit-string `01x0`. -/
theorem trace_agrees_with_decodeText_witness :
    SentinelTree (NodePtr.node '$' 0 (newNode 'a' 0) (newNode 'b' 0))
    ∧ (newNode 'a' 0 ≠ NodePtr.null ∨ newNode 'b' 0 ≠ NodePtr.null)
    ∧ 2 * ['0', '1', 'x', '0'].length + 1 ≤ 9
    ∧ trace 9 0 ['0', '1', 'x', '0'] (NodePtr.node '$' 0 (newNode 'a' 0) (newNode 'b' 0))
        (NodePtr.node '$' 0 (newNode 'a' 0) (newNode 'b' 0)) []
      = some (decodeText (NodePtr.node '$' 0 (newNode 'a' 0) (newNode 'b' 0))
          ['0', '1', 'x', '0']) := by
  have hs : SentinelTree (NodePtr.node '$' 0 (newNode 'a' 0) (newNode 'b' 0)) := by
    simp [SentinelTree, newNode]
  exact ⟨hs, Or.inl (by decide), by decide,
    trace_agrees_with_decodeText '$' 0 (newNode 'a' 0) (newNode 'b' 0) hs
      (Or.inl (by decide)) ['0', '1', 'x', '0'] 9 (by decide)⟩

/-! ## Shape of the built tree -/

/-- In a well-formed tree every node has no children or two, and a node with children
carries `'$'` and the `int` sum of its children's `freq`. -/
theorem wellFormed_nodes (t : NodePtr) (hwf : WellFormed t) (n : NodePtr) (hn : n ∈ nodes t) :
    ∃ c f l r, n = NodePtr.node c f l r
      ∧ ((l = NodePtr.null ∧ r = NodePtr.null)
        ∨ (l ≠ NodePtr.null ∧ r ≠ NodePtr.null ∧ c = '$'
          ∧ f = wrapInt (l.freqOf + r.freqOf))) := by
  induction t with
  | null => exact absurd hwf (by simp [WellFormed])
  | node c f l r ihl ihr =>
    simp only [WellFormed] at hwf
    simp only [nodes, List.mem_cons, List.mem_append] at hn
    rcases hn with e | e | e
    · refine ⟨c, f, l, r, e, ?_⟩
      rcases hwf with h | ⟨hc, hf, hl, hr⟩
      · exact Or.inl h
      · exact Or.inr ⟨wellFormed_ne_null l hl, wellFormed_ne_null r hr, hc, hf⟩
    · rcases hwf with ⟨hl, _⟩ | ⟨_, _, hl, _⟩
      · rw [hl] at e
        simp [nodes] at e
      · exact ihl hl e
    · rcases hwf with ⟨_, hr⟩ | ⟨_, _, _, hr⟩
      · rw [hr] at e
        simp [nodes] at e
      · exact ihr hr e

/-- In a well-formed tree without overflow every node has no children or two, and a node
with children carries `'$'` and exactly the sum of its children's `freq`. -/
theorem exactSums_nodes (t : NodePtr) (hwf : WellFormed t) (hex : ExactSums t) (n : NodePtr)
    (hn : n ∈ nodes t) :
    ∃ c f l r, n = NodePtr.node c f l r
      ∧ ((l = NodePtr.null ∧ r = NodePtr.null)
        ∨ (l ≠ NodePtr.null ∧ r ≠ NodePtr.null ∧ c = '$' ∧ f = l.freqOf + r.freqOf)) := by
  induction t with
  | null => exact absurd hwf (by simp [WellFormed])
  | node c f l r ihl ihr =>
    simp only [WellFormed] at hwf
    simp only [ExactSums] at hex
    simp only [nodes, List.mem_cons, List.mem_append] at hn
    rcases hwf with h | ⟨hc, _, hl, hr⟩
    · rcases hn with e | e | e
      · exact ⟨c, f, l, r, e, Or.inl h⟩
      · rw [h.1] at e
        simp [nodes] at e
      · rw [h.2] at e
        simp [nodes] at e
    · rcases hex with ⟨hln, _, _⟩ | ⟨hf, el, er⟩
      · exact absurd hln (wellFormed_ne_null l hl)
      · rcases hn with e | e | e
        · exact ⟨c, f, l, r, e,
            Or.inr ⟨wellFormed_ne_null l hl, wellFormed_ne_null r hr, hc, hf⟩⟩
        · exact ihl hl el e
        · exact ihr hr er e

/-- C17, amended: for every non-empty frequency table whose counts are non-negative and
add up to less than `2^31` (so that no `int` sum overflows), `buildHuffmanTree` returns a
tree in which every node has either no children or exactly two, every node with children
carries `'$'` and a `freq` equal to the sum of its two children's `freq`, and the `freq`
of the root is the sum of all counts in the table. -/
theorem built_tree_is_well_formed_within_int (frequency : List (Char × Int))
    (hne : frequency ≠ []) (hpos : ∀ p ∈ frequency, 0 ≤ p.2)
    (hsum : (frequency.map Prod.snd).sum < 2147483648) :
    ∃ t, buildHuffmanTree frequency = some t
      ∧ (∀ n ∈ nodes t, ∃ c f l r, n = NodePtr.node c f l r
          ∧ ((l = NodePtr.null ∧ r = NodePtr.null)
            ∨ (l ≠ NodePtr.null ∧ r ≠ NodePtr.null ∧ c = '$' ∧ f = l.freqOf + r.freqOf)))
      ∧ t.freqOf = (frequency.map Prod.snd).sum := by
  obtain ⟨t, h1, h3, h4, h5, _⟩ := buildHuffmanTree_le_assignment frequency hne hpos hsum
  refine ⟨t, h1, exactSums_nodes t h3 h5, ?_⟩
  rw [exactSums_freqOf_eq_sum t h5]
  exact (h4.map Prod.snd).sum_eq

/-- C17, witness: the tree built from the frequencies a:2, b:3, c:2. -/
theorem built_tree_is_well_formed_within_int_witness :
    ([('a', 2), ('b', 3), ('c', 2)] : List (Char × Int)) ≠ []
    ∧ (∀ p ∈ ([('a', 2), ('b', 3), ('c', 2)] : List (Char × Int)), 0 ≤ p.2)
    ∧ (([('a', 2), ('b', 3), ('c', 2)] : List (Char × Int)).map Prod.snd).sum < 2147483648
    ∧ ∃ t, buildHuffmanTree [('a', 2), ('b', 3), ('c', 2)] = some t
      ∧ (∀ n ∈ nodes t, ∃ c f l r, n = NodePtr.node c f l r
          ∧ ((l = NodePtr.null ∧ r = NodePtr.null)
            ∨ (l ≠ NodePtr.null ∧ r ≠ NodePtr.null ∧ c = '$' ∧ f = l.freqOf + r.freqOf)))
      ∧ t.freqOf = ([('a', 2), ('b', 3), ('c', 2)].map Prod.snd).sum :=
  ⟨by decide, by decide, by decide,
    built_tree_is_well_formed_within_int [('a', 2), ('b', 3), ('c', 2)] (by decide)
      (by decide) (by decide)⟩

/-- C17, at the failing input: for the table a:2147483647, b:1 the only merge stores
`1 + 2147483647` in an `int`; the root is left with `freq` `-2147483648`, which is neither
the sum of its children's `freq` nor the sum of the counts in the table, `2147483648`. -/
theorem built_tree_root_freq_overflows :
    buildHuffmanTree [('a', 2147483647), ('b', 1)]
      = some (NodePtr.node '$' (-2147483648) (newNode 'b' 1) (newNode 'a' 2147483647))
    ∧ NodePtr.node '$' (-2147483648) (newNode 'b' 1) (newNode 'a' 2147483647)
      ∈ nodes (NodePtr.node '$' (-2147483648) (newNode 'b' 1) (newNode 'a' 2147483647))
    ∧ newNode 'b' 1 ≠ NodePtr.null
    ∧ (newNode 'b' 1).freqOf + (newNode 'a' 2147483647).freqOf = 2147483648
    ∧ (NodePtr.node '$' (-2147483648) (newNode 'b' 1) (newNode 'a' 2147483647)).freqOf
      = -2147483648
    ∧ (([('a', 2147483647), ('b', 1)] : List (Char × Int)).map Prod.snd).sum = 2147483648 := by
  decide

/-- For every non-empty frequency table `buildHuffmanTree` returns a tree in which every
node has either no children or exactly two, and every node with children carries `'$'`
and the `int` sum of its two children's `freq`: their sum reduced modulo `2^32` into the
range of `int`. -/
theorem built_tree_shape (frequency : List (Char × Int)) (hne : frequency ≠ []) :
    ∃ t, buildHuffmanTree frequency = some t
      ∧ ∀ n ∈ nodes t, ∃ c f l r, n = NodePtr.node c f l r
          ∧ ((l = NodePtr.null ∧ r = NodePtr.null)
            ∨ (l ≠ NodePtr.null ∧ r ≠ NodePtr.null ∧ c = '$'
              ∧ f = wrapInt (l.freqOf + r.freqOf))) := by
  obtain ⟨t, h1, _, h3, _⟩ := buildHuffmanTree_spec frequency hne
  exact ⟨t, h1, wellFormed_nodes t h3⟩

/-- Instance of `built_tree_shape` at the table a:2147483647, b:1, where the sum
overflows. -/
theorem built_tree_shape_witness :
    ([('a', 2147483647), ('b', 1)] : List (Char × Int)) ≠ []
    ∧ ∃ t, buildHuffmanTree [('a', 2147483647), ('b', 1)] = some t
      ∧ ∀ n ∈ nodes t, ∃ c f l r, n = NodePtr.node c f l r
          ∧ ((l = NodePtr.null ∧ r = NodePtr.null)
            ∨ (l ≠ NodePtr.null ∧ r ≠ NodePtr.null ∧ c = '$'
              ∧ f = wrapInt (l.freqOf + r.freqOf))) :=
  ⟨by decide, built_tree_shape [('a', 2147483647), ('b', 1)] (by decide)⟩

/-- C18: for every text that has at least two distinct symbols and does not contain
`'$'`, `decodeText(tree, encodeText(T, table))` equals the text, where the tree is built
from the frequencies of the text and the table is filled by `storeCodes(tree, "")`. -/
theorem roundtrip_two_symbols_no_sentinel (text : List Char) (a b : Char) (ha : a ∈ text)
    (hb : b ∈ text) (hab : a ≠ b) (hd : '$' ∉ text) :
    ∃ tree, buildHuffmanTree (calculateFrequency text) = some tree
      ∧ decodeText tree (encodeText text (storeCodes tree [] [])) = Outcome.returned text :=
  roundtrip_decodeText text a b ha hb hab hd

/-- C18, witness: the round trip at the text `aabbbcc`. -/
theorem roundtrip_two_symbols_no_sentinel_witness :
    'a' ∈ ['a', 'a', 'b', 'b', 'b', 'c', 'c'] ∧ 'b' ∈ ['a', 'a', 'b', 'b', 'b', 'c', 'c']
    ∧ 'a' ≠ 'b' ∧ '$' ∉ ['a', 'a', 'b', 'b', 'b', 'c', 'c']
    ∧ ∃ tree, buildHuffmanTree (calculateFrequency ['a', 'a', 'b', 'b', 'b', 'c', 'c'])
        = some tree
      ∧ decodeText tree (encodeText ['a', 'a', 'b', 'b', 'b', 'c', 'c'] (storeCodes tree [] []))
          = Outcome.returned ['a', 'a', 'b', 'b', 'b', 'c', 'c'] :=
  ⟨by decide, by decide, by decide, by decide,
    roundtrip_two_symbols_no_sentinel ['a', 'a', 'b', 'b', 'b', 'c', 'c'] 'a' 'b'
      (by decide) (by decide) (by decide) (by decide)⟩

/-- C19: for every text that has at least two distinct symbols and contains none of
`'$'`, `':'` and newline, writing the code table as `writeHuffmanTable` does, splitting
the output into lines, parsing and rebuilding the tree as `decodeFromFile` does, and
running `trace(0, encodeText(T, table), root, root, "")` returns the text, for every
recursion budget of at least one call per bit and per symbol plus one. -/
theorem roundtrip_file_two_symbols_plain (text : List Char) (a b : Char) (ha : a ∈ text)
    (hb : b ∈ text) (hab : a ≠ b) (hd : '$' ∉ text) (hcolon : ':' ∉ text)
    (hnl : '\n' ∉ text) :
    ∃ tree charTable, buildHuffmanTree (calculateFrequency text) = some tree
      ∧ parseTable (getlines []
          (writeHuffmanTable (encodeTextState text (storeCodes tree [] [])).2)) []
        = some charTable
      ∧ ∀ fuel, traceCost (mapIndex (storeCodes tree [] [])) text + 1 ≤ fuel →
          trace fuel 0 (encodeText text (storeCodes tree [] []))
              (rebuildTree charTable) (rebuildTree charTable) []
            = some (Outcome.returned text) := by
  obtain ⟨tree, root, h1, h2, _, h3⟩ := roundtrip_trace text a b ha hb hab hd hcolon hnl
  unfold loadTree at h2
  cases hparse : parseTable (getlines []
      (writeHuffmanTable (encodeTextState text (storeCodes tree [] [])).2)) [] with
  | none =>
    rw [hparse] at h2
    cases h2
  | some charTable =>
    rw [hparse] at h2
    simp only [Option.map_some'] at h2
    injection h2 with h2
    subst h2
    exact ⟨tree, charTable, h1, hparse, h3⟩

/-- C19, witness: the round trip through the table file at the text `aabbbcc`. -/
theorem roundtrip_file_two_symbols_plain_witness :
    'a' ∈ ['a', 'a', 'b', 'b', 'b', 'c', 'c'] ∧ 'b' ∈ ['a', 'a', 'b', 'b', 'b', 'c', 'c']
    ∧ 'a' ≠ 'b' ∧ '$' ∉ ['a', 'a', 'b', 'b', 'b', 'c', 'c']
    ∧ ':' ∉ ['a', 'a', 'b', 'b', 'b', 'c', 'c'] ∧ '\n' ∉ ['a', 'a', 'b', 'b', 'b', 'c', 'c']
    ∧ ∃ tree charTable,
        buildHuffmanTree (calculateFrequency ['a', 'a', 'b', 'b', 'b', 'c', 'c']) = some tree
      ∧ parseTable (getlines [] (writeHuffmanTable
          (encodeTextState ['a', 'a', 'b', 'b', 'b', 'c', 'c'] (storeCodes tree [] [])).2)) []
        = some charTable
      ∧ ∀ fuel, traceCost (mapIndex (storeCodes tree [] []))
            ['a', 'a', 'b', 'b', 'b', 'c', 'c'] + 1 ≤ fuel →
          trace fuel 0 (encodeText ['a', 'a', 'b', 'b', 'b', 'c', 'c'] (storeCodes tree [] []))
              (rebuildTree charTable) (rebuildTree charTable) []
            = some (Outcome.returned ['a', 'a', 'b', 'b', 'b', 'c', 'c']) :=
  ⟨by decide, by decide, by decide, by decide, by decide, by decide,
    roundtrip_file_two_symbols_plain ['a', 'a', 'b', 'b', 'b', 'c', 'c'] 'a' 'b'
      (by decide) (by decide) (by decide) (by decide) (by decide) (by decide)⟩

/-! ## Termination of `trace` -/

theorem trace_step_sentinel (fuel i : Nat) (txt : List Char) (root : NodePtr) (f : Int)
    (l r : NodePtr) (out : List Char) (hi : i ≠ txt.length) :
    trace (fuel + 1) i txt root (NodePtr.node '$' f l r) out
      = trace fuel (i + 1) txt root (if txt.getD i ' ' = '0' then l else r) out := by
  have h3 : NodePtr.node '$' f l r ≠ NodePtr.null := by simp
  rw [trace]
  simp only [ne_eq, not_true_eq_false, ↓reduceIte, hi, h3]
  split_ifs <;> rfl

/-- With a root that carries `'$'` the recursion ends from every position and every
current node: each call consumes a bit, returns, dereferences null, or goes back to the
root, and from the root the next call consumes a bit or returns. -/
theorem trace_terminates_aux (f0 : Int) (l0 r0 : NodePtr) (txt : List Char) (k : Nat) :
    ∀ i, i + k = txt.length → ∀ (current : NodePtr) (out : List Char),
      ∃ fuel res, trace fuel i txt (NodePtr.node '$' f0 l0 r0) current out = some res := by
  induction k with
  | zero =>
    intro i hi current out
    have hlen : i = txt.length := by omega
    subst hlen
    cases current with
    | null => exact ⟨1, Outcome.undefined, rfl⟩
    | node c f l r =>
      by_cases hc : c = '$'
      · subst hc
        exact ⟨1, Outcome.returned out, trace_end _ _ _ _ _ _ _⟩
      · refine ⟨2, Outcome.returned (out ++ [c]), ?_⟩
        rw [trace_leaf _ _ _ _ _ _ _ _ _ hc]
        exact trace_end _ _ _ _ _ _ _
  | succ k ih =>
    intro i hi current out
    have hne : i ≠ txt.length := by omega
    have hA : ∀ (f : Int) (l r : NodePtr) (out : List Char), ∃ fuel res,
        trace fuel i txt (NodePtr.node '$' f0 l0 r0) (NodePtr.node '$' f l r) out
          = some res := by
      intro f l r out
      obtain ⟨fuel, res, h⟩ := ih (i + 1) (by omega)
        (if txt.getD i ' ' = '0' then l else r) out
      exact ⟨fuel + 1, res, by rw [trace_step_sentinel _ _ _ _ _ _ _ _ hne]; exact h⟩
    cases current with
    | null => exact ⟨1, Outcome.undefined, rfl⟩
    | node c f l r =>
      by_cases hc : c = '$'
      · subst hc
        exact hA f l r out
      · obtain ⟨fuel, res, h⟩ := hA f0 l0 r0 (out ++ [c])
        exact ⟨fuel + 1, res, by rw [trace_leaf _ _ _ _ _ _ _ _ _ hc]; exact h⟩

/-- C20: for every tree (a root node with any children) and every bit-string, the
recursion `trace(0, bits, root, root, "")` ends, with an output or a failure, exactly when
the root carries `'$'`; when the root carries a symbol every call made at the root calls
`trace` again at the same position with the symbol appended, so no budget suffices; and
a table whose only entry has an empty code is rebuilt into such a root. -/
theorem trace_terminates_iff_sentinel_root (c : Char) (f : Int) (l r : NodePtr)
    (bits : List Char) :
    ((∃ fuel res, trace fuel 0 bits (NodePtr.node c f l r) (NodePtr.node c f l r) []
        = some res) ↔ c = '$')
    ∧ (c ≠ '$' → ∀ fuel i out,
        trace (fuel + 1) i bits (NodePtr.node c f l r) (NodePtr.node c f l r) out
          = trace fuel i bits (NodePtr.node c f l r) (NodePtr.node c f l r) (out ++ [c])
        ∧ trace fuel i bits (NodePtr.node c f l r) (NodePtr.node c f l r) out = none)
    ∧ rebuildTree [(c, [])] = NodePtr.node c 0 NodePtr.null NodePtr.null := by
  refine ⟨⟨?_, ?_⟩, ?_, rfl⟩
  · rintro ⟨fuel, res, h⟩
    by_contra hc
    rw [trace_symbol_root fuel 0 bits c f l r hc] at h
    cases h
  · intro hc
    subst hc
    exact trace_terminates_aux f l r bits bits.length 0 (by omega) _ _
  · intro hc fuel i out
    exact ⟨trace_leaf _ _ _ _ _ _ _ _ _ hc, trace_symbol_root fuel i bits c f l r hc _⟩

/-- For every tree, bit-string, position, current node and recursion budget, `trace`
never ends with the error `Failed To Decode!`: a null current node is dereferenced by
the test `current->ch != '$'` before the statement that would throw. -/
theorem trace_never_throws (fuel i : Nat) (txt : List Char) (root current : NodePtr)
    (out : List Char) : trace fuel i txt root current out ≠ some Outcome.thrown :=
  trace_ne_thrown fuel i txt root current out

end Huffman
